import Mathlib

/-!
Verification of the file_tree repository (src/src/file_tree.pyx) against its
natural-language specification.

Modelling conventions, used throughout:

* Python strings are modelled as `List Char` (`Name`); Python string
  operations (`strip`, `lstrip`, `splitlines`, `replace`, `endswith`,
  lexicographic `<`) are modelled by executable Lean functions defined below.
  Whitespace is modelled as the ASCII whitespace set; `splitlines` is
  modelled as splitting on the newline character (the only terminator the
  encoders ever emit).
* A Python `TreeNode` object is modelled by the inductive `TreeNode` below,
  carrying the same four fields as the Cython class: `name`, `is_leaf`,
  `children` (in stored order), and `non_leaf_names`.  The Python `set` field
  `non_leaf_names` is modelled as a duplicate-free list built by
  insert-if-absent; the only consumer (`where`) reads it through `sorted`,
  so the missing order of the Python set is immaterial.
* Python dicts (which preserve insertion order) are modelled as association
  lists with the Python assignment semantics: assigning to an existing key
  keeps its position, assigning a fresh key appends.
* Stateful stack loops that mutate nodes in place (`from_repr`, `from_md`)
  are modelled with explicit stacks of frames; a frame accumulates the
  children added to an open directory and is closed into a `TreeNode` when
  popped, which produces exactly the tree the Python mutation produces.
* The filesystem consumed by the builders is modelled by the inductive `FS`;
  `os.listdir` order is the stored entry order, `os.path.isdir` is the
  constructor tag, and `os.path.relpath(join(cur, item), root)` is the
  accumulated relative path.
-/

/-- Python strings as lists of characters. -/
abbrev Name := List Char

/-- Shorthand turning a Lean string literal into the `List Char` model. -/
def chars (s : String) : Name := s.toList

/-- Model of Python whitespace (ASCII subset; `str.strip` and friends). -/
def pyIsSpace (c : Char) : Bool :=
  c = ' ' || c = '\t' || c = '\n' || c = '\x0d' || c = '\x0b' || c = '\x0c'

/-- Model of `str.lstrip()`. -/
def pyLstrip (s : Name) : Name := s.dropWhile pyIsSpace

/-- Model of `str.rstrip()`. -/
def pyRstrip (s : Name) : Name := (s.reverse.dropWhile pyIsSpace).reverse

/-- Model of `str.strip()`. -/
def pyStrip (s : Name) : Name := pyRstrip (pyLstrip s)

/-- Single-pass engine of `pySplitlines`: `cur` holds the current line in
reverse.  A newline closes the line; a trailing newline does not open a
final empty line. -/
def pySplitlinesGo : Name → Name → List Name
  | [], cur => [cur.reverse]
  | c :: rest, cur =>
    if c = '\n' then cur.reverse :: (if rest.isEmpty then [] else pySplitlinesGo rest [])
    else pySplitlinesGo rest (c :: cur)

/-- Model of `str.splitlines()` (newline terminator only): the empty string
yields no lines, and a trailing newline does not produce a final empty
line. -/
def pySplitlines (s : Name) : List Name :=
  if s.isEmpty then [] else pySplitlinesGo s []

/-- Fuel-driven engine for `str.replace`: scans left to right, replaces each
non-overlapping occurrence of `pat`, and continues after the replacement.
The fuel only serves structural termination; `replaceAll` supplies enough. -/
def replaceGo (pat rep : Name) : Nat → Name → Name
  | 0, s => s
  | _ + 1, [] => []
  | fuel + 1, c :: cs =>
    if pat ≠ [] ∧ pat.isPrefixOf (c :: cs) then
      rep ++ replaceGo pat rep fuel ((c :: cs).drop pat.length)
    else
      c :: replaceGo pat rep fuel cs

/-- Model of Python `str.replace(pat, rep)` for a non-empty pattern. -/
def replaceAll (pat rep s : Name) : Name := replaceGo pat rep s.length s

/-- Model of Python `str.endswith(c)` for a single character. -/
def pyEndsWith (s : Name) (c : Char) : Bool := s.getLast? = some c

/-- Run of `n` spaces. -/
def spaces (n : Nat) : Name := List.replicate n ' '

/-- Model of `sep.join(lines)` with a single-newline separator, i.e.
`List.intercalate`. -/
def joinLines (ls : List Name) : Name := List.intercalate ['\n'] ls

/-! ## The TreeNode data model (file_tree.pyx lines 17-58) -/

/-- Model of the Cython `TreeNode`: `name`, `is_leaf`, the ordered `children`
list, and the `non_leaf_names` set (modelled as a duplicate-free list; for a
leaf the Python attribute is never created, modelled as `[]`). -/
inductive TreeNode : Type where
  | mk (name : Name) (is_leaf : Bool) (children : List TreeNode)
       (non_leaf_names : List Name)

/-- Model of `TreeNode.get_name`. -/
def TreeNode.name : TreeNode → Name
  | .mk n _ _ _ => n

/-- Model of `TreeNode.check_leaf`. -/
def TreeNode.check_leaf : TreeNode → Bool
  | .mk _ l _ _ => l

/-- Model of `TreeNode.get_children`. -/
def TreeNode.get_children : TreeNode → List TreeNode
  | .mk _ _ c _ => c

/-- The `non_leaf_names` field. -/
def TreeNode.nln : TreeNode → List Name
  | .mk _ _ _ s => s

/-- Model of `TreeNode.__init__(name, is_leaf)`: empty children; the
`non_leaf_names` set starts empty (and stays empty for a leaf). -/
def TreeNode.init (name : Name) (is_leaf : Bool) : TreeNode :=
  .mk name is_leaf [] []

/-- Insert-if-absent, the model of `set.add` for `non_leaf_names`. -/
def insName (x : Name) (l : List Name) : List Name :=
  if x ∈ l then l else l ++ [x]

/-- Model of `TreeNode.add_child`: append the child and, when it is not a
leaf, add its name to `non_leaf_names`. -/
def TreeNode.add_child : TreeNode → TreeNode → TreeNode
  | .mk n l ch s, c =>
      .mk n l (ch ++ [c]) (if c.check_leaf then s else insName c.name s)

/-- Attach a list of children one by one through `add_child`. -/
def attachAll (t : TreeNode) (cs : List TreeNode) : TreeNode :=
  cs.foldl TreeNode.add_child t

mutual

/-- Node count of a tree (termination measure for the stack loops). -/
def TreeNode.sz : TreeNode → Nat
  | .mk _ _ ch _ => 1 + szList ch

/-- Node count of a forest. -/
def szList : List TreeNode → Nat
  | [] => 0
  | t :: ts => TreeNode.sz t + szList ts

end

mutual

/-- Structural equality on the observable fields named by the round-trip
claims: name, leaf tag, children and their order; the derived
`non_leaf_names` cache is not part of the comparison. -/
def TreeNode.equiv : TreeNode → TreeNode → Bool
  | .mk n1 l1 c1 _, .mk n2 l2 c2 _ => n1 == n2 && l1 == l2 && equivList c1 c2

/-- Pointwise `TreeNode.equiv` on forests. -/
def equivList : List TreeNode → List TreeNode → Bool
  | [], [] => true
  | t :: ts, u :: us => TreeNode.equiv t u && equivList ts us
  | _, _ => false

end

mutual

/-- The `non_leaf_names` invariant, recursively: at every node the stored
set has no duplicates and holds exactly the names of the non-leaf
children. -/
def TreeNode.inv : TreeNode → Bool
  | .mk _ _ ch s =>
      s.Nodup &&
      s.all (fun x => ch.any (fun c => !c.check_leaf && c.name == x)) &&
      ch.all (fun c => c.check_leaf || c.name ∈ s) &&
      invList ch

/-- The invariant on every tree of a forest. -/
def invList : List TreeNode → Bool
  | [] => true
  | t :: ts => TreeNode.inv t && invList ts

end

/-- The `non_leaf_names` list a sequence of `add_child` calls builds for a
given children list. -/
def nlnOf (cs : List TreeNode) : List Name :=
  cs.foldl (fun acc c => if c.check_leaf then acc else insName c.name acc) []

mutual

/-- Canonical reconstruction: the tree a decoder rebuilds from the observable
fields, with every `non_leaf_names` recomputed through `add_child` and leaf
children dropped (a decoder never attaches children to a leaf). -/
def TreeNode.canon : TreeNode → TreeNode
  | .mk n l ch _ =>
      if l then .mk n true [] [] else
        .mk n false (canonList ch) (nlnOf (canonList ch))

/-- Pointwise `TreeNode.canon` on forests. -/
def canonList : List TreeNode → List TreeNode
  | [] => []
  | t :: ts => TreeNode.canon t :: canonList ts

end

/-! ### Well-formedness predicates used as theorem hypotheses -/

/-- Characters that survive the text codecs unchanged: no whitespace, no
path separator, none of the connector glyphs of either codec. -/
def charOk (c : Char) : Bool :=
  !pyIsSpace c && c ≠ '/' && c ≠ '│' && c ≠ '├' && c ≠ '└' && c ≠ '─' && c ≠ '|'

/-- A name the text codecs transport faithfully: non-empty and made of
`charOk` characters. -/
def nameOk (n : Name) : Bool := !n.isEmpty && n.all charOk

mutual

/-- Well-formed tree in the sense of the data model (spec section 3): codec
safe names and childless leaves. -/
def TreeNode.wf : TreeNode → Bool
  | .mk n l ch _ => nameOk n && (!l || ch.isEmpty) && wfList ch

/-- Well-formedness of every tree of a forest. -/
def wfList : List TreeNode → Bool
  | [] => true
  | t :: ts => TreeNode.wf t && wfList ts

end

mutual

/-- Sibling name uniqueness, recursively (spec section 3: a name is unique
among its siblings). -/
def TreeNode.uniq : TreeNode → Bool
  | .mk _ _ ch _ => (ch.map TreeNode.name).Nodup && uniqList ch

/-- Sibling uniqueness on every tree of a forest. -/
def uniqList : List TreeNode → Bool
  | [] => true
  | t :: ts => TreeNode.uniq t && uniqList ts

end

/-- Computable strict ascending chain on a name list (kernel-reducible form
of `List.Chain' (· < ·)`). -/
def namesChainLt : List Name → Bool
  | [] => true
  | [_] => true
  | x :: y :: rest => decide (x < y) && namesChainLt (y :: rest)

/-- The computable chain test is exactly `List.Chain' (· < ·)`. -/
theorem namesChainLt_iff : ∀ l : List Name,
    namesChainLt l = true ↔ List.Chain' (· < ·) l
  | [] => by simp [namesChainLt]
  | [x] => by simp [namesChainLt]
  | x :: y :: rest => by
    unfold namesChainLt
    simp [namesChainLt_iff (y :: rest), List.chain'_cons]

mutual

/-- Children strictly sorted by name at every node: the binary-search
precondition of spec section 9. -/
def TreeNode.sortedRec : TreeNode → Bool
  | .mk _ _ ch _ => namesChainLt (ch.map TreeNode.name) && sortedListRec ch

/-- Sortedness on every tree of a forest. -/
def sortedListRec : List TreeNode → Bool
  | [] => true
  | t :: ts => TreeNode.sortedRec t && sortedListRec ts

end

mutual

/-- Every non-leaf child is the last among its siblings, recursively.  This
is the class of trees on which the plain-listing decoder reattaches nodes to
the correct parent (see the C1 analysis). -/
def TreeNode.dirsLast : TreeNode → Bool
  | .mk _ _ ch _ => dirsLastList ch

/-- The `dirsLast` condition along a children list. -/
def dirsLastList : List TreeNode → Bool
  | [] => true
  | [t] => TreeNode.dirsLast t
  | t :: ts => t.check_leaf && TreeNode.dirsLast t && dirsLastList ts

end

/-! ## The plain indented listing codec (file_tree.pyx lines 60-131) -/

/-- The skip test `to_repr` applies to a popped `(node, level)` pair
(lines 76-81): a leaf deeper than a non-zero `file_depth`, or a directory
deeper than a non-zero `folder_depth`, is dropped together with its
subtree. -/
def reprSkip (fd ld : Nat) (isLeaf : Bool) (lvl : Nat) : Bool :=
  if isLeaf then ld ≠ 0 && lvl > ld else fd ≠ 0 && lvl > fd

/-- The text `to_repr` appends for one emitted `(node, level)` pair
(lines 83-90): at level 0 the bare name, deeper a newline, `4*level`
spaces and the `|-- ` connector; a trailing `/` marks a directory. -/
def reprPiece (nm : Name) (isLeaf : Bool) (lvl : Nat) : Name :=
  (if lvl > 0 then '\n' :: (spaces (4 * lvl) ++ chars "|-- " ++ nm) else nm) ++
    (if isLeaf then [] else ['/'])

mutual

/-- The `(name, is_leaf, level)` sequence `to_repr` emits from one node, in
emission order (children in stored order, each one level deeper). -/
def reprEmits (fd ld : Nat) : TreeNode → Nat → List (Name × Bool × Nat)
  | .mk n l ch _, lvl =>
    if reprSkip fd ld l lvl then []
    else (n, l, lvl) :: (if l then [] else reprEmitsList fd ld ch (lvl + 1))

/-- Emission of a forest of siblings, left to right. -/
def reprEmitsList (fd ld : Nat) : List TreeNode → Nat → List (Name × Bool × Nat)
  | [], _ => []
  | t :: ts, lvl => reprEmits fd ld t lvl ++ reprEmitsList fd ld ts lvl

end

/-- Concatenated text of an emission sequence. -/
def renderRepr (es : List (Name × Bool × Nat)) : Name :=
  es.foldr (fun e acc => reprPiece e.1 e.2.1 e.2.2 ++ acc) []

/-- Node counts add up over forest concatenation. -/
theorem szList_append (a b : List TreeNode) : szList (a ++ b) = szList a + szList b := by
  induction a with
  | nil => simp [szList]
  | cons x xs ih => simp [szList, ih]; omega

/-- Every tree has at least one node. -/
theorem sz_pos (t : TreeNode) : 0 < t.sz := by
  cases t with
  | mk n l ch s => simp [TreeNode.sz]

/-- Pairing a forest with a level leaves its node count unchanged. -/
theorem szList_map_pair (ch : List TreeNode) (lvl : Nat) :
    szList ((ch.map (fun c => (c, lvl))).map Prod.fst) = szList ch := by
  induction ch with
  | nil => simp [szList]
  | cons x xs ih => simp [szList] at *; omega

/-- Faithful model of the `to_repr` work-stack loop (lines 62-94): the Python
deque pushes and pops at the right end, modelled by a list whose head is the
stack top, so pushing `reversed(children)` one by one leaves the first child
on top, i.e. prepends the children in order. -/
def toReprLoop (fd ld : Nat) : List (TreeNode × Nat) → Name → Name
  | [], acc => acc
  | (t, lvl) :: rest, acc =>
    if reprSkip fd ld t.check_leaf lvl then toReprLoop fd ld rest acc
    else
      let acc' := acc ++ reprPiece t.name t.check_leaf lvl
      if t.check_leaf then toReprLoop fd ld rest acc'
      else toReprLoop fd ld (t.get_children.map (fun c => (c, lvl + 1)) ++ rest) acc'
termination_by stack => szList (stack.map Prod.fst)
decreasing_by
  · have := sz_pos t
    simp [szList]
    omega
  · have := sz_pos t
    simp [szList]
    omega
  · cases t with
    | mk n l ch s =>
      simp only [List.map_append, szList_append, szList_map_pair, List.map_cons, szList,
        TreeNode.get_children, TreeNode.sz]
      omega

/-- Model of `TreeNode.to_repr(level, depth)` (lines 60-94).  Negative depth
components raise in Python; depths are modelled as naturals, so that branch
is unreachable. -/
def TreeNode.to_repr (t : TreeNode) (level fd ld : Nat) : Name :=
  toReprLoop fd ld [(t, level)] []

/-- An open directory during decoding: the node name plus what `add_child`
has accumulated on the Python node object so far. -/
structure Frame where
  fname : Name
  fchildren : List TreeNode
  fnln : List Name

/-- The effect of `parent.add_child(node)` on an open frame. -/
def frameAdd (f : Frame) (c : TreeNode) : Frame :=
  { f with fchildren := f.fchildren ++ [c],
           fnln := if c.check_leaf then f.fnln else insName c.name f.fnln }

/-- Closing an open frame yields the directory node the Python code had been
mutating in place. -/
def closeFrame (f : Frame) : TreeNode :=
  .mk f.fname false f.fchildren f.fnln

/-- Pop `n` frames, each pop attaching the closed frame to the frame below
(the Python pop discards a reference; the attachment already happened at
creation time, which the frame model replays at pop time).  A stack of one
frame is never popped (the decoders only pop down to length at least 1). -/
def popN : Nat → List Frame → List Frame
  | 0, s => s
  | _ + 1, [] => []
  | _ + 1, [f] => [f]
  | n + 1, f :: g :: rest => popN n (frameAdd g (closeFrame f) :: rest)

/-- Model of `while len(node_stack) > k: node_stack.pop()`. -/
def popTo (k : Nat) (s : List Frame) : List Frame := popN (s.length - k) s

/-- Decoded content of one non-root body line of a listing: measured level,
leaf flag and extracted name (from_repr lines 109-118). -/
def reprParseLine (line : Name) : Nat × Bool × Name :=
  let indent := line.length - (pyLstrip line).length
  let level := indent / 4
  let content := pyStrip line
  let isLeaf := !pyEndsWith content '/'
  let nm :=
    if isLeaf then pyStrip (replaceAll (chars "|-- ") [] content)
    else pyStrip (replaceAll (chars "|-- ") [] (replaceAll ['/'] [] content))
  (level, isLeaf, nm)

/-- One iteration of the `from_repr` line loop (lines 109-129): truncate the
ancestor stack to length `level+1`, then attach a leaf to the top frame or
open a new directory frame. -/
def reprStep (stack : List Frame) (line : Name) : List Frame :=
  let p := reprParseLine line
  let s1 := popTo (p.1 + 1) stack
  match s1 with
  | [] => []
  | top :: rest =>
    if p.2.1 then frameAdd top (.mk p.2.2 true [] []) :: rest
    else Frame.mk p.2.2 [] [] :: top :: rest

/-- Model of `TreeNode.from_repr` (lines 99-131): `None` exactly when the
stripped input has no lines; otherwise the first line, with every `/`
removed, names the root (always a directory), and the remaining lines are
folded through `reprStep`. -/
def TreeNode.from_repr (s : Name) : Option TreeNode :=
  match pySplitlines (pyStrip s) with
  | [] => none
  | l0 :: rest =>
    let rootName := replaceAll ['/'] [] (pyStrip l0)
    match popTo 1 (rest.foldl reprStep [Frame.mk rootName [] []]) with
    | [f] => some (closeFrame f)
    | _ => none

/-! ## The box-drawing diagram codec (file_tree.pyx lines 133-218) -/

/-- The child filter of `to_md` (lines 167-172): a child at level `lvl1`
survives a non-zero cap of its kind when `lvl1` does not exceed it.  When
both caps are zero every child survives, which also covers the fast path of
lines 153-162. -/
def keepChild (fd ld lvl1 : Nat) (c : TreeNode) : Bool :=
  if c.check_leaf then ld = 0 || lvl1 ≤ ld else fd = 0 || lvl1 ≤ fd

/-- The full line `to_md` emits for one `(node, level, is_last, prefix)`
entry (lines 145-147): prefix, connector (none at level 0), name and the
directory marker. -/
def mdLine (cur : Name) (lvl : Nat) (isLast : Bool) (nm : Name) (isLeaf : Bool) : Name :=
  cur ++ (if lvl > 0 then (if isLast then chars "└── " else chars "├── ") else []) ++
    nm ++ (if isLeaf then [] else ['/'])

/-- The continuation prefix handed to the children (lines 150-151); at level
0 the Python closure reuses the outer `prefix` argument `pfx0`. -/
def mdNewPrefix (pfx0 cur : Name) (lvl : Nat) (isLast : Bool) : Name :=
  if lvl > 0 then cur ++ (if isLast then spaces 4 else chars "│   ") else pfx0

mutual

/-- The `(level, is_leaf, line)` sequence `to_md` emits from one node: the
node line, then the surviving children in stored order, the last survivor
flagged as last sibling. -/
def mdEmits (fd ld : Nat) (pfx0 : Name) :
    TreeNode → Nat → Bool → Name → List (Nat × Bool × Name)
  | .mk n l ch _, lvl, isLast, cur =>
    let line := mdLine cur lvl isLast n l
    if l then [(lvl, true, line)]
    else
      (lvl, false, line) ::
        mdEmitsList fd ld pfx0 ch (lvl + 1) (mdNewPrefix pfx0 cur lvl isLast)

/-- Emission of a sibling list at level `lvl1`: a dropped child vanishes with
its subtree; a kept child is the last sibling exactly when no later sibling
is kept. -/
def mdEmitsList (fd ld : Nat) (pfx0 : Name) :
    List TreeNode → Nat → Name → List (Nat × Bool × Name)
  | [], _, _ => []
  | c :: cs, lvl1, np =>
    if keepChild fd ld lvl1 c then
      mdEmits fd ld pfx0 c lvl1 (!cs.any (keepChild fd ld lvl1)) np ++
        mdEmitsList fd ld pfx0 cs lvl1 np
    else mdEmitsList fd ld pfx0 cs lvl1 np

end

/-- Rendered text of an md emission sequence: the lines joined by single
newlines (the loop appends a newline after a line whenever the stack is
still non-empty). -/
def renderMd (es : List (Nat × Bool × Name)) : Name :=
  joinLines (es.map (fun e => e.2.2))

/-- Push a children list the way lines 156-162 and 174-181 do: every child
in stored order on top of `rest`, the last child flagged as last sibling.
An empty list pushes nothing. -/
def pushChildren (lvl : Nat) (np : Name) (cs : List TreeNode)
    (rest : List (TreeNode × Nat × Bool × Name)) : List (TreeNode × Nat × Bool × Name) :=
  match cs.getLast? with
  | none => rest
  | some lastc => (cs.dropLast.map (fun c => (c, lvl, false, np))) ++ (lastc, lvl, true, np) :: rest

/-- Node count of a filtered forest never exceeds the node count of the
forest. -/
theorem szList_filter_le (p : TreeNode → Bool) (cs : List TreeNode) :
    szList (cs.filter p) ≤ szList cs := by
  induction cs with
  | nil => simp [szList]
  | cons x xs ih =>
    by_cases hx : p x <;> simp [List.filter, hx, szList] <;> [skip; skip] <;> omega

/-- Node count of `dropLast` plus the last element recovers the total. -/
theorem szList_dropLast (cs : List TreeNode) (lastc : TreeNode)
    (h : cs.getLast? = some lastc) : szList cs.dropLast + lastc.sz = szList cs := by
  induction cs with
  | nil => simp at h
  | cons x xs ih =>
    cases xs with
    | nil =>
      simp [List.getLast?] at h
      subst h
      simp [szList]
    | cons y ys =>
      rw [List.getLast?_cons_cons] at h
      have h1 := ih h
      have h2 : szList (y :: ys) = y.sz + szList ys := by simp [szList]
      simp only [List.dropLast, szList]
      omega

/-- Node count of the stack a `pushChildren` produces. -/
theorem szList_pushChildren (lvl : Nat) (np : Name) (cs : List TreeNode)
    (rest : List (TreeNode × Nat × Bool × Name)) :
    szList ((pushChildren lvl np cs rest).map (fun e => e.1)) =
      szList cs + szList (rest.map (fun e => e.1)) := by
  unfold pushChildren
  match h : cs.getLast? with
  | none =>
    have : cs = [] := by
      cases cs with
      | nil => rfl
      | cons x xs => simp [List.getLast?_eq_getLast] at h
    subst this
    simp [szList]
  | some lastc =>
    simp only [List.map_append, szList_append, List.map_cons, szList]
    have hdl : szList ((cs.dropLast.map (fun c => (c, lvl, false, np))).map (fun e => e.1)) =
        szList cs.dropLast := by
      induction cs.dropLast with
      | nil => simp [szList]
      | cons x xs ih => simp [szList] at *; omega
    rw [hdl]
    have := szList_dropLast cs lastc h
    omega

/-- Faithful model of the `to_md` work-stack loop (lines 140-186): the stack
carries `(node, level, is_last, prefix)`; after each node the newline is
appended only when the stack is still non-empty.  The two branches of the
source (zero-depth fast path, filtered path) are both modelled. -/
def toMdLoop (fd ld : Nat) (pfx0 : Name) :
    List (TreeNode × Nat × Bool × Name) → Name → Name
  | [], acc => acc
  | (t, lvl, isLast, cur) :: rest, acc =>
    let acc1 := acc ++ mdLine cur lvl isLast t.name t.check_leaf
    if t.check_leaf then
      toMdLoop fd ld pfx0 rest (if rest.isEmpty then acc1 else acc1 ++ ['\n'])
    else
      let np := mdNewPrefix pfx0 cur lvl isLast
      let stack' :=
        if fd = 0 ∧ ld = 0 then pushChildren (lvl + 1) np t.get_children rest
        else pushChildren (lvl + 1) np (t.get_children.filter (keepChild fd ld (lvl + 1))) rest
      toMdLoop fd ld pfx0 stack' (if stack'.isEmpty then acc1 else acc1 ++ ['\n'])
termination_by stack => szList (stack.map (fun e => e.1))
decreasing_by
  · have := sz_pos t
    simp [szList]
    omega
  · cases t with
    | mk n l ch s =>
      simp only [List.map_cons, szList, TreeNode.get_children]
      split
      · rw [szList_pushChildren]
        simp only [TreeNode.sz]
        omega
      · rw [szList_pushChildren]
        have := szList_filter_le (keepChild fd ld (lvl + 1)) ch
        simp only [TreeNode.sz]
        omega

/-- Model of `TreeNode.to_md(level, is_last, prefix, depth)` (lines
133-186); negative depths raise in Python, depths are naturals here. -/
def TreeNode.to_md (t : TreeNode) (level : Nat) (isLast : Bool) (pfx : Name)
    (fd ld : Nat) : Name :=
  toMdLoop fd ld pfx [(t, level, isLast, pfx)] []

/-- Decoded content of one non-root diagram line (from_md lines 198-205):
the level is measured after deleting `│` characters and stripping leading
whitespace; the name is recovered by deleting `│`, both connectors and `/`,
then stripping. -/
def mdParseLine (line : Name) : Nat × Bool × Name :=
  let indent := line.length - (pyLstrip (replaceAll ['│'] [] line)).length
  let level := indent / 4
  let content := pyStrip line
  let isLeaf := !pyEndsWith content '/'
  let nm := pyStrip (replaceAll ['/'] []
    (replaceAll (chars "├── ") [] (replaceAll (chars "└── ") []
      (replaceAll ['│'] [] content))))
  (level, isLeaf, nm)

/-- One iteration of the `from_md` line loop (lines 198-216), identical in
structure to `reprStep` but with the diagram line parser. -/
def mdStep (stack : List Frame) (line : Name) : List Frame :=
  let p := mdParseLine line
  let s1 := popTo (p.1 + 1) stack
  match s1 with
  | [] => []
  | top :: rest =>
    if p.2.1 then frameAdd top (.mk p.2.2 true [] []) :: rest
    else Frame.mk p.2.2 [] [] :: top :: rest

/-- Model of `TreeNode.from_md` (lines 188-218): `None` exactly when the
stripped input has no lines; the first line, with `/` removed, names the
root directory; the remaining lines are folded through `mdStep`. -/
def TreeNode.from_md (s : Name) : Option TreeNode :=
  match pySplitlines (pyStrip s) with
  | [] => none
  | l0 :: rest =>
    let rootName := replaceAll ['/'] [] (pyStrip l0)
    match popTo 1 (rest.foldl mdStep [Frame.mk rootName [] []]) with
    | [f] => some (closeFrame f)
    | _ => none

/-! ## The nested mapping codec (file_tree.pyx lines 220-260) -/

/-- A Python value stored in a tree dictionary: `None` for a leaf, a nested
dict for a directory. -/
inductive PyVal : Type where
  | nil
  | dict (entries : List (Name × PyVal))

/-- Python dict assignment on an insertion-ordered association list: an
existing key keeps its position and takes the new value, a fresh key is
appended. -/
def pyInsert : List (Name × PyVal) → Name → PyVal → List (Name × PyVal)
  | [], k, v => [(k, v)]
  | (k', v') :: rest, k, v =>
    if k' = k then (k', v) :: rest else (k', v') :: pyInsert rest k v

mutual

/-- The value `to_dict` stores under a node name: `None` for a leaf, the
children dict for a directory.  The source fills each child dict in place
through an aliased reference after inserting it (lines 226-233); the result
is the same as inserting the finished child values in stored child order. -/
def TreeNode.toVal : TreeNode → PyVal
  | .mk _ l ch _ => if l then .nil else .dict (toEntries ch [])

/-- Insert the `(name, value)` pairs of a child list into an accumulated
dict, left to right, with Python assignment semantics. -/
def toEntries : List TreeNode → List (Name × PyVal) → List (Name × PyVal)
  | [], acc => acc
  | c :: cs, acc => toEntries cs (pyInsert acc c.name c.toVal)

end

/-- Model of `TreeNode.to_dict` (lines 220-238): a one-entry dict mapping
the root name to its value. -/
def TreeNode.to_dict (t : TreeNode) : List (Name × PyVal) :=
  [(t.name, t.toVal)]

mutual

/-- Rebuild a node from a dict key and its value (from_dict lines 245-258):
`None` gives a leaf, a dict gives a directory whose children are built from
the entries in stored order and attached through `add_child`. -/
def fromVal (k : Name) : PyVal → TreeNode
  | .nil => .mk k true [] []
  | .dict entries => attachAll (.mk k false [] []) (fromEntries entries)

/-- Child nodes of a dict, in entry order. -/
def fromEntries : List (Name × PyVal) → List TreeNode
  | [] => []
  | (k, v) :: rest => fromVal k v :: fromEntries rest

end

/-- Model of `TreeNode.from_dict` (lines 240-260): only the first key of the
dict is consumed (`next(iter(...))`); an empty dict raises in Python,
modelled as `none`. -/
def TreeNode.from_dict : List (Name × PyVal) → Option TreeNode
  | [] => none
  | (k, v) :: _ => some (fromVal k v)

/-! ## The pattern matcher (file_tree.pyx lines 262-276) -/

/-- Scan a character class body for the closing bracket; returns the class
content and the remainder of the pattern. -/
def classScan : Name → Option (Name × Name)
  | [] => none
  | c :: cs =>
    if c = ']' then some ([], cs)
    else (classScan cs).map (fun p => (c :: p.1, p.2))

/-- Split a glob pattern right after `[` into class content and remainder,
with the `fnmatch.translate` lookahead: a leading `!` and a `]` right after
it belong to the content. -/
def classSplit (rest : Name) : Option (Name × Name) :=
  match rest with
  | '!' :: ']' :: cs => (classScan cs).map (fun p => ('!' :: ']' :: p.1, p.2))
  | '!' :: cs => (classScan cs).map (fun p => ('!' :: p.1, p.2))
  | ']' :: cs => (classScan cs).map (fun p => (']' :: p.1, p.2))
  | cs => classScan cs

/-- Membership of a character in a class body: single characters and `a-b`
ranges; a dash first or last is literal (regex semantics of the translated
class). -/
def classMember : Name → Char → Bool
  | [], _ => false
  | [a], c => a = c
  | [a, b], c => a = c || b = c
  | a :: '-' :: b :: rest, c => (a ≤ c && c ≤ b) || classMember rest c
  | a :: rest, c => a = c || classMember rest c

/-- Evaluate a character class with optional leading `!` negation. -/
def matchClass (stuff : Name) (c : Char) : Bool :=
  match stuff with
  | '!' :: items => !classMember items c
  | items => classMember items c

/-- Fuel-driven glob matcher: `*` matches any run, `?` one character, `[..]`
a class (an unterminated `[` is literal).  Each step consumes one unit of
fuel and shortens pattern-plus-path, so the fuel `fnmatchB` supplies is
enough. -/
def globGo : Nat → Name → Name → Bool
  | 0, _, _ => false
  | _ + 1, [], s => s.isEmpty
  | f + 1, p :: ps, s =>
    if p = '*' then
      globGo f ps s || (match s with
        | [] => false
        | _ :: cs => globGo f ('*' :: ps) cs)
    else if p = '?' then
      match s with
      | [] => false
      | _ :: cs => globGo f ps cs
    else if p = '[' then
      match classSplit ps with
      | none =>
        match s with
        | [] => false
        | c :: cs => c = '[' && globGo f ps cs
      | some (stuff, rest) =>
        match s with
        | [] => false
        | c :: cs => matchClass stuff c && globGo f rest cs
    else
      match s with
      | [] => false
      | c :: cs => c = p && globGo f ps cs

/-- Model of `fnmatch.fnmatch(path, pattern)`; `normcase` is the identity on
posix. -/
def fnmatchB (path pat : Name) : Bool :=
  globGo (pat.length + path.length + 1) pat path

/-- The reverse scan of `_should_ignore` (lines 268-274), applied to an
already reversed pattern list: the first matching pattern decides — `False`
for a `!` negation, `True` otherwise. -/
def scanPats (p : Name) : List Name → Bool
  | [] => false
  | q :: rest =>
    if q.head? = some '!' then
      if fnmatchB p (q.drop 1) then false else scanPats p rest
    else if fnmatchB p q then true else scanPats p rest

/-- Model of `_should_ignore(path, ignore_patterns)` (lines 262-276).  The
`os.path.isdir` probe is the `isDir` argument (the walk knows the entry
kind); a directory path gets a trailing slash before matching. -/
def shouldIgnore (isDir : Bool) (path : Name) (pats : List Name) : Bool :=
  let p := if isDir && !pyEndsWith path '/' then path ++ ['/'] else path
  scanPats p pats.reverse

/-! ## The tree builders (file_tree.pyx lines 278-351) -/

/-- A filesystem subtree handed to the builders: entry enumeration order is
the stored order (`os.listdir` order), the constructor is the
`os.path.isdir` answer. -/
inductive FS : Type where
  | file (fname : Name)
  | dir (fname : Name) (entries : List FS)

/-- Name of a filesystem entry. -/
def FS.fsname : FS → Name
  | .file n => n
  | .dir n _ => n

/-- Directory test of a filesystem entry. -/
def FS.isDir : FS → Bool
  | .file _ => false
  | .dir _ _ => true

/-- Relative path of a child of the directory at relative path `rel`
(`os.path.relpath(os.path.join(cur, item), root)`). -/
def relChild (rel item : Name) : Name :=
  if rel.isEmpty then item else rel ++ '/' :: item

mutual

/-- Node built by `_build_tree` for one surviving entry at relative path
`rel`. -/
def buildFS (pats : List Name) : FS → Name → TreeNode
  | .file n, _ => .mk n true [] []
  | .dir n ents, rel => attachAll (.mk n false [] []) (buildEntries pats ents rel)

/-- Children `_build_tree` attaches while scanning a directory at relative
path `rel` (lines 287-306): enumeration order, ignored entries skipped. -/
def buildEntries (pats : List Name) : List FS → Name → List TreeNode
  | [], _ => []
  | e :: es, rel =>
    let r := relChild rel e.fsname
    if shouldIgnore e.isDir r pats then buildEntries pats es rel
    else buildFS pats e r :: buildEntries pats es rel

end

/-- Model of `_build_tree(root_node, root_path)` inside `FileTree.__init__`:
the root node carries the basename and receives the children built from the
root directory entries, whose relative paths are bare entry names. -/
def buildRoot (rootName : Name) (entries : List FS) (pats : List Name) : TreeNode :=
  attachAll (.mk rootName false [] []) (buildEntries pats entries [])

mutual

/-- Node built by `_build_tree_with_depth` for one surviving entry; `d` is
the folder depth of the entry itself (root depth 0).  The popped-node guard
of lines 326-327 is modelled by the `d > fd` test (unreachable from depth 0,
as queued directories never exceed `fd`). -/
def buildFSDepth (fd ld : Nat) (pats : List Name) : FS → Name → Nat → TreeNode
  | .file n, _, _ => .mk n true [] []
  | .dir n ents, rel, d =>
    if fd ≠ 0 ∧ d > fd then .mk n false [] []
    else attachAll (.mk n false [] []) (buildEntriesDepth fd ld pats ents rel d)

/-- Children attached while scanning a directory at folder depth `d`
(lines 329-349): an ignored entry is skipped; a directory entry is pruned
before being queued when `d` equals a non-zero `fd`; a file entry is skipped
when `d` is at least a non-zero `ld`. -/
def buildEntriesDepth (fd ld : Nat) (pats : List Name) : List FS → Name → Nat → List TreeNode
  | [], _, _ => []
  | e :: es, rel, d =>
    let r := relChild rel e.fsname
    if shouldIgnore e.isDir r pats then buildEntriesDepth fd ld pats es rel d
    else if e.isDir then
      if fd ≠ 0 ∧ d = fd then buildEntriesDepth fd ld pats es rel d
      else buildFSDepth fd ld pats e r (d + 1) :: buildEntriesDepth fd ld pats es rel d
    else
      if ld ≠ 0 ∧ d ≥ ld then buildEntriesDepth fd ld pats es rel d
      else buildFSDepth fd ld pats e r (d + 1) :: buildEntriesDepth fd ld pats es rel d

end

/-- Model of `TrimmedTree` (lines 551-557): the depth-bounded walk from the
root at folder depth 0. -/
def buildRootDepth (rootName : Name) (entries : List FS) (fd ld : Nat)
    (pats : List Name) : TreeNode :=
  attachAll (.mk rootName false [] []) (buildEntriesDepth fd ld pats entries [] 0)

/-! ## Lookup (FileTree.where, file_tree.pyx lines 366-388) -/

/-- Placeholder node used only as the out-of-range default of indexed
access (never reachable under the bounds the loops establish). -/
def dummyNode : TreeNode := .mk [] true [] []

/-- Fuel-driven `bisect.bisect_left` on the children list, comparing by
name (`TreeNode.__lt__`); the fuel bound `hi - lo + 1` of `bisectLeft` is
enough since every step shrinks the interval. -/
def bisectGo (cs : List TreeNode) (x : Name) : Nat → Nat → Nat → Nat
  | 0, lo, _ => lo
  | f + 1, lo, hi =>
    if lo < hi then
      let mid := (lo + hi) / 2
      if (cs.getD mid dummyNode).name < x then bisectGo cs x f (mid + 1) hi
      else bisectGo cs x f lo mid
    else lo

/-- Model of `bisect.bisect_left(children, TreeNode(target))`. -/
def bisectLeft (cs : List TreeNode) (x : Name) : Nat :=
  bisectGo cs x (cs.length + 1) 0 cs.length

/-- Model of `os.path.join(a, b)` for a relative `b`. -/
def pathJoin (a b : Name) : Name :=
  if a.isEmpty then b else a ++ '/' :: b

/-- Model of `sorted(non_leaf_names)`: the set iterates each element once,
so the list model is deduplicated before sorting. -/
def sortNames (l : List Name) : List Name :=
  List.insertionSort (· ≤ ·) l.dedup

/-- The `(child, path)` pairs `where` pushes for one popped node (lines
382-386): one bisect lookup per sorted directory name, pushed in ascending
order onto the LIFO stack. -/
def wherePush (t : TreeNode) (curPath : Name) : List (TreeNode × Name) :=
  (sortNames t.nln).filterMap (fun nm =>
    let i := bisectLeft t.get_children nm
    if i < t.get_children.length ∧ (t.get_children.getD i dummyNode).name = nm then
      some (t.get_children.getD i dummyNode, pathJoin curPath nm)
    else none)

/-- Every node `wherePush` selects is one of the children. -/
theorem wherePush_mem {t : TreeNode} {p : Name} {e : TreeNode × Name}
    (h : e ∈ wherePush t p) : e.1 ∈ t.get_children := by
  unfold wherePush at h
  rcases List.mem_filterMap.mp h with ⟨nm, _, hsome⟩
  dsimp only at hsome
  split at hsome
  case isTrue hc =>
    cases hsome
    have hb : bisectLeft t.get_children nm < t.get_children.length := hc.1
    rw [List.getD_eq_getElem _ _ hb]
    exact List.getElem_mem hb
  case isFalse => simp at hsome

/-- Selections keyed by distinct names have pairwise distinct name images:
the generic engine behind `wherePush_nodup`. -/
theorem nodup_filterMap_names (ns : List Name) (hns : ns.Nodup)
    (f : Name → Option (TreeNode × Name))
    (hf : ∀ nm x, f nm = some x → x.1.name = nm) :
    ((ns.filterMap f).map (fun e => e.1.name)).Nodup := by
  induction ns with
  | nil => simp
  | cons a rest ih =>
    rcases List.nodup_cons.mp hns with ⟨ha, hrest⟩
    cases hfa : f a with
    | none => simpa [List.filterMap_cons, hfa] using ih hrest
    | some x =>
      simp only [List.filterMap_cons, hfa, List.map_cons]
      refine List.nodup_cons.mpr ⟨?_, ih hrest⟩
      intro hmem
      rw [hf a x hfa] at hmem
      rcases List.mem_map.mp hmem with ⟨y, hy, hyname⟩
      rcases List.mem_filterMap.mp hy with ⟨nm, hnm, hynm⟩
      rw [hf nm y hynm] at hyname
      exact ha (hyname ▸ hnm)

/-- The nodes `wherePush` selects carry pairwise different names (one bisect
hit per distinct sorted set element). -/
theorem wherePush_nodup (t : TreeNode) (p : Name) :
    ((wherePush t p).map (fun e => e.1.name)).Nodup := by
  have hsrc : (sortNames t.nln).Nodup :=
    (List.perm_insertionSort _ _).nodup_iff.mpr (List.nodup_dedup _)
  refine nodup_filterMap_names _ hsrc _ ?_
  intro nm x hx
  dsimp only at hx
  split at hx
  case isTrue hc =>
    cases hx
    exact hc.2
  case isFalse => simp at hx

/-- Node count over a sublist never exceeds the node count of the list. -/
theorem szList_sublist_le {a b : List TreeNode} (h : a.Sublist b) :
    szList a ≤ szList b := by
  induction h with
  | slnil => simp [szList]
  | cons x _ ih =>
    simp only [szList]
    have := sz_pos x
    omega
  | cons₂ x _ ih =>
    simp only [szList]
    omega

/-- Node count is invariant under permutation. -/
theorem szList_perm {a b : List TreeNode} (h : a.Perm b) :
    szList a = szList b := by
  induction h with
  | nil => rfl
  | cons x _ ih => simp [szList, ih]
  | swap x y l => simp [szList]; omega
  | trans _ _ ih1 ih2 => omega

/-- The pushed selection never outweighs the children: its nodes are
pairwise distinct members of the children list (distinct because their
names are), hence a sub-permutation. -/
theorem szList_wherePush_le (t : TreeNode) (p : Name) :
    szList ((wherePush t p).map (fun e => e.1)) ≤ szList t.get_children := by
  have hmem : ∀ x ∈ (wherePush t p).map (fun e => e.1), x ∈ t.get_children := by
    intro x hx
    rcases List.mem_map.mp hx with ⟨e, he, rfl⟩
    exact wherePush_mem he
  have hnodup : ((wherePush t p).map (fun e => e.1)).Nodup := by
    have hn := wherePush_nodup t p
    have : ((wherePush t p).map (fun e => e.1)).map TreeNode.name =
        (wherePush t p).map (fun e => e.1.name) := by
      simp [List.map_map, Function.comp]
    exact (List.Nodup.of_map TreeNode.name (by rw [this]; exact hn))
  have hsub : ((wherePush t p).map (fun e => e.1)).Subperm t.get_children :=
    hnodup.subperm hmem
  rcases hsub with ⟨l, hperm, hsl⟩
  calc szList ((wherePush t p).map (fun e => e.1)) = szList l := (szList_perm hperm).symm
    _ ≤ szList t.get_children := szList_sublist_le hsl

/-- Faithful model of the `where` work-stack loop (lines 366-388): pop a
`(node, path)` pair, binary-search the children for the target, return the
joined path on a hit, otherwise push the directory children in sorted name
order, one `append` at a time, so the alphabetically last lands on top of
the LIFO stack and is descended into first. -/
def whereLoop (target : Name) : List (TreeNode × Name) → Option Name
  | [] => none
  | (t, p) :: rest =>
    let i := bisectLeft t.get_children target
    if i < t.get_children.length ∧ (t.get_children.getD i dummyNode).name = target then
      some (pathJoin p target)
    else whereLoop target ((wherePush t p).reverse ++ rest)
termination_by stack => szList (stack.map (fun e => e.1))
decreasing_by
  cases t with
  | mk n l ch s =>
    simp only [List.map_cons, List.map_append, szList_append, szList, TreeNode.sz]
    have h1 := szList_wherePush_le (TreeNode.mk n l ch s) p
    have h2 : szList ((wherePush (TreeNode.mk n l ch s) p).reverse.map (fun e => e.1)) =
        szList ((wherePush (TreeNode.mk n l ch s) p).map (fun e => e.1)) := by
      apply szList_perm
      exact (List.reverse_perm _).map _
    simp only [TreeNode.get_children] at h1
    omega

/-- Model of `FileTree.where(target)`. -/
def whereFn (rootNode : TreeNode) (rootPath target : Name) : Option Name :=
  whereLoop target [(rootNode, rootPath)]

/-! ## Subtree extraction (FileTree.create_subtree, lines 390-424) -/

/-- Number of leading slashes `posixpath.normpath` preserves (two only for
exactly two). -/
def leadSlashes (p : Name) : Nat :=
  if ¬ List.isPrefixOf ['/'] p then 0
  else if List.isPrefixOf ['/', '/'] p ∧ ¬ List.isPrefixOf ['/', '/', '/'] p then 2
  else 1

/-- Model of `posixpath.normpath`: drop empty and `.` components, cancel a
`..` against a preceding real component, keep leading `..` runs (for a
relative path), re-join, defaulting to `.`. -/
def normpath (p : Name) : Name :=
  if p.isEmpty then ['.'] else
  let sl := leadSlashes p
  let comps := List.splitOn '/' p
  let newComps := comps.foldl (fun acc comp =>
    if comp = [] ∨ comp = ['.'] then acc
    else if comp ≠ ['.', '.'] ∨ (sl = 0 ∧ acc = []) ∨ acc.getLast? = some ['.', '.'] then
      acc ++ [comp]
    else acc.dropLast) []
  let joined := List.replicate sl '/' ++ List.intercalate ['/'] newComps
  if joined.isEmpty then ['.'] else joined

/-- The queue phase of `create_subtree` (lines 399-407): `.` is dropped,
`..` pops the queue and fails on an empty queue, anything else is appended.
`none` models the raised "Cannot navigate above the root directory". -/
def buildQueue : List Name → Option (List Name) → Option (List Name)
  | _, none => none
  | [], some q => some q
  | part :: rest, some q =>
    if part = ['.'] then buildQueue rest (some q)
    else if part = ['.', '.'] then
      if q.isEmpty then none else buildQueue rest (some q.dropLast)
    else buildQueue rest (some (q ++ [part]))

/-- Result of the navigation phase of `create_subtree`: the resolved node,
the ascend error, or the invalid-path error naming the missing component. -/
inductive NavResult : Type where
  | ok (t : TreeNode)
  | errAscend
  | errMissing (part : Name)

/-- The navigation phase (lines 410-416): resolve queued components front to
back through binary search; a miss fails naming the component. -/
def navQueue : TreeNode → List Name → NavResult
  | t, [] => .ok t
  | t, part :: rest =>
    let i := bisectLeft t.get_children part
    if i < t.get_children.length ∧ (t.get_children.getD i dummyNode).name = part then
      navQueue (t.get_children.getD i dummyNode) rest
    else .errMissing part

/-- Model of the navigation core of `FileTree.create_subtree(relative_path)`
(lines 390-424): normalize, tokenize on the separator, run the queue phase,
then navigate.  The final wrapping of the resolved node into a new facade is
filesystem input/output and is not part of the navigation semantics. -/
def createSubtree (rootNode : TreeNode) (rel : Name) : NavResult :=
  match buildQueue (List.splitOn '/' (normpath rel)) (some []) with
  | none => .errAscend
  | some q => navQueue rootNode q

/-- The observable outcome tag of a `NavResult` (used by decidable
statements about concrete navigations). -/
def NavResult.isOk : NavResult → Bool
  | .ok _ => true
  | _ => false

/-- The resolved node of a successful navigation. -/
def NavResult.node? : NavResult → Option TreeNode
  | .ok t => some t
  | _ => none

/-! ## The diagram-file wrapper (FileTree.from_md, lines 453-495) -/

/-- Substring containment, the model of the Python `in` test on strings. -/
def containsSub (pat : Name) : Name → Bool
  | [] => pat.isEmpty
  | c :: cs => pat.isPrefixOf (c :: cs) || containsSub pat cs

/-- A line the fence scanner accepts: it contains three backticks anywhere
(the source tests substring containment, not exact fencing). -/
def hasFence (line : Name) : Bool :=
  containsSub (chars "```") line

/-- The fence scan of lines 459-468: index of the first line containing the
fence marker, and of the next one after it. -/
def findFences (lines : List Name) : Option (Nat × Nat) :=
  match lines.findIdx? hasFence with
  | none => none
  | some i =>
    match (lines.drop (i + 1)).findIdx? hasFence with
    | none => none
    | some j => some (i, i + 1 + j)

/-- Result of the diagram-file decoder: the `None` of an empty input, a
rejection with a message, or the decoded node tree. -/
inductive MdResult : Type where
  | noneRes
  | errRes (msg : Name)
  | okRes (t : Option TreeNode)

/-- Whether a diagram-file decode was rejected. -/
def MdResult.isErr : MdResult → Bool
  | .errRes _ => true
  | _ => false

/-- Model of `FileTree.from_md` (lines 453-495): find the first fence pair,
reject when one is missing or the two fence lines are indented differently;
otherwise decode the block between them, each line first cut by the fence
indent and right-stripped.  The final facade construction is filesystem
input/output and not modelled. -/
def fileFromMd (doc : Name) : MdResult :=
  let lines := pySplitlines doc
  if lines.isEmpty then .noneRes
  else
    match findFences lines with
    | none => .errRes (chars "Markdown format error: missing matching markers.")
    | some (i, j) =>
      let li := lines.getD i []
      let lj := lines.getD j []
      let si := li.length - (pyLstrip li).length
      let sj := lj.length - (pyLstrip lj).length
      if si ≠ sj then
        .errRes (chars "Markdown format error: inconsistent indentation for markers.")
      else
        let content := joinLines (((lines.drop (i + 1)).take (j - i - 1)).map
          (fun l => pyRstrip (l.drop si)))
        .okRes (TreeNode.from_md content)

/-! ## Claim C3: pattern precedence -/

/-- The path as the matcher sees it: a directory path gets a trailing
slash. -/
def adjPath (isDir : Bool) (path : Name) : Name :=
  if isDir && !pyEndsWith path '/' then path ++ ['/'] else path

/-- Whether a single pattern matches the adjusted path: a `!` pattern
matches through its remainder, a plain pattern directly. -/
def patMatches (p q : Name) : Bool :=
  if q.head? = some '!' then fnmatchB p (q.drop 1) else fnmatchB p q

/-- The verdict a matching pattern forces: `false` (keep) for a negation,
`true` (ignore) otherwise. -/
def patVerdict (q : Name) : Bool := !(q.head? = some '!')

/-- A reverse scan ignores a non-matching block. -/
theorem scanPats_skip (p : Name) (l1 l2 : List Name)
    (h : ∀ r ∈ l1, patMatches p r = false) :
    scanPats p (l1 ++ l2) = scanPats p l2 := by
  induction l1 with
  | nil => simp
  | cons q rest ih =>
    have hq := h q (by simp)
    have hrest : ∀ r ∈ rest, patMatches p r = false := fun r hr => h r (by simp [hr])
    unfold patMatches at hq
    simp only [List.cons_append, scanPats]
    split
    case isTrue hneg =>
      rw [if_pos hneg, List.drop_one] at hq
      simp [hq, ih hrest]
    case isFalse hneg =>
      rw [if_neg hneg] at hq
      simp [hq, ih hrest]

/-- A matching pattern at the head of the scan decides at once. -/
theorem scanPats_hit (p q : Name) (l : List Name) (h : patMatches p q = true) :
    scanPats p (q :: l) = patVerdict q := by
  unfold patMatches at h
  unfold scanPats patVerdict
  split
  case isTrue hneg =>
    rw [if_pos hneg, List.drop_one] at h
    simp [h, hneg]
  case isFalse hneg =>
    rw [if_neg hneg] at h
    simp [h, hneg]

/-- No pattern matches: the scan falls through to `false`. -/
theorem scanPats_none (p : Name) (l : List Name)
    (h : ∀ r ∈ l, patMatches p r = false) : scanPats p l = false := by
  have := scanPats_skip p l [] h
  simpa using this

/-- Claim C3.  For every relative path and ordered pattern list,
`_should_ignore` evaluates the patterns in reverse declaration order and the
first match of that scan decides: a `!` pattern forces not-ignored, a plain
pattern forces ignored, and with no match at all the path is not ignored.
In particular `keep.log` is not ignored under `["*.log", "!keep.log"]` and is
ignored under `["!keep.log", "*.log"]`. -/
theorem shouldIgnore_last_match_wins :
    (∀ (isDir : Bool) (path : Name) (pre post : List Name) (q : Name),
      (∀ r ∈ post, patMatches (adjPath isDir path) r = false) →
      patMatches (adjPath isDir path) q = true →
      shouldIgnore isDir path (pre ++ q :: post) = patVerdict q) ∧
    (∀ (isDir : Bool) (path : Name) (pats : List Name),
      (∀ r ∈ pats, patMatches (adjPath isDir path) r = false) →
      shouldIgnore isDir path pats = false) ∧
    shouldIgnore false (chars "keep.log") [chars "*.log", chars "!keep.log"] = false ∧
    shouldIgnore false (chars "keep.log") [chars "!keep.log", chars "*.log"] = true := by
  refine ⟨?_, ?_, by decide, by decide⟩
  · intro isDir path pre post q hpost hq
    unfold shouldIgnore
    have hadj : (if isDir && !pyEndsWith path '/' then path ++ ['/'] else path) =
        adjPath isDir path := rfl
    rw [hadj, List.reverse_append, List.reverse_cons, List.append_assoc]
    rw [scanPats_skip _ _ _ (by intro r hr; exact hpost r (List.mem_reverse.mp hr))]
    simpa using scanPats_hit (adjPath isDir path) q pre.reverse hq
  · intro isDir path pats h
    unfold shouldIgnore
    have hadj : (if isDir && !pyEndsWith path '/' then path ++ ['/'] else path) =
        adjPath isDir path := rfl
    rw [hadj]
    exact scanPats_none _ _ (by intro r hr; exact h r (List.mem_reverse.mp hr))

/-- Witness for C3: the second listed pattern set, scanned in reverse,
hits the plain `*.log` first and ignores the path. -/
theorem shouldIgnore_last_match_wins_witness :
    shouldIgnore false (chars "keep.log") [chars "!keep.log", chars "*.log"] = patVerdict (chars "*.log") :=
  shouldIgnore_last_match_wins.1 false (chars "keep.log") [chars "!keep.log"] []
    (chars "*.log") (by intro r hr; simp at hr) (by decide)

/-! ## Claim C8: fenced-block rejection -/

/-- Characterization of `findIdx?` with an offset: the found index is the
offset plus the position of the first hit. -/
theorem findIdx?_offset_spec (p : Name → Bool) (l : List Name) :
    ∀ (n m : Nat), List.findIdx? p l n = some m →
      n ≤ m ∧ m - n < l.length ∧ p (l.getD (m - n) []) = true ∧
        ∀ k < m - n, p (l.getD k []) = false := by
  induction l with
  | nil => intro n m h; simp [List.findIdx?] at h
  | cons x xs ih =>
    intro n m h
    rw [List.findIdx?_cons] at h
    by_cases hx : p x = true
    · rw [if_pos hx] at h
      cases h
      refine ⟨Nat.le_refl _, by simp, by simpa, ?_⟩
      intro k hk
      omega
    · rw [if_neg hx] at h
      rcases ih (n + 1) m h with ⟨h1, h2, h3, h4⟩
      have hmn : m - n = (m - (n + 1)) + 1 := by omega
      refine ⟨by omega, by simp; omega, ?_, ?_⟩
      · rw [hmn]
        simpa using h3
      · intro k hk
        cases k with
        | zero => simpa using (Bool.not_eq_true _).mp hx
        | succ k' =>
          simp only [List.getD_cons_succ]
          exact h4 k' (by omega)

/-- The fence pair `findFences` selects is the first pair: both lines hold
the marker, nothing earlier does, and nothing strictly between does. -/
theorem findFences_first (lines : List Name) (i j : Nat)
    (h : findFences lines = some (i, j)) :
    i < j ∧ j < lines.length ∧
      hasFence (lines.getD i []) = true ∧ hasFence (lines.getD j []) = true ∧
      (∀ k < i, hasFence (lines.getD k []) = false) ∧
      (∀ k, i < k → k < j → hasFence (lines.getD k []) = false) := by
  unfold findFences at h
  cases h1 : lines.findIdx? hasFence with
  | none => rw [h1] at h; simp at h
  | some i0 =>
    rw [h1] at h
    dsimp only at h
    cases h2 : (lines.drop (i0 + 1)).findIdx? hasFence with
    | none => rw [h2] at h; simp at h
    | some j0 =>
      rw [h2] at h
      dsimp only at h
      rw [Option.some_inj, Prod.mk.injEq] at h
      obtain ⟨hi, hj⟩ := h
      subst hi
      subst hj
      rcases findIdx?_offset_spec hasFence lines 0 i0 h1 with ⟨_, hlen1, hp1, hlt1⟩
      rcases findIdx?_offset_spec hasFence (lines.drop (i0 + 1)) 0 j0 h2 with
        ⟨_, hlen2, hp2, hlt2⟩
      simp only [Nat.sub_zero] at hlen1 hp1 hlt1 hlen2 hp2 hlt2
      have hdropD : ∀ k, (lines.drop (i0 + 1)).getD k [] = lines.getD (i0 + 1 + k) [] := by
        intro k
        simp [List.getD, List.getElem?_drop]
      have hlend : (lines.drop (i0 + 1)).length = lines.length - (i0 + 1) := by simp
      rw [hlend] at hlen2
      refine ⟨by omega, by omega, hp1, ?_, ?_, ?_⟩
      · have := hp2
        rw [hdropD] at this
        exact this
      · intro k hk
        exact hlt1 k hk
      · intro k hki hkj
        have hlow : hasFence ((lines.drop (i0 + 1)).getD (k - (i0 + 1)) []) = false :=
          hlt2 _ (by omega)
        rw [hdropD] at hlow
        have heq : i0 + 1 + (k - (i0 + 1)) = k := by omega
        rw [heq] at hlow
        exact hlow

/-- Claim C8.  The diagram-file decoder selects the first pair of lines
containing a triple-backtick marker; it rejects the document whenever the
markers are missing (fewer than two marker lines) or the two selected fence
lines carry different leading indentation, returning an error and no tree;
the concrete wrapper with a 2-space opening fence and a 4-space closing
fence is rejected. -/
theorem fileFromMd_fence_rejection :
    (∀ lines i j, findFences lines = some (i, j) →
      i < j ∧ j < lines.length ∧
        hasFence (lines.getD i []) = true ∧ hasFence (lines.getD j []) = true ∧
        (∀ k < i, hasFence (lines.getD k []) = false) ∧
        (∀ k, i < k → k < j → hasFence (lines.getD k []) = false)) ∧
    (∀ doc, pySplitlines doc ≠ [] → findFences (pySplitlines doc) = none →
      (fileFromMd doc).isErr = true) ∧
    (∀ doc i j, findFences (pySplitlines doc) = some (i, j) →
      (pySplitlines doc).getD i [] ≠ [] →
      ((pySplitlines doc).getD i []).length -
          (pyLstrip ((pySplitlines doc).getD i [])).length ≠
        ((pySplitlines doc).getD j []).length -
          (pyLstrip ((pySplitlines doc).getD j [])).length →
      (fileFromMd doc).isErr = true) ∧
    (fileFromMd (chars "  ```\nr/\n    ```")).isErr = true := by
  refine ⟨findFences_first, ?_, ?_, by decide⟩
  · intro doc hne hff
    unfold fileFromMd
    rw [if_neg (by simpa [List.isEmpty_iff] using hne), hff]
    rfl
  · intro doc i j hff _ hind
    unfold fileFromMd
    have hne : (pySplitlines doc).isEmpty = false := by
      rcases findFences_first _ _ _ hff with ⟨_, h2, _⟩
      cases hpd : pySplitlines doc with
      | nil => rw [hpd] at h2; simp at h2
      | cons a l => simp
    rw [if_neg (by simp [hne]), hff]
    dsimp only
    rw [if_pos hind]
    rfl

/-- Witness for C8: the mismatched 2-vs-4 indentation wrapper is rejected,
through the general mismatch branch of the theorem. -/
theorem fileFromMd_fence_rejection_witness :
    (fileFromMd (chars "  ```\nr/\n    ```")).isErr = true :=
  fileFromMd_fence_rejection.2.2.1 (chars "  ```\nr/\n    ```") 0 2
    (by decide) (by decide) (by decide)

/-! ## Claim C10: the non_leaf_names invariant -/

/-- Split a boolean conjunction hypothesis. -/
theorem andE {a b : Bool} (h : (a && b) = true) : a = true ∧ b = true := by
  simp at h
  exact h

/-- Assemble a boolean conjunction. -/
theorem andI {a b : Bool} (h1 : a = true) (h2 : b = true) : (a && b) = true := by
  simp [h1, h2]

/-- Propositional form of the invariant at one node. -/
theorem inv_mk_iff (n : Name) (l : Bool) (ch : List TreeNode) (s : List Name) :
    (TreeNode.mk n l ch s).inv = true ↔
      s.Nodup ∧ (∀ x ∈ s, ∃ c ∈ ch, c.check_leaf = false ∧ c.name = x) ∧
        (∀ c ∈ ch, c.check_leaf = true ∨ c.name ∈ s) ∧ invList ch = true := by
  show (_ && _ && _ && _) = true ↔ _
  simp only [Bool.and_eq_true, decide_eq_true_eq, List.all_eq_true, List.any_eq_true,
    Bool.not_eq_true', Bool.or_eq_true, beq_iff_eq]
  tauto

/-- Membership in the forest invariant. -/
theorem invList_mem : ∀ {cs : List TreeNode}, invList cs = true →
    ∀ {c : TreeNode}, c ∈ cs → c.inv = true := by
  intro cs
  induction cs with
  | nil => intro _ c hc; simp at hc
  | cons x xs ih =>
    intro h c hc
    rcases andE h with ⟨hx, hxs⟩
    rcases List.mem_cons.mp hc with rfl | hmem
    · exact hx
    · exact ih hxs hmem

/-- Build the forest invariant from membership. -/
theorem invList_of_mem : ∀ {cs : List TreeNode},
    (∀ c ∈ cs, c.inv = true) → invList cs = true := by
  intro cs
  induction cs with
  | nil => intro _; rfl
  | cons x xs ih =>
    intro h
    exact andI (h x (by simp)) (ih (fun c hc => h c (by simp [hc])))

/-- The invariant descends to the children. -/
theorem inv_child {t c : TreeNode} (h : t.inv = true) (hc : c ∈ t.get_children) :
    c.inv = true := by
  cases t with
  | mk n l ch s =>
    rcases (inv_mk_iff n l ch s).mp h with ⟨_, _, _, h4⟩
    exact invList_mem h4 hc

/-- Membership in `insName`. -/
theorem insName_mem (x y : Name) (l : List Name) :
    x ∈ insName y l ↔ x ∈ l ∨ x = y := by
  unfold insName
  split
  case isTrue hmem =>
    constructor
    · exact Or.inl
    · rintro (h | rfl)
      · exact h
      · exact hmem
  case isFalse hmem => simp

/-- `insName` keeps the list duplicate free. -/
theorem insName_nodup (y : Name) (l : List Name) (h : l.Nodup) :
    (insName y l).Nodup := by
  unfold insName
  split
  case isTrue => exact h
  case isFalse hmem => simpa [List.nodup_append] using ⟨h, hmem⟩

/-- Invariant preservation of `add_child` (lines 37-41: the only
child-adding operation). -/
theorem add_child_inv {p c : TreeNode} (hp : p.inv = true) (hc : c.inv = true) :
    (p.add_child c).inv = true := by
  cases p with
  | mk n l ch s =>
    rcases (inv_mk_iff n l ch s).mp hp with ⟨h1, h2, h3, h4⟩
    show (TreeNode.mk n l (ch ++ [c])
      (if c.check_leaf then s else insName c.name s)).inv = true
    rw [inv_mk_iff]
    by_cases hcl : c.check_leaf = true
    · rw [if_pos hcl]
      refine ⟨h1, ?_, ?_, ?_⟩
      · intro x hx
        rcases h2 x hx with ⟨d, hd, hdp⟩
        exact ⟨d, by simp [hd], hdp⟩
      · intro d hd
        rcases List.mem_append.mp hd with hd | hd
        · exact h3 d hd
        · simp at hd
          subst hd
          exact Or.inl hcl
      · exact invList_of_mem (fun d hd => by
          rcases List.mem_append.mp hd with hd | hd
          · exact invList_mem h4 hd
          · simp at hd; subst hd; exact hc)
    · rw [if_neg hcl]
      refine ⟨insName_nodup _ _ h1, ?_, ?_, ?_⟩
      · intro x hx
        rcases (insName_mem x c.name s).mp hx with hx | rfl
        · rcases h2 x hx with ⟨d, hd, hdp⟩
          exact ⟨d, by simp [hd], hdp⟩
        · exact ⟨c, by simp, by simpa using hcl, rfl⟩
      · intro d hd
        rcases List.mem_append.mp hd with hd | hd
        · rcases h3 d hd with h | h
          · exact Or.inl h
          · exact Or.inr ((insName_mem _ _ _).mpr (Or.inl h))
        · simp at hd
          subst hd
          exact Or.inr ((insName_mem _ _ _).mpr (Or.inr rfl))
      · exact invList_of_mem (fun d hd => by
          rcases List.mem_append.mp hd with hd | hd
          · exact invList_mem h4 hd
          · simp at hd; subst hd; exact hc)

/-- Invariant preservation of a whole attachment run. -/
theorem attachAll_inv : ∀ (cs : List TreeNode) (p : TreeNode), p.inv = true →
    (∀ c ∈ cs, c.inv = true) → (attachAll p cs).inv = true := by
  intro cs
  induction cs with
  | nil => intro p hp _; exact hp
  | cons c cs ih =>
    intro p hp h
    show (attachAll (p.add_child c) cs).inv = true
    exact ih _ (add_child_inv hp (h c (by simp))) (fun d hd => h d (by simp [hd]))

/-- A fresh leaf or empty directory node satisfies the invariant. -/
theorem init_inv (n : Name) (l : Bool) : (TreeNode.init n l).inv = true := by
  rw [TreeNode.init, inv_mk_iff]
  refine ⟨List.nodup_nil, by simp, by simp, rfl⟩

/-- A frame that closes into an invariant-satisfying node. -/
def frameInv (f : Frame) : Bool := (closeFrame f).inv

/-- Closing after `frameAdd` is `add_child` after closing. -/
theorem closeFrame_frameAdd (g : Frame) (c : TreeNode) :
    closeFrame (frameAdd g c) = (closeFrame g).add_child c := rfl

/-- `frameAdd` keeps the frame invariant. -/
theorem frameAdd_inv {g : Frame} {c : TreeNode} (hg : frameInv g = true)
    (hc : c.inv = true) : frameInv (frameAdd g c) = true := by
  unfold frameInv
  rw [closeFrame_frameAdd]
  exact add_child_inv hg hc

/-- A fresh frame satisfies the frame invariant. -/
theorem frameInv_fresh (n : Name) : frameInv (Frame.mk n [] []) = true := init_inv n false

/-- `popN` preserves the frame invariant across the whole stack. -/
theorem popN_frameInv : ∀ (n : Nat) (s : List Frame),
    (∀ f ∈ s, frameInv f = true) → ∀ f ∈ popN n s, frameInv f = true := by
  intro n
  induction n with
  | zero => intro s h; exact h
  | succ m ih =>
    intro s h
    match s with
    | [] => intro f hf; simp [popN] at hf
    | [g] => exact h
    | f1 :: g1 :: rest =>
      show ∀ f ∈ popN m (frameAdd g1 (closeFrame f1) :: rest), frameInv f = true
      refine ih _ ?_
      intro f hf
      rcases List.mem_cons.mp hf with rfl | hmem
      · exact frameAdd_inv (h g1 (by simp)) (h f1 (by simp))
      · exact h f (by simp [hmem])

/-- `reprStep` preserves the frame invariant across the stack. -/
theorem reprStep_frameInv {s : List Frame} (h : ∀ f ∈ s, frameInv f = true)
    (line : Name) : ∀ f ∈ reprStep s line, frameInv f = true := by
  intro f hf
  unfold reprStep popTo at hf
  dsimp only at hf
  have h1 := popN_frameInv (s.length - ((reprParseLine line).1 + 1)) s h
  cases hpop : popN (s.length - ((reprParseLine line).1 + 1)) s with
  | nil => rw [hpop] at hf; simp at hf
  | cons top rest =>
    rw [hpop] at hf h1
    dsimp only at hf
    split at hf
    · rcases List.mem_cons.mp hf with rfl | hmem
      · exact frameAdd_inv (h1 top (by simp)) (init_inv _ true)
      · exact h1 f (by simp [hmem])
    · rcases List.mem_cons.mp hf with rfl | hmem
      · exact frameInv_fresh _
      · exact h1 f hmem

/-- `mdStep` preserves the frame invariant across the stack. -/
theorem mdStep_frameInv {s : List Frame} (h : ∀ f ∈ s, frameInv f = true)
    (line : Name) : ∀ f ∈ mdStep s line, frameInv f = true := by
  intro f hf
  unfold mdStep popTo at hf
  dsimp only at hf
  have h1 := popN_frameInv (s.length - ((mdParseLine line).1 + 1)) s h
  cases hpop : popN (s.length - ((mdParseLine line).1 + 1)) s with
  | nil => rw [hpop] at hf; simp at hf
  | cons top rest =>
    rw [hpop] at hf h1
    dsimp only at hf
    split at hf
    · rcases List.mem_cons.mp hf with rfl | hmem
      · exact frameAdd_inv (h1 top (by simp)) (init_inv _ true)
      · exact h1 f (by simp [hmem])
    · rcases List.mem_cons.mp hf with rfl | hmem
      · exact frameInv_fresh _
      · exact h1 f hmem

/-- Folding decoder steps preserves the frame invariant. -/
theorem foldl_step_frameInv (step : List Frame → Name → List Frame)
    (hstep : ∀ s line, (∀ f ∈ s, frameInv f = true) → ∀ f ∈ step s line, frameInv f = true) :
    ∀ (ls : List Name) (s : List Frame), (∀ f ∈ s, frameInv f = true) →
      ∀ f ∈ ls.foldl step s, frameInv f = true := by
  intro ls
  induction ls with
  | nil => intro s h; exact h
  | cons line rest ih => intro s h; exact ih _ (hstep s line h)

/-- The plain-listing decoder only produces invariant-satisfying trees. -/
theorem from_repr_inv (s : Name) (t : TreeNode) (h : TreeNode.from_repr s = some t) :
    t.inv = true := by
  unfold TreeNode.from_repr at h
  cases hsp : pySplitlines (pyStrip s) with
  | nil => rw [hsp] at h; simp at h
  | cons l0 rest =>
    rw [hsp] at h
    dsimp only at h
    have hstart : ∀ f ∈ [Frame.mk (replaceAll ['/'] [] (pyStrip l0)) [] []],
        frameInv f = true := by
      intro f hf
      simp at hf
      subst hf
      exact frameInv_fresh _
    have hfold := foldl_step_frameInv reprStep (fun s line hs => reprStep_frameInv hs line)
      rest _ hstart
    have hpop := popN_frameInv
      ((rest.foldl reprStep [Frame.mk (replaceAll ['/'] [] (pyStrip l0)) [] []]).length - 1)
      _ hfold
    cases hfin : popTo 1 (rest.foldl reprStep [Frame.mk (replaceAll ['/'] [] (pyStrip l0)) [] []]) with
    | nil => rw [hfin] at h; simp at h
    | cons f fs =>
      rw [hfin] at h
      cases fs with
      | nil =>
        simp only [Option.some_inj] at h
        subst h
        exact hpop f (by rw [popTo] at hfin; rw [hfin]; simp)
      | cons g gs => simp at h

/-- The diagram decoder only produces invariant-satisfying trees. -/
theorem from_md_inv (s : Name) (t : TreeNode) (h : TreeNode.from_md s = some t) :
    t.inv = true := by
  unfold TreeNode.from_md at h
  cases hsp : pySplitlines (pyStrip s) with
  | nil => rw [hsp] at h; simp at h
  | cons l0 rest =>
    rw [hsp] at h
    dsimp only at h
    have hstart : ∀ f ∈ [Frame.mk (replaceAll ['/'] [] (pyStrip l0)) [] []],
        frameInv f = true := by
      intro f hf
      simp at hf
      subst hf
      exact frameInv_fresh _
    have hfold := foldl_step_frameInv mdStep (fun s line hs => mdStep_frameInv hs line)
      rest _ hstart
    have hpop := popN_frameInv
      ((rest.foldl mdStep [Frame.mk (replaceAll ['/'] [] (pyStrip l0)) [] []]).length - 1)
      _ hfold
    cases hfin : popTo 1 (rest.foldl mdStep [Frame.mk (replaceAll ['/'] [] (pyStrip l0)) [] []]) with
    | nil => rw [hfin] at h; simp at h
    | cons f fs =>
      rw [hfin] at h
      cases fs with
      | nil =>
        simp only [Option.some_inj] at h
        subst h
        exact hpop f (by rw [popTo] at hfin; rw [hfin]; simp)
      | cons g gs => simp at h

mutual

/-- Every node the unbounded builder produces satisfies the invariant. -/
theorem buildFS_inv (pats : List Name) :
    ∀ (e : FS) (rel : Name), (buildFS pats e rel).inv = true
  | .file n, _ => init_inv n true
  | .dir n ents, rel =>
    attachAll_inv _ _ (init_inv n false) (buildEntries_inv pats ents rel)

/-- Every child list the unbounded builder produces is invariant clean. -/
theorem buildEntries_inv (pats : List Name) :
    ∀ (es : List FS) (rel : Name), ∀ c ∈ buildEntries pats es rel, c.inv = true
  | [], _ => by
    intro c hc
    simp [buildEntries] at hc
  | e :: es, rel => by
    intro c hc
    unfold buildEntries at hc
    dsimp only at hc
    split at hc
    · exact buildEntries_inv pats es rel c hc
    · rcases List.mem_cons.mp hc with rfl | hmem
      · exact buildFS_inv pats e _
      · exact buildEntries_inv pats es rel c hmem

end

mutual

/-- Every node the depth-bounded builder produces satisfies the
invariant. -/
theorem buildFSDepth_inv (fd ld : Nat) (pats : List Name) :
    ∀ (e : FS) (rel : Name) (d : Nat), (buildFSDepth fd ld pats e rel d).inv = true
  | .file n, _, _ => init_inv n true
  | .dir n ents, rel, d => by
    unfold buildFSDepth
    split
    · exact init_inv n false
    · exact attachAll_inv _ _ (init_inv n false) (buildEntriesDepth_inv fd ld pats ents rel d)

/-- Every child list the depth-bounded builder produces is invariant
clean. -/
theorem buildEntriesDepth_inv (fd ld : Nat) (pats : List Name) :
    ∀ (es : List FS) (rel : Name) (d : Nat),
      ∀ c ∈ buildEntriesDepth fd ld pats es rel d, c.inv = true
  | [], _, _ => by
    intro c hc
    simp [buildEntriesDepth] at hc
  | e :: es, rel, d => by
    intro c hc
    unfold buildEntriesDepth at hc
    dsimp only at hc
    split at hc
    · exact buildEntriesDepth_inv fd ld pats es rel d c hc
    · split at hc
      · split at hc
        · exact buildEntriesDepth_inv fd ld pats es rel d c hc
        · rcases List.mem_cons.mp hc with rfl | hmem
          · exact buildFSDepth_inv fd ld pats e _ _
          · exact buildEntriesDepth_inv fd ld pats es rel d c hmem
      · split at hc
        · exact buildEntriesDepth_inv fd ld pats es rel d c hc
        · rcases List.mem_cons.mp hc with rfl | hmem
          · exact buildFSDepth_inv fd ld pats e _ _
          · exact buildEntriesDepth_inv fd ld pats es rel d c hmem

end

mutual

/-- Every node the mapping decoder produces satisfies the invariant. -/
theorem fromVal_inv : ∀ (k : Name) (v : PyVal), (fromVal k v).inv = true
  | k, .nil => init_inv k true
  | k, .dict entries =>
    attachAll_inv _ _ (init_inv k false) (fromEntries_inv entries)

/-- Every child list the mapping decoder produces is invariant clean. -/
theorem fromEntries_inv : ∀ (entries : List (Name × PyVal)),
    ∀ c ∈ fromEntries entries, c.inv = true
  | [] => by
    intro c hc
    simp [fromEntries] at hc
  | (k, v) :: rest => by
    intro c hc
    unfold fromEntries at hc
    rcases List.mem_cons.mp hc with rfl | hmem
    · exact fromVal_inv k v
    · exact fromEntries_inv rest c hmem

end

/-- Navigation only returns nodes of the tree, so it preserves the
invariant. -/
theorem navQueue_inv : ∀ (q : List Name) (t : TreeNode), t.inv = true →
    ∀ u, (navQueue t q).node? = some u → u.inv = true := by
  intro q
  induction q with
  | nil =>
    intro t ht u hu
    simp only [navQueue, NavResult.node?, Option.some_inj] at hu
    exact hu ▸ ht
  | cons part rest ih =>
    intro t ht u hu
    unfold navQueue at hu
    dsimp only at hu
    split at hu
    case isTrue hcond =>
      refine ih _ ?_ u hu
      have hmem : t.get_children.getD (bisectLeft t.get_children part) dummyNode ∈
          t.get_children := by
        rw [List.getD_eq_getElem _ _ hcond.1]
        exact List.getElem_mem hcond.1
      exact inv_child ht hmem
    case isFalse => simp [NavResult.node?] at hu

/-- Claim C10.  The `non_leaf_names` set is created empty at construction
and updated only by `add_child`, which preserves the invariant that it holds
exactly the names of the non-leaf children; consequently both builders,
all three decoders, and subtree navigation only produce invariant-satisfying
nodes. -/
theorem non_leaf_names_invariant :
    (∀ (n : Name) (l : Bool), (TreeNode.init n l).nln = [] ∧ (TreeNode.init n l).inv = true) ∧
    (∀ p c : TreeNode, p.inv = true → c.inv = true → (p.add_child c).inv = true) ∧
    (∀ (rootName : Name) (entries : List FS) (pats : List Name),
      (buildRoot rootName entries pats).inv = true) ∧
    (∀ (rootName : Name) (entries : List FS) (fd ld : Nat) (pats : List Name),
      (buildRootDepth rootName entries fd ld pats).inv = true) ∧
    (∀ (s : Name) (t : TreeNode), TreeNode.from_repr s = some t → t.inv = true) ∧
    (∀ (s : Name) (t : TreeNode), TreeNode.from_md s = some t → t.inv = true) ∧
    (∀ (d : List (Name × PyVal)) (t : TreeNode), TreeNode.from_dict d = some t →
      t.inv = true) ∧
    (∀ (root : TreeNode) (rel : Name) (u : TreeNode), root.inv = true →
      (createSubtree root rel).node? = some u → u.inv = true) := by
  refine ⟨?_, @add_child_inv, ?_, ?_, from_repr_inv, from_md_inv, ?_, ?_⟩
  · intro n l
    exact ⟨rfl, init_inv n l⟩
  · intro rootName entries pats
    exact attachAll_inv _ _ (init_inv rootName false) (buildEntries_inv pats entries [])
  · intro rootName entries fd ld pats
    exact attachAll_inv _ _ (init_inv rootName false)
      (buildEntriesDepth_inv fd ld pats entries [] 0)
  · intro d t h
    match d with
    | [] => simp [TreeNode.from_dict] at h
    | (k, v) :: rest =>
      simp only [TreeNode.from_dict, Option.some_inj] at h
      exact h ▸ fromVal_inv k v
  · intro root rel u hroot hu
    unfold createSubtree at hu
    split at hu
    · simp [NavResult.node?] at hu
    · exact navQueue_inv _ _ hroot u hu

/-- Witness for C10: the invariant survives one concrete `add_child` and a
concrete subtree navigation. -/
theorem non_leaf_names_invariant_witness :
    ((TreeNode.init (chars "a") false).add_child (TreeNode.init (chars "b") false)).inv = true ∧
    ∀ u, (createSubtree (TreeNode.mk (chars "r") false [TreeNode.init (chars "b") true] [])
        (chars ".")).node? = some u → u.inv = true := by
  constructor
  · exact non_leaf_names_invariant.2.1 _ _ (by decide) (by decide)
  · intro u hu
    exact non_leaf_names_invariant.2.2.2.2.2.2.2 _ _ u (by decide) hu

/-! ## Claims C2 and C9: the mapping codec round trip -/

mutual

/-- Leaves carry no children, recursively (spec section 3: Leaf nodes carry
no children). -/
def TreeNode.leavesEmpty : TreeNode → Bool
  | .mk _ l ch _ => (!l || ch.isEmpty) && leavesEmptyList ch

/-- The leaf condition on every tree of a forest. -/
def leavesEmptyList : List TreeNode → Bool
  | [] => true
  | t :: ts => TreeNode.leavesEmpty t && leavesEmptyList ts

end

/-- The fields of a full attachment run onto a node. -/
theorem attachAll_fields : ∀ (cs : List TreeNode) (n : Name) (l : Bool)
    (ch : List TreeNode) (s : List Name),
    attachAll (TreeNode.mk n l ch s) cs =
      TreeNode.mk n l (ch ++ cs)
        (cs.foldl (fun acc c => if c.check_leaf then acc else insName c.name acc) s) := by
  intro cs
  induction cs with
  | nil => intro n l ch s; simp [attachAll]
  | cons c cs ih =>
    intro n l ch s
    show attachAll (TreeNode.add_child _ c) cs = _
    rw [TreeNode.add_child]
    rw [ih]
    simp [List.foldl_cons]

/-- Attaching onto a fresh directory yields exactly the children and the
name set accumulated by `add_child`. -/
theorem attachAll_mk (n : Name) (l : Bool) (cs : List TreeNode) :
    attachAll (TreeNode.mk n l [] []) cs = TreeNode.mk n l cs (nlnOf cs) := by
  rw [attachAll_fields]
  rfl

/-- `canonList` is the pointwise map of `canon`. -/
theorem canonList_map : ∀ cs : List TreeNode, canonList cs = cs.map TreeNode.canon := by
  intro cs
  induction cs with
  | nil => rfl
  | cons c cs ih => simp [canonList, ih]

/-- `canon` keeps the node name. -/
theorem canon_name (t : TreeNode) : t.canon.name = t.name := by
  cases t with
  | mk n l ch s =>
    unfold TreeNode.canon
    split
    · rfl
    · rfl

/-- Keys untouched by an insertion: a fresh key is appended. -/
theorem pyInsert_fresh : ∀ (acc : List (Name × PyVal)) (k : Name) (v : PyVal),
    k ∉ acc.map Prod.fst → pyInsert acc k v = acc ++ [(k, v)] := by
  intro acc
  induction acc with
  | nil => intro k v _; rfl
  | cons e rest ih =>
    intro k v hk
    match e with
    | (k', v') =>
      simp only [List.map_cons, List.mem_cons] at hk
      push_neg at hk
      unfold pyInsert
      rw [if_neg (by simpa using (Ne.symm hk.1))]
      rw [ih k v hk.2]
      simp


/-- With duplicate-free fresh child names the dict accumulates the child
entries in stored order. -/
theorem toEntries_map : ∀ (ch : List TreeNode) (acc : List (Name × PyVal)),
    ((ch.map TreeNode.name).Nodup) →
    (∀ c ∈ ch, c.name ∉ acc.map Prod.fst) →
    toEntries ch acc = acc ++ ch.map (fun c => (c.name, c.toVal)) := by
  intro ch
  induction ch with
  | nil => intro acc _ _; simp [toEntries]
  | cons c cs ih =>
    intro acc hnodup hfresh
    rcases List.nodup_cons.mp hnodup with ⟨hc, hcs⟩
    unfold toEntries
    rw [pyInsert_fresh acc c.name c.toVal (hfresh c (by simp))]
    rw [ih _ hcs ?_]
    · simp
    · intro d hd
      simp only [List.map_append, List.mem_append]
      push_neg
      refine ⟨hfresh d (by simp [hd]), ?_⟩
      simp only [List.map_cons, List.map_nil, List.mem_singleton]
      intro heq
      exact hc (heq ▸ List.mem_map_of_mem TreeNode.name hd)

/-- Member access for the sibling-uniqueness predicate. -/
theorem uniq_parts {n : Name} {l : Bool} {ch : List TreeNode} {s : List Name}
    (h : (TreeNode.mk n l ch s).uniq = true) :
    (ch.map TreeNode.name).Nodup ∧ ∀ c ∈ ch, c.uniq = true := by
  have h' := h
  unfold TreeNode.uniq at h'
  rcases andE h' with ⟨h1, h2⟩
  refine ⟨by simpa using h1, ?_⟩
  intro c hc
  clear h h' h1
  induction ch with
  | nil => simp at hc
  | cons x xs ih =>
    rcases andE h2 with ⟨hx, hxs⟩
    rcases List.mem_cons.mp hc with rfl | hmem
    · exact hx
    · exact ih hxs hmem

/-- Member access for the childless-leaf predicate. -/
theorem leavesEmpty_parts {n : Name} {l : Bool} {ch : List TreeNode} {s : List Name}
    (h : (TreeNode.mk n l ch s).leavesEmpty = true) :
    (l = true → ch = []) ∧ ∀ c ∈ ch, c.leavesEmpty = true := by
  have h' := h
  unfold TreeNode.leavesEmpty at h'
  rcases andE h' with ⟨h1, h2⟩
  constructor
  · intro hl
    subst hl
    simpa [List.isEmpty_iff] using h1
  · intro c hc
    clear h h' h1
    induction ch with
    | nil => simp at hc
    | cons x xs ih =>
      rcases andE h2 with ⟨hx, hxs⟩
      rcases List.mem_cons.mp hc with rfl | hmem
      · exact hx
      · exact ih hxs hmem

mutual

/-- The mapping codec rebuilds every well-formed node as its canonical
reconstruction. -/
theorem fromVal_toVal : ∀ t : TreeNode, t.uniq = true → t.leavesEmpty = true →
    fromVal t.name t.toVal = t.canon
  | .mk n l ch s => by
    intro hu hl
    rcases uniq_parts hu with ⟨hnodup, hchu⟩
    rcases leavesEmpty_parts hl with ⟨hleaf, hchl⟩
    by_cases hll : l = true
    · subst hll
      rw [hleaf rfl]
      rfl
    · have hlf : l = false := by simpa using hll
      subst hlf
      show fromVal n (TreeNode.toVal _) = _
      unfold TreeNode.toVal
      rw [if_neg (by simp)]
      unfold fromVal
      rw [toEntries_map ch [] (by simpa using hnodup) (by simp)]
      rw [List.nil_append]
      rw [fromEntries_pairs ch hchu hchl]
      rw [attachAll_mk]
      unfold TreeNode.canon
      rw [if_neg (by simp)]
      rw [canonList_map]

/-- The mapping codec rebuilds a well-formed child list pointwise. -/
theorem fromEntries_pairs : ∀ ch : List TreeNode,
    (∀ c ∈ ch, c.uniq = true) → (∀ c ∈ ch, c.leavesEmpty = true) →
    fromEntries (ch.map (fun c => (c.name, c.toVal))) = ch.map TreeNode.canon
  | [] => by
    intro _ _
    rfl
  | c :: cs => by
    intro hu hl
    show fromVal c.name c.toVal :: fromEntries (cs.map _) = _
    rw [fromVal_toVal c (hu c (by simp)) (hl c (by simp))]
    rw [fromEntries_pairs cs (fun d hd => hu d (by simp [hd])) (fun d hd => hl d (by simp [hd]))]
    simp

end

mutual

/-- The canonical reconstruction is observably the original tree. -/
theorem canon_equiv : ∀ t : TreeNode, t.leavesEmpty = true → t.canon.equiv t = true
  | .mk n l ch s => by
    intro hl
    rcases leavesEmpty_parts hl with ⟨hleaf, hchl⟩
    by_cases hll : l = true
    · subst hll
      rw [hleaf rfl]
      simp [TreeNode.canon, TreeNode.equiv, equivList]
    · have hlf : l = false := by simpa using hll
      subst hlf
      unfold TreeNode.canon
      rw [if_neg (by simp)]
      unfold TreeNode.equiv
      rw [canonList_map]
      refine andI (andI (by simp) (by simp)) ?_
      exact canonList_equiv ch hchl

/-- Pointwise canonical reconstruction is observably the original forest. -/
theorem canonList_equiv : ∀ cs : List TreeNode,
    (∀ c ∈ cs, c.leavesEmpty = true) → equivList (cs.map TreeNode.canon) cs = true
  | [] => by
    intro _
    rfl
  | c :: cs => by
    intro h
    show equivList (c.canon :: cs.map TreeNode.canon) (c :: cs) = true
    unfold equivList
    exact andI (canon_equiv c (h c (by simp)))
      (canonList_equiv cs (fun d hd => h d (by simp [hd])))

end

/-- The mapping round trip lands exactly on the canonical reconstruction. -/
theorem dict_roundtrip (t : TreeNode) (hu : t.uniq = true) (hl : t.leavesEmpty = true) :
    TreeNode.from_dict (TreeNode.to_dict t) = some t.canon := by
  unfold TreeNode.to_dict TreeNode.from_dict
  dsimp only
  rw [fromVal_toVal t hu hl]

/-- Claim C2.  For every Node Tree of the data model (sibling names unique,
leaves childless), decoding the encoded mapping reconstructs a tree with the
same names, the same leaf tags and the same children at every node — in
particular the same logical child sets; the codec takes no depth
parameters, so no depth filtering is applied anywhere. -/
theorem dict_roundtrip_complete (t : TreeNode) (hu : t.uniq = true)
    (hl : t.leavesEmpty = true) :
    ∃ u, TreeNode.from_dict (TreeNode.to_dict t) = some u ∧ u.equiv t = true :=
  ⟨t.canon, dict_roundtrip t hu hl, canon_equiv t hl⟩

/-- Witness for C2 at a concrete two-level tree. -/
theorem dict_roundtrip_complete_witness :
    ∃ u, TreeNode.from_dict (TreeNode.to_dict (TreeNode.mk (chars "r") false
      [TreeNode.mk (chars "a") false [TreeNode.mk (chars "x") true [] []] [chars "x0"],
       TreeNode.mk (chars "b") true [] []] [])) = some u ∧
      u.equiv (TreeNode.mk (chars "r") false
        [TreeNode.mk (chars "a") false [TreeNode.mk (chars "x") true [] []] [chars "x0"],
         TreeNode.mk (chars "b") true [] []] []) = true :=
  dict_roundtrip_complete _ (by decide) (by decide)

/-- Claim C9.  The mapping round trip preserves each directory's child
order exactly: the encoder emits the children into the insertion-ordered
dict in stored order and the decoder rebuilds them in entry order, so the
decoded tree is observably identical to the original, order included
(`TreeNode.equiv` compares child lists positionally). -/
theorem dict_roundtrip_order (t : TreeNode) (hu : t.uniq = true)
    (hl : t.leavesEmpty = true) :
    (TreeNode.from_dict (TreeNode.to_dict t)).map (fun u => u.equiv t) = some true := by
  rw [dict_roundtrip t hu hl]
  simp [canon_equiv t hl]

/-- Witness for C9 at a concrete tree whose children are deliberately not
name sorted, so positional equality is informative. -/
theorem dict_roundtrip_order_witness :
    (TreeNode.from_dict (TreeNode.to_dict (TreeNode.mk (chars "r") false
      [TreeNode.mk (chars "b") true [] [],
       TreeNode.mk (chars "a") true [] []] []))).map
      (fun u => u.equiv (TreeNode.mk (chars "r") false
        [TreeNode.mk (chars "b") true [] [],
         TreeNode.mk (chars "a") true [] []] [])) = some true :=
  dict_roundtrip_order _ (by decide) (by decide)

/-! ## Claim C7: depth caps of the bounded builder -/

mutual

/-- The claim-side depth filter on a finished tree, following the claim
wording: while scanning a directory at folder depth `d`, a directory entry
is excluded exactly when `d` equals a non-zero `folder_depth` (pruned with
its whole subtree, siblings kept), and a file entry is excluded exactly when
`d` is at least a non-zero `file_depth`.  Kept directories are rebuilt
through `add_child`, as the walk would. -/
def pruneNode (fd ld : Nat) : TreeNode → Nat → TreeNode
  | .mk n l ch _, d => attachAll (.mk n l [] []) (pruneChildren fd ld ch d)

/-- The filter along a children list scanned at folder depth `d`. -/
def pruneChildren (fd ld : Nat) : List TreeNode → Nat → List TreeNode
  | [], _ => []
  | c :: cs, d =>
    if c.check_leaf then
      if ld ≠ 0 ∧ d ≥ ld then pruneChildren fd ld cs d
      else c :: pruneChildren fd ld cs d
    else
      if fd ≠ 0 ∧ d = fd then pruneChildren fd ld cs d
      else pruneNode fd ld c (d + 1) :: pruneChildren fd ld cs d

end

/-- The leaf tag of a built node is the entry kind. -/
theorem buildFS_leaf (pats : List Name) (e : FS) (rel : Name) :
    (buildFS pats e rel).check_leaf = !e.isDir := by
  cases e with
  | file n => rfl
  | dir n ents =>
    show (attachAll (TreeNode.mk n false [] []) _).check_leaf = _
    rw [attachAll_mk]
    rfl

/-- A built leaf is exactly the fresh leaf node. -/
theorem buildFS_file (pats : List Name) (n : Name) (rel : Name) :
    buildFS pats (FS.file n) rel = TreeNode.mk n true [] [] := rfl

mutual

/-- The depth-bounded walk of one entry is the depth filter of its
unbounded walk (while the scan stays within a non-zero folder cap). -/
theorem buildFSDepth_eq_prune (fd ld : Nat) (pats : List Name) :
    ∀ (e : FS) (rel : Name) (d : Nat), (fd ≠ 0 → d ≤ fd) →
      buildFSDepth fd ld pats e rel d = pruneNode fd ld (buildFS pats e rel) d
  | .file n, rel, d => by
    intro _
    rfl
  | .dir n ents, rel, d => by
    intro hd
    have hR : pruneNode fd ld (buildFS pats (FS.dir n ents) rel) d =
        attachAll (TreeNode.mk n false [] [])
          (pruneChildren fd ld (buildEntries pats ents rel) d) := by
      show pruneNode fd ld
        (attachAll (TreeNode.mk n false [] []) (buildEntries pats ents rel)) d = _
      rw [attachAll_mk]
      unfold pruneNode
      rfl
    rw [hR]
    unfold buildFSDepth
    rw [if_neg (by intro hcon; rcases hcon with ⟨h1, h2⟩; exact absurd (hd h1) (by omega))]
    rw [buildEntriesDepth_eq_prune fd ld pats ents rel d hd]

/-- The depth-bounded children of a scan are the depth filter of the
unbounded children. -/
theorem buildEntriesDepth_eq_prune (fd ld : Nat) (pats : List Name) :
    ∀ (es : List FS) (rel : Name) (d : Nat), (fd ≠ 0 → d ≤ fd) →
      buildEntriesDepth fd ld pats es rel d =
        pruneChildren fd ld (buildEntries pats es rel) d
  | [], rel, d => by
    intro _
    rfl
  | e :: es, rel, d => by
    intro hd
    by_cases hig : shouldIgnore e.isDir (relChild rel e.fsname) pats = true
    · have hL : buildEntriesDepth fd ld pats (e :: es) rel d =
          buildEntriesDepth fd ld pats es rel d := by
        conv_lhs => unfold buildEntriesDepth
        dsimp only
        rw [if_pos hig]
      have hB : buildEntries pats (e :: es) rel = buildEntries pats es rel := by
        conv_lhs => unfold buildEntries
        dsimp only
        rw [if_pos hig]
      rw [hL, hB]
      exact buildEntriesDepth_eq_prune fd ld pats es rel d hd
    · have hB : buildEntries pats (e :: es) rel =
          buildFS pats e (relChild rel e.fsname) :: buildEntries pats es rel := by
        conv_lhs => unfold buildEntries
        dsimp only
        rw [if_neg hig]
      cases e with
      | file n =>
        have hL : buildEntriesDepth fd ld pats (FS.file n :: es) rel d =
            if ld ≠ 0 ∧ d ≥ ld then buildEntriesDepth fd ld pats es rel d
            else TreeNode.mk n true [] [] :: buildEntriesDepth fd ld pats es rel d := by
          conv_lhs => unfold buildEntriesDepth
          dsimp only
          rw [if_neg hig]
          rfl
        have hR : pruneChildren fd ld
            (buildFS pats (FS.file n) (relChild rel (FS.file n).fsname) ::
              buildEntries pats es rel) d =
            if ld ≠ 0 ∧ d ≥ ld then pruneChildren fd ld (buildEntries pats es rel) d
            else TreeNode.mk n true [] [] ::
              pruneChildren fd ld (buildEntries pats es rel) d := by
          rw [buildFS_file]
          conv_lhs => unfold pruneChildren
          rfl
        rw [hB, hL, hR]
        split
        · exact buildEntriesDepth_eq_prune fd ld pats es rel d hd
        · rw [buildEntriesDepth_eq_prune fd ld pats es rel d hd]
      | dir n ents =>
        have hL : buildEntriesDepth fd ld pats (FS.dir n ents :: es) rel d =
            if fd ≠ 0 ∧ d = fd then buildEntriesDepth fd ld pats es rel d
            else buildFSDepth fd ld pats (FS.dir n ents)
                (relChild rel (FS.dir n ents).fsname) (d + 1) ::
              buildEntriesDepth fd ld pats es rel d := by
          conv_lhs => unfold buildEntriesDepth
          dsimp only
          rw [if_neg hig]
          rfl
        have hlf : (buildFS pats (FS.dir n ents)
            (relChild rel (FS.dir n ents).fsname)).check_leaf = false := by
          rw [buildFS_leaf]
          rfl
        have hR : pruneChildren fd ld
            (buildFS pats (FS.dir n ents) (relChild rel (FS.dir n ents).fsname) ::
              buildEntries pats es rel) d =
            if fd ≠ 0 ∧ d = fd then pruneChildren fd ld (buildEntries pats es rel) d
            else pruneNode fd ld (buildFS pats (FS.dir n ents)
                (relChild rel (FS.dir n ents).fsname)) (d + 1) ::
              pruneChildren fd ld (buildEntries pats es rel) d := by
          conv_lhs => unfold pruneChildren
          rw [hlf]
          rfl
        rw [hB, hL, hR]
        by_cases hcond : fd ≠ 0 ∧ d = fd
        · rw [if_pos hcond, if_pos hcond]
          exact buildEntriesDepth_eq_prune fd ld pats es rel d hd
        · rw [if_neg hcond, if_neg hcond]
          rw [buildEntriesDepth_eq_prune fd ld pats es rel d hd]
          rw [buildFSDepth_eq_prune fd ld pats (FS.dir n ents) _ (d + 1) ?_]
          intro hfd
          rcases Decidable.not_and_iff_or_not.mp hcond with h | h
          · exact absurd hfd h
          · have := hd hfd
            omega

end

mutual

/-- With both caps zero the bounded walk of one entry is the unbounded
walk. -/
theorem buildFSDepth_zero (pats : List Name) :
    ∀ (e : FS) (rel : Name) (d : Nat),
      buildFSDepth 0 0 pats e rel d = buildFS pats e rel
  | .file n, rel, d => rfl
  | .dir n ents, rel, d => by
    unfold buildFSDepth buildFS
    rw [if_neg (by simp)]
    rw [buildEntriesDepth_zero pats ents rel d]

/-- With both caps zero the bounded children are the unbounded children. -/
theorem buildEntriesDepth_zero (pats : List Name) :
    ∀ (es : List FS) (rel : Name) (d : Nat),
      buildEntriesDepth 0 0 pats es rel d = buildEntries pats es rel
  | [], rel, d => rfl
  | e :: es, rel, d => by
    unfold buildEntriesDepth buildEntries
    dsimp only
    split
    · exact buildEntriesDepth_zero pats es rel d
    · split
      · rw [if_neg (by simp)]
        rw [buildFSDepth_zero pats e _ (d + 1), buildEntriesDepth_zero pats es rel d]
      · rw [if_neg (by simp)]
        rw [buildFSDepth_zero pats e _ (d + 1), buildEntriesDepth_zero pats es rel d]

end

/-- Claim C7.  The depth-bounded builder with caps `(fd, ld)` (zero meaning
unlimited) produces exactly the depth filter of the unbounded build: while
scanning a directory at folder depth `d`, a directory entry is excluded —
never queued, its subtree never walked — exactly when `d` equals a non-zero
`fd`, and a file entry is excluded exactly when `d` is at least a non-zero
`ld`; siblings of an excluded entry survive, the two caps act independently,
and both may be zero, in which case the bounded build is the unbounded
build. -/
theorem trimmed_build_is_depth_filter :
    (∀ (rootName : Name) (entries : List FS) (fd ld : Nat) (pats : List Name),
      buildRootDepth rootName entries fd ld pats =
        pruneNode fd ld (buildRoot rootName entries pats) 0) ∧
    (∀ (rootName : Name) (entries : List FS) (pats : List Name),
      buildRootDepth rootName entries 0 0 pats = buildRoot rootName entries pats) := by
  constructor
  · intro rootName entries fd ld pats
    have hR : pruneNode fd ld (buildRoot rootName entries pats) 0 =
        attachAll (TreeNode.mk rootName false [] [])
          (pruneChildren fd ld (buildEntries pats entries []) 0) := by
      show pruneNode fd ld
        (attachAll (TreeNode.mk rootName false [] []) (buildEntries pats entries [])) 0 = _
      rw [attachAll_mk]
      conv_lhs => unfold pruneNode
    rw [hR]
    unfold buildRootDepth
    rw [buildEntriesDepth_eq_prune fd ld pats entries [] 0 (fun h => Nat.zero_le _)]
  · intro rootName entries pats
    unfold buildRootDepth buildRoot
    rw [buildEntriesDepth_zero pats entries []]

/-! ## Claim C4: depth truncation in the encoders -/

/-- Rendering distributes over emission concatenation. -/
theorem renderRepr_append (a b : List (Name × Bool × Nat)) :
    renderRepr (a ++ b) = renderRepr a ++ renderRepr b := by
  induction a with
  | nil => simp [renderRepr]
  | cons e es ih =>
    simp only [renderRepr, List.foldr_cons, List.cons_append] at *
    simp [ih]

/-- Forest emission is the concatenation of per-sibling emissions over the
level-paired list. -/
theorem reprEmitsList_eq_flatMap (fd ld : Nat) : ∀ (ch : List TreeNode) (lvl : Nat),
    reprEmitsList fd ld ch lvl =
      (ch.map (fun c => (c, lvl))).flatMap (fun p => reprEmits fd ld p.1 p.2) := by
  intro ch
  induction ch with
  | nil => intro lvl; rfl
  | cons c cs ih =>
    intro lvl
    simp only [reprEmitsList, List.map_cons, List.flatMap_cons, ih]

/-- The faithful `to_repr` stack loop renders exactly the emission sequence
of the stack. -/
theorem toReprLoop_eq_render (fd ld : Nat) : ∀ (stack : List (TreeNode × Nat)) (acc : Name),
    toReprLoop fd ld stack acc =
      acc ++ renderRepr (stack.flatMap (fun p => reprEmits fd ld p.1 p.2)) := by
  intro stack acc
  induction stack, acc using toReprLoop.induct fd ld with
  | case1 acc => simp [toReprLoop, renderRepr]
  | case2 t lvl rest acc hskip ih =>
    have hez : reprEmits fd ld t lvl = [] := by
      cases t with
      | mk n l ch s =>
        unfold reprEmits
        rw [if_pos (by simpa [TreeNode.check_leaf] using hskip)]
    rw [toReprLoop]
    rw [if_pos hskip]
    rw [ih]
    simp [hez]
  | case3 t lvl rest acc hskip acc' hleaf ih =>
    have hee : reprEmits fd ld t lvl = [(t.name, t.check_leaf, lvl)] := by
      cases t with
      | mk n l ch s =>
        unfold reprEmits
        rw [if_neg (by simpa [TreeNode.check_leaf] using hskip)]
        simp only [TreeNode.check_leaf] at hleaf
        rw [if_pos hleaf]
        simp [TreeNode.name, TreeNode.check_leaf, hleaf]
    unfold acc' at ih
    rw [toReprLoop]
    rw [if_neg hskip]
    dsimp only
    rw [if_pos hleaf]
    rw [ih]
    simp only [List.flatMap_cons, hee, renderRepr_append]
    simp [renderRepr, List.append_assoc]
  | case4 t lvl rest acc hskip acc' hleaf ih =>
    have hee : reprEmits fd ld t lvl =
        (t.name, t.check_leaf, lvl) :: reprEmitsList fd ld t.get_children (lvl + 1) := by
      cases t with
      | mk n l ch s =>
        unfold reprEmits
        rw [if_neg (by simpa [TreeNode.check_leaf] using hskip)]
        simp only [TreeNode.check_leaf] at hleaf
        rw [if_neg (by simpa using hleaf)]
        simp [TreeNode.name, TreeNode.check_leaf, TreeNode.get_children]
    unfold acc' at ih
    rw [toReprLoop]
    rw [if_neg hskip]
    dsimp only
    simp only [Bool.not_eq_true] at hleaf
    rw [if_neg (by simp [hleaf])]
    rw [ih]
    simp only [List.flatMap_cons, List.flatMap_append, hee, renderRepr_append]
    rw [reprEmitsList_eq_flatMap]
    simp [renderRepr, List.append_assoc]

/-- `to_repr` is the rendered emission sequence. -/
theorem to_repr_eq_render (t : TreeNode) (level fd ld : Nat) :
    t.to_repr level fd ld = renderRepr (reprEmits fd ld t level) := by
  unfold TreeNode.to_repr
  rw [toReprLoop_eq_render]
  simp

mutual

/-- Every entry the listing encoder emits respects the caps: a leaf never
sits deeper than a non-zero `ld`, a directory never deeper than a non-zero
`fd`. -/
theorem reprEmits_bound (fd ld : Nat) :
    ∀ (t : TreeNode) (lvl : Nat), ∀ e ∈ reprEmits fd ld t lvl,
      (e.2.1 = true → ld ≠ 0 → e.2.2 ≤ ld) ∧ (e.2.1 = false → fd ≠ 0 → e.2.2 ≤ fd)
  | .mk n l ch s, lvl => by
    intro e he
    unfold reprEmits at he
    split at he
    case isTrue => simp at he
    case isFalse hskip =>
      unfold reprSkip at hskip
      rcases List.mem_cons.mp he with rfl | hmem
      · constructor
        · intro hl hld
          have hl' : l = true := hl
          subst hl'
          simp [hld] at hskip
          show lvl ≤ ld
          omega
        · intro hl hfd
          have hl' : l = false := hl
          subst hl'
          simp [hfd] at hskip
          show lvl ≤ fd
          omega
      · split at hmem
        · simp at hmem
        · exact reprEmitsList_bound fd ld ch (lvl + 1) e hmem

/-- The cap bound over a sibling list. -/
theorem reprEmitsList_bound (fd ld : Nat) :
    ∀ (cs : List TreeNode) (lvl : Nat), ∀ e ∈ reprEmitsList fd ld cs lvl,
      (e.2.1 = true → ld ≠ 0 → e.2.2 ≤ ld) ∧ (e.2.1 = false → fd ≠ 0 → e.2.2 ≤ fd)
  | [], _ => by
    intro e he
    simp [reprEmitsList] at he
  | c :: cs, lvl => by
    intro e he
    unfold reprEmitsList at he
    rcases List.mem_append.mp he with hmem | hmem
    · exact reprEmits_bound fd ld c lvl e hmem
    · exact reprEmitsList_bound fd ld cs lvl e hmem

end

/-- Basic evaluation of `joinLines`. -/
theorem joinLines_nil : joinLines [] = [] := rfl

/-- A single line joins to itself. -/
theorem joinLines_single (a : Name) : joinLines [a] = a := by
  simp [joinLines, List.intercalate]

/-- Splitting off the first of at least two lines. -/
theorem joinLines_cons (a : Name) (ls : List Name) (h : ls ≠ []) :
    joinLines (a :: ls) = a ++ '\n' :: joinLines ls := by
  match ls with
  | [] => exact absurd rfl h
  | b :: ls' =>
    simp [joinLines, List.intercalate, List.intersperse]

/-- Every node emits at least its own line. -/
theorem mdEmits_ne_nil (fd ld : Nat) (pfx0 : Name) (t : TreeNode) (lvl : Nat)
    (isLast : Bool) (cur : Name) : mdEmits fd ld pfx0 t lvl isLast cur ≠ [] := by
  cases t with
  | mk n l ch s =>
    unfold mdEmits
    split
    · simp
    · simp

/-- Sibling emission with an explicit last flag on an already filtered
list. -/
def lastFlagEmits (fd ld : Nat) (pfx0 : Name) (lvl1 : Nat) (np : Name) :
    List TreeNode → List (Nat × Bool × Name)
  | [] => []
  | [k] => mdEmits fd ld pfx0 k lvl1 true np
  | k :: ks => mdEmits fd ld pfx0 k lvl1 false np ++ lastFlagEmits fd ld pfx0 lvl1 np ks

/-- The inline filtering of `mdEmitsList` is the explicit filter plus
last-flagging. -/
theorem mdEmitsList_eq_lastFlag (fd ld : Nat) (pfx0 : Name) :
    ∀ (cs : List TreeNode) (lvl1 : Nat) (np : Name),
      mdEmitsList fd ld pfx0 cs lvl1 np =
        lastFlagEmits fd ld pfx0 lvl1 np (cs.filter (keepChild fd ld lvl1)) := by
  intro cs
  induction cs with
  | nil => intro lvl1 np; rfl
  | cons c cs ih =>
    intro lvl1 np
    unfold mdEmitsList
    by_cases hk : keepChild fd ld lvl1 c = true
    · rw [if_pos hk]
      rw [List.filter_cons_of_pos hk]
      by_cases hany : cs.any (keepChild fd ld lvl1) = true
      · have hfil : cs.filter (keepChild fd ld lvl1) ≠ [] := by
          rcases List.any_eq_true.mp hany with ⟨x, hx, hpx⟩
          intro hcon
          have := List.filter_eq_nil_iff.mp hcon x hx
          simp [hpx] at this
        rw [hany]
        rw [ih]
        cases hfc : cs.filter (keepChild fd ld lvl1) with
        | nil => exact absurd hfc hfil
        | cons k ks => rfl
      · have hfil : cs.filter (keepChild fd ld lvl1) = [] := by
          rw [List.filter_eq_nil_iff]
          intro x hx
          rcases List.any_eq_false.mp (by simpa using hany) x hx with h
          simp [h]
        rw [Bool.not_eq_true] at hany
        rw [hany]
        rw [ih, hfil]
        show mdEmits fd ld pfx0 c lvl1 true np ++ lastFlagEmits fd ld pfx0 lvl1 np [] =
          lastFlagEmits fd ld pfx0 lvl1 np [c]
        simp [lastFlagEmits]
    · rw [if_neg hk]
      rw [List.filter_cons_of_neg (by simpa using hk)]
      exact ih lvl1 np

/-- The explicit last-flag emission in dropLast-getLast form. -/
theorem lastFlagEmits_split (fd ld : Nat) (pfx0 : Name) (lvl1 : Nat) (np : Name) :
    ∀ (ks : List TreeNode) (lastk : TreeNode), ks.getLast? = some lastk →
      lastFlagEmits fd ld pfx0 lvl1 np ks =
        ks.dropLast.flatMap (fun k => mdEmits fd ld pfx0 k lvl1 false np) ++
          mdEmits fd ld pfx0 lastk lvl1 true np := by
  intro ks
  induction ks with
  | nil => intro lastk h; simp at h
  | cons k ks ih =>
    intro lastk h
    cases ks with
    | nil =>
      simp only [List.getLast?_singleton, Option.some_inj] at h
      subst h
      simp [lastFlagEmits]
    | cons k2 ks2 =>
      rw [List.getLast?_cons_cons] at h
      have := ih lastk h
      show mdEmits fd ld pfx0 k lvl1 false np ++ lastFlagEmits fd ld pfx0 lvl1 np (k2 :: ks2) = _
      rw [this]
      simp [List.dropLast]

/-- Stack emissions of a `pushChildren` result. -/
theorem pushChildren_flatMap (fd ld : Nat) (pfx0 : Name) (lvl1 : Nat) (np : Name)
    (ks : List TreeNode) (rest : List (TreeNode × Nat × Bool × Name)) :
    (pushChildren lvl1 np ks rest).flatMap
        (fun q => mdEmits fd ld pfx0 q.1 q.2.1 q.2.2.1 q.2.2.2) =
      lastFlagEmits fd ld pfx0 lvl1 np ks ++
        rest.flatMap (fun q => mdEmits fd ld pfx0 q.1 q.2.1 q.2.2.1 q.2.2.2) := by
  unfold pushChildren
  cases hlast : ks.getLast? with
  | none =>
    have : ks = [] := by
      cases ks with
      | nil => rfl
      | cons x xs => simp [List.getLast?_eq_getLast] at hlast
    subst this
    rfl
  | some lastk =>
    rw [lastFlagEmits_split fd ld pfx0 lvl1 np ks lastk hlast]
    simp only [List.flatMap_append, List.flatMap_cons]
    have hmap : (ks.dropLast.map (fun c => (c, lvl1, false, np))).flatMap
        (fun q => mdEmits fd ld pfx0 q.1 q.2.1 q.2.2.1 q.2.2.2) =
        ks.dropLast.flatMap (fun k => mdEmits fd ld pfx0 k lvl1 false np) := by
      induction ks.dropLast with
      | nil => rfl
      | cons x xs ihx => simp [List.flatMap_cons, ihx]
    rw [hmap]
    simp [List.append_assoc]

/-- With both caps zero every child is kept. -/
theorem keepChild_zero (lvl1 : Nat) (c : TreeNode) : keepChild 0 0 lvl1 c = true := by
  unfold keepChild
  split
  · simp
  · simp

/-- The zero-caps filter keeps the whole list. -/
theorem filter_keepChild_zero (lvl1 : Nat) (cs : List TreeNode) :
    cs.filter (keepChild 0 0 lvl1) = cs :=
  List.filter_eq_self.mpr (fun c _ => keepChild_zero lvl1 c)

/-- A non-empty stack emits at least one line. -/
theorem stackFlat_ne (fd ld : Nat) (pfx0 : Name) :
    ∀ stack : List (TreeNode × Nat × Bool × Name), stack ≠ [] →
      stack.flatMap (fun q => mdEmits fd ld pfx0 q.1 q.2.1 q.2.2.1 q.2.2.2) ≠ [] := by
  intro stack h
  cases stack with
  | nil => exact absurd rfl h
  | cons q rest =>
    simp only [List.flatMap_cons]
    intro hcon
    rcases List.append_eq_nil.mp hcon with ⟨h1, _⟩
    exact mdEmits_ne_nil fd ld pfx0 q.1 q.2.1 q.2.2.1 q.2.2.2 h1

/-- The faithful `to_md` stack loop renders exactly the emitted lines,
joined by newlines. -/
theorem toMdLoop_eq_render (fd ld : Nat) (pfx0 : Name) :
    ∀ (stack : List (TreeNode × Nat × Bool × Name)) (acc : Name),
      toMdLoop fd ld pfx0 stack acc =
        (if stack.isEmpty then acc
         else acc ++ joinLines ((stack.flatMap
           (fun q => mdEmits fd ld pfx0 q.1 q.2.1 q.2.2.1 q.2.2.2)).map (fun e => e.2.2))) := by
  intro stack acc
  induction stack, acc using toMdLoop.induct fd ld pfx0 with
  | case1 acc => simp [toMdLoop]
  | case2 t lvl isLast cur rest acc acc1 hleaf ih =>
    have hee : mdEmits fd ld pfx0 t lvl isLast cur =
        [(lvl, true, mdLine cur lvl isLast t.name t.check_leaf)] := by
      cases t with
      | mk n l ch s =>
        unfold mdEmits
        simp only [TreeNode.check_leaf] at hleaf
        rw [if_pos hleaf]
        simp [TreeNode.name, TreeNode.check_leaf]
    simp only [dite_eq_ite] at ih
    have hL : toMdLoop fd ld pfx0 ((t, lvl, isLast, cur) :: rest) acc =
        toMdLoop fd ld pfx0 rest (if rest.isEmpty then acc1 else acc1 ++ ['\n']) := by
      conv_lhs => rw [toMdLoop]
      rw [if_pos hleaf]
    rw [hL, ih]
    have hcne : ¬ (((t, lvl, isLast, cur) :: rest).isEmpty = true) := by simp
    rw [if_neg hcne]
    cases hre : rest.isEmpty with
    | true =>
      have hrnil : rest = [] := by simpa [List.isEmpty_iff] using hre
      subst hrnil
      simp only [List.isEmpty_nil, if_true]
      unfold acc1
      simp only [List.flatMap_cons, hee, List.flatMap_nil, List.append_nil, List.map_cons,
        List.map_nil]
      rw [joinLines_single]
    | false =>
      have hrne : rest ≠ [] := by simpa [List.isEmpty_iff] using hre
      rw [if_neg (by simp [hre])]
      have hlinesne : (rest.flatMap
          (fun q => mdEmits fd ld pfx0 q.1 q.2.1 q.2.2.1 q.2.2.2)).map (fun e => e.2.2) ≠ [] := by
        simp only [ne_eq, List.map_eq_nil_iff]
        exact stackFlat_ne fd ld pfx0 rest hrne
      unfold acc1
      simp only [List.flatMap_cons, hee, List.cons_append, List.nil_append, List.map_cons]
      rw [joinLines_cons _ _ hlinesne]
      simp [List.append_assoc]
  | case3 t lvl isLast cur rest acc acc1 hleaf np stack' ih =>
    have hee : mdEmits fd ld pfx0 t lvl isLast cur =
        (lvl, false, mdLine cur lvl isLast t.name t.check_leaf) ::
          mdEmitsList fd ld pfx0 t.get_children (lvl + 1) np := by
      cases t with
      | mk n l ch s =>
        unfold mdEmits
        simp only [TreeNode.check_leaf, Bool.not_eq_true] at hleaf
        rw [if_neg (by simp [hleaf])]
        simp only [TreeNode.name, TreeNode.check_leaf, TreeNode.get_children, hleaf]
    have hstack' : stack' = pushChildren (lvl + 1) np
        (t.get_children.filter (keepChild fd ld (lvl + 1))) rest := by
      unfold stack'
      split
      case isTrue hz =>
        obtain ⟨rfl, rfl⟩ := hz
        rw [filter_keepChild_zero]
      case isFalse => rfl
    have hflat : stack'.flatMap (fun q => mdEmits fd ld pfx0 q.1 q.2.1 q.2.2.1 q.2.2.2) =
        mdEmitsList fd ld pfx0 t.get_children (lvl + 1) np ++
          rest.flatMap (fun q => mdEmits fd ld pfx0 q.1 q.2.1 q.2.2.1 q.2.2.2) := by
      rw [hstack', pushChildren_flatMap, mdEmitsList_eq_lastFlag]
    simp only [dite_eq_ite] at ih
    have hL : toMdLoop fd ld pfx0 ((t, lvl, isLast, cur) :: rest) acc =
        toMdLoop fd ld pfx0 stack' (if stack'.isEmpty then acc1 else acc1 ++ ['\n']) := by
      conv_lhs => rw [toMdLoop]
      rw [if_neg hleaf]
      rfl
    rw [hL, ih]
    have hcne : ¬ (((t, lvl, isLast, cur) :: rest).isEmpty = true) := by simp
    rw [if_neg hcne]
    cases hse : stack'.isEmpty with
    | true =>
      have hsnil : stack' = [] := by simpa [List.isEmpty_iff] using hse
      rw [if_pos (rfl : (true : Bool) = true), if_pos (rfl : (true : Bool) = true)]
      have hflat0 : mdEmitsList fd ld pfx0 t.get_children (lvl + 1) np ++
          rest.flatMap (fun q => mdEmits fd ld pfx0 q.1 q.2.1 q.2.2.1 q.2.2.2) = [] := by
        rw [← hflat, hsnil]
        rfl
      rcases List.append_eq_nil.mp hflat0 with ⟨h1, h2⟩
      unfold acc1
      simp only [List.flatMap_cons, hee]
      rw [h1, h2]
      simp only [List.cons_append, List.nil_append, List.append_nil, List.map_cons, List.map_nil]
      rw [joinLines_single]
    | false =>
      have hsne : stack' ≠ [] := by simpa [List.isEmpty_iff] using hse
      rw [if_neg (show ¬ ((false : Bool) = true) by simp),
        if_neg (show ¬ ((false : Bool) = true) by simp)]
      have hlinesne : (stack'.flatMap
          (fun q => mdEmits fd ld pfx0 q.1 q.2.1 q.2.2.1 q.2.2.2)).map (fun e => e.2.2) ≠ [] := by
        simp only [ne_eq, List.map_eq_nil_iff]
        exact stackFlat_ne fd ld pfx0 stack' hsne
      unfold acc1
      simp only [List.flatMap_cons, hee, List.cons_append, List.map_cons]
      rw [hflat] at hlinesne
      rw [hflat]
      rw [joinLines_cons _ _ hlinesne]
      simp [List.append_assoc]

/-- `to_md` is the rendered emission sequence. -/
theorem to_md_eq_render (t : TreeNode) (level : Nat) (isLast : Bool) (pfx : Name)
    (fd ld : Nat) :
    t.to_md level isLast pfx fd ld = renderMd (mdEmits fd ld pfx t level isLast pfx) := by
  unfold TreeNode.to_md renderMd
  rw [toMdLoop_eq_render]
  simp

mutual

/-- Every line the diagram encoder emits respects the caps, provided the
emitted node itself does (the root at level 0 always does). -/
theorem mdEmits_bound (fd ld : Nat) (pfx0 : Name) :
    ∀ (t : TreeNode) (lvl : Nat) (isLast : Bool) (cur : Name),
      (t.check_leaf = true → ld ≠ 0 → lvl ≤ ld) →
      (t.check_leaf = false → fd ≠ 0 → lvl ≤ fd) →
      ∀ e ∈ mdEmits fd ld pfx0 t lvl isLast cur,
        (e.2.1 = true → ld ≠ 0 → e.1 ≤ ld) ∧ (e.2.1 = false → fd ≠ 0 → e.1 ≤ fd)
  | .mk n l ch s, lvl, isLast, cur => by
    intro hlf hdr e he
    unfold mdEmits at he
    split at he
    case isTrue hl =>
      simp only [List.mem_singleton] at he
      subst he
      constructor
      · intro _ hld
        exact hlf (by simpa [TreeNode.check_leaf] using hl) hld
      · intro hfalse _
        simp at hfalse
    case isFalse hl =>
      rcases List.mem_cons.mp he with rfl | hmem
      · constructor
        · intro htrue _
          simp at htrue
        · intro _ hfd
          exact hdr (by simpa [TreeNode.check_leaf] using hl) hfd
      · exact mdEmitsList_bound fd ld pfx0 ch (lvl + 1) _ e hmem

/-- The cap bound over the emitted lines of a sibling list. -/
theorem mdEmitsList_bound (fd ld : Nat) (pfx0 : Name) :
    ∀ (cs : List TreeNode) (lvl1 : Nat) (np : Name),
      ∀ e ∈ mdEmitsList fd ld pfx0 cs lvl1 np,
        (e.2.1 = true → ld ≠ 0 → e.1 ≤ ld) ∧ (e.2.1 = false → fd ≠ 0 → e.1 ≤ fd)
  | [], _, _ => by
    intro e he
    simp [mdEmitsList] at he
  | c :: cs, lvl1, np => by
    intro e he
    unfold mdEmitsList at he
    split at he
    case isTrue hk =>
      rcases List.mem_append.mp he with hmem | hmem
      · refine mdEmits_bound fd ld pfx0 c lvl1 _ np ?_ ?_ e hmem
        · intro hcl hld
          unfold keepChild at hk
          rw [if_pos hcl] at hk
          simp [hld] at hk
          omega
        · intro hcl hfd
          unfold keepChild at hk
          rw [if_neg (by simp [hcl])] at hk
          simp [hfd] at hk
          omega
      · exact mdEmitsList_bound fd ld pfx0 cs lvl1 np e hmem
    case isFalse =>
      exact mdEmitsList_bound fd ld pfx0 cs lvl1 np e he

end

mutual

/-- The claim-side depth filter on a finished tree for the encoders: a
child that violates its non-zero cap at its level vanishes with its whole
subtree, its siblings stay. -/
def pruneEnc (fd ld : Nat) : TreeNode → Nat → TreeNode
  | .mk n l ch s, lvl => .mk n l (pruneEncList fd ld ch (lvl + 1)) s

/-- The encoder depth filter along a children list at level `lvl1`. -/
def pruneEncList (fd ld : Nat) : List TreeNode → Nat → List TreeNode
  | [], _ => []
  | c :: cs, lvl1 =>
    if keepChild fd ld lvl1 c then pruneEnc fd ld c lvl1 :: pruneEncList fd ld cs lvl1
    else pruneEncList fd ld cs lvl1

end

/-- The child filter is the negation of the encoder skip test. -/
theorem keepChild_not_skip (fd ld lvl1 : Nat) (c : TreeNode) :
    keepChild fd ld lvl1 c = !reprSkip fd ld c.check_leaf lvl1 := by
  unfold keepChild reprSkip
  split
  case isTrue hc =>
    rw [Bool.eq_iff_iff]
    simp
  case isFalse hc =>
    rw [Bool.eq_iff_iff]
    simp

/-- With zero caps nothing is ever skipped. -/
theorem reprSkip_zero (b : Bool) (lvl : Nat) : reprSkip 0 0 b lvl = false := by
  unfold reprSkip
  split <;> simp

/-- The filter keeps the name. -/
theorem pruneEnc_name (fd ld : Nat) (t : TreeNode) (lvl : Nat) :
    (pruneEnc fd ld t lvl).name = t.name := by
  cases t with
  | mk n l ch s => rfl

/-- The filter keeps the leaf tag. -/
theorem pruneEnc_leaf (fd ld : Nat) (t : TreeNode) (lvl : Nat) :
    (pruneEnc fd ld t lvl).check_leaf = t.check_leaf := by
  cases t with
  | mk n l ch s => rfl

/-- An empty filtered list means no kept child. -/
theorem pruneEncList_nil_iff (fd ld : Nat) : ∀ (cs : List TreeNode) (lvl1 : Nat),
    pruneEncList fd ld cs lvl1 = [] ↔ cs.any (keepChild fd ld lvl1) = false := by
  intro cs
  induction cs with
  | nil => intro lvl1; simp [pruneEncList]
  | cons c cs ih =>
    intro lvl1
    unfold pruneEncList
    split
    case isTrue hk => simp [hk]
    case isFalse hk =>
      rw [ih]
      have hkf : keepChild fd ld lvl1 c = false := by simpa using hk
      simp [List.any_cons, hkf]

mutual

/-- Depth-capped listing emission is zero-cap emission of the filtered
tree: truncation removes a deep node with its whole subtree and keeps the
siblings. -/
theorem reprEmits_prune (fd ld : Nat) :
    ∀ (t : TreeNode) (lvl : Nat), reprSkip fd ld t.check_leaf lvl = false →
      reprEmits fd ld t lvl = reprEmits 0 0 (pruneEnc fd ld t lvl) lvl
  | .mk n l ch s, lvl => by
    intro hskip
    have hskip' : reprSkip fd ld l lvl = false := by
      simpa [TreeNode.check_leaf] using hskip
    unfold pruneEnc
    conv_lhs => unfold reprEmits
    conv_rhs => unfold reprEmits
    rw [if_neg (show ¬ (reprSkip fd ld l lvl = true) by simp [hskip'])]
    rw [if_neg (show ¬ (reprSkip 0 0 l lvl = true) by simp [reprSkip_zero])]
    cases l
    · rw [reprEmitsList_prune fd ld ch (lvl + 1)]
    · rfl

/-- Depth-capped listing emission of a sibling list is zero-cap emission of
the filtered list. -/
theorem reprEmitsList_prune (fd ld : Nat) :
    ∀ (cs : List TreeNode) (lvl1 : Nat),
      reprEmitsList fd ld cs lvl1 = reprEmitsList 0 0 (pruneEncList fd ld cs lvl1) lvl1
  | [], _ => rfl
  | c :: cs, lvl1 => by
    by_cases hk : keepChild fd ld lvl1 c = true
    · conv_lhs => unfold reprEmitsList
      conv_rhs => unfold pruneEncList
      rw [if_pos hk]
      conv_rhs => unfold reprEmitsList
      rw [reprEmits_prune fd ld c lvl1
        (by rw [keepChild_not_skip] at hk; simpa using hk)]
      rw [reprEmitsList_prune fd ld cs lvl1]
    · have hsk : reprSkip fd ld c.check_leaf lvl1 = true := by
        rw [keepChild_not_skip] at hk
        simpa using hk
      have hcskip : reprEmits fd ld c lvl1 = [] := by
        cases c with
        | mk n l ch s =>
          conv_lhs => unfold reprEmits
          rw [if_pos (by simpa [TreeNode.check_leaf] using hsk)]
      conv_lhs => unfold reprEmitsList
      conv_rhs => unfold pruneEncList
      rw [if_neg hk, hcskip, List.nil_append]
      exact reprEmitsList_prune fd ld cs lvl1

end

/-- The filtered list keeps a survivor exactly when the original list has a
kept child. -/
theorem pruneEncList_any (fd ld : Nat) (cs : List TreeNode) (lvl1 : Nat) :
    (pruneEncList fd ld cs lvl1).any (keepChild 0 0 lvl1)
      = cs.any (keepChild fd ld lvl1) := by
  cases hp : pruneEncList fd ld cs lvl1 with
  | nil =>
    rw [(pruneEncList_nil_iff fd ld cs lvl1).mp hp]
    rfl
  | cons x xs =>
    have hx : keepChild 0 0 lvl1 x = true := keepChild_zero lvl1 x
    have hcs : cs.any (keepChild fd ld lvl1) = true := by
      by_contra hcon
      have hnil := (pruneEncList_nil_iff fd ld cs lvl1).mpr (by simpa using hcon)
      rw [hp] at hnil
      exact absurd hnil (by simp)
    rw [hcs]
    simp [List.any_cons, hx]

mutual

/-- Depth-capped diagram emission of a node is zero-cap emission of the
filtered node: the caps act only through child filtering. -/
theorem mdEmits_prune (fd ld : Nat) (pfx0 : Name) :
    ∀ (t : TreeNode) (lvl : Nat) (isLast : Bool) (cur : Name),
      mdEmits fd ld pfx0 t lvl isLast cur
        = mdEmits 0 0 pfx0 (pruneEnc fd ld t lvl) lvl isLast cur
  | .mk n l ch s, lvl, isLast, cur => by
    cases l
    · show (lvl, false, mdLine cur lvl isLast n false) ::
          mdEmitsList fd ld pfx0 ch (lvl + 1) (mdNewPrefix pfx0 cur lvl isLast)
        = (lvl, false, mdLine cur lvl isLast n false) ::
          mdEmitsList 0 0 pfx0 (pruneEncList fd ld ch (lvl + 1)) (lvl + 1)
            (mdNewPrefix pfx0 cur lvl isLast)
      rw [mdEmitsList_prune fd ld pfx0 ch (lvl + 1) (mdNewPrefix pfx0 cur lvl isLast)]
    · rfl

/-- Depth-capped diagram emission of a sibling list is zero-cap emission of
the filtered list, with the matching last-survivor flags. -/
theorem mdEmitsList_prune (fd ld : Nat) (pfx0 : Name) :
    ∀ (cs : List TreeNode) (lvl1 : Nat) (np : Name),
      mdEmitsList fd ld pfx0 cs lvl1 np
        = mdEmitsList 0 0 pfx0 (pruneEncList fd ld cs lvl1) lvl1 np
  | [], _, _ => rfl
  | c :: cs, lvl1, np => by
    by_cases hk : keepChild fd ld lvl1 c = true
    · conv_lhs => unfold mdEmitsList
      rw [if_pos hk]
      conv_rhs => unfold pruneEncList
      conv_rhs => rw [if_pos hk]
      conv_rhs => unfold mdEmitsList
      rw [if_pos (keepChild_zero lvl1 (pruneEnc fd ld c lvl1))]
      rw [pruneEncList_any fd ld cs lvl1]
      rw [mdEmits_prune fd ld pfx0 c lvl1 (!cs.any (keepChild fd ld lvl1)) np]
      rw [mdEmitsList_prune fd ld pfx0 cs lvl1 np]
    · conv_lhs => unfold mdEmitsList
      rw [if_neg hk]
      conv_rhs => unfold pruneEncList
      conv_rhs => rw [if_neg hk]
      exact mdEmitsList_prune fd ld pfx0 cs lvl1 np

end

/-- C4, counterexample: with caps `(fd, ld) = (0, 1)` the tree `r/[a]`
(`a` a leaf) is encoded with the leaf `a` at level `1 = ld` by both
encoders — `to_repr` prints `r/\n    |-- a` — so with `ld > 0` the output
does contain a Leaf node at level `≥ ld`: the code skips a leaf only at
level strictly greater than `ld`. -/
theorem depth_truncation_cex :
    (TreeNode.mk (chars "r") false [TreeNode.mk (chars "a") true [] []] []).to_repr 0 0 1
      = chars "r/\n    |-- a" ∧
    ((chars "a", true, 1) ∈
      reprEmits 0 1 (TreeNode.mk (chars "r") false [TreeNode.mk (chars "a") true [] []] []) 0) ∧
    (∃ e ∈ mdEmits 0 1 []
        (TreeNode.mk (chars "r") false [TreeNode.mk (chars "a") true [] []] []) 0 false [],
      e.2.1 = true ∧ e.1 ≥ 1) := by
  refine ⟨?_, by decide, by decide⟩
  rw [to_repr_eq_render]
  rfl

/-- C4 (amended): under non-zero caps every emitted Directory sits at level
`≤ fd` and every emitted Leaf at level `≤ ld` — i.e. nothing appears at
level strictly greater than its cap; a Leaf at level exactly `ld` is kept,
which is where the claim's `≥ ld` exclusion was wrong — the encoder outputs
are exactly the rendered emission sequences, and a skipped node vanishes
with its whole subtree while its siblings are still processed: capped
emission equals uncapped emission of the child-filtered tree. -/
theorem encoder_depth_truncation (fd ld : Nat) (pfx0 : Name) (t : TreeNode)
    (lvl : Nat) (isLast : Bool) (cur : Name)
    (hlf : t.check_leaf = true → ld ≠ 0 → lvl ≤ ld)
    (hdr : t.check_leaf = false → fd ≠ 0 → lvl ≤ fd) :
    (∀ e ∈ reprEmits fd ld t lvl,
       (e.2.1 = true → ld ≠ 0 → e.2.2 ≤ ld) ∧ (e.2.1 = false → fd ≠ 0 → e.2.2 ≤ fd)) ∧
    (∀ e ∈ mdEmits fd ld pfx0 t lvl isLast cur,
       (e.2.1 = true → ld ≠ 0 → e.1 ≤ ld) ∧ (e.2.1 = false → fd ≠ 0 → e.1 ≤ fd)) ∧
    t.to_repr lvl fd ld = renderRepr (reprEmits fd ld t lvl) ∧
    t.to_md lvl isLast cur fd ld = renderMd (mdEmits fd ld cur t lvl isLast cur) ∧
    mdEmits fd ld pfx0 t lvl isLast cur
      = mdEmits 0 0 pfx0 (pruneEnc fd ld t lvl) lvl isLast cur ∧
    (reprSkip fd ld t.check_leaf lvl = false →
      reprEmits fd ld t lvl = reprEmits 0 0 (pruneEnc fd ld t lvl) lvl) :=
  ⟨reprEmits_bound fd ld t lvl,
   mdEmits_bound fd ld pfx0 t lvl isLast cur hlf hdr,
   to_repr_eq_render t lvl fd ld,
   to_md_eq_render t lvl isLast cur fd ld,
   mdEmits_prune fd ld pfx0 t lvl isLast cur,
   reprEmits_prune fd ld t lvl⟩

/-- C4, witness: the amended depth theorem applied to the leaf `a` at level
0 with caps `(1, 2)`. -/
theorem encoder_depth_truncation_witness :
    (TreeNode.mk (chars "a") true [] []).to_repr 0 1 2
      = renderRepr (reprEmits 1 2 (TreeNode.mk (chars "a") true [] []) 0) :=
  (encoder_depth_truncation 1 2 [] (TreeNode.mk (chars "a") true [] []) 0 true []
    (fun _ _ => Nat.zero_le 2) (fun _ _ => Nat.zero_le 1)).2.2.1

/-! ## Lookup correctness (claim C5) -/

/-- Strictly sorted sibling names give strictly increasing indexed access. -/
theorem sorted_names_mono (cs : List TreeNode)
    (h : List.Chain' (· < ·) (cs.map TreeNode.name)) :
    ∀ i j, i < j → j < cs.length →
      (cs.getD i dummyNode).name < (cs.getD j dummyNode).name := by
  intro i j hij hj
  have hi : i < cs.length := lt_trans hij hj
  have hp := List.chain'_iff_pairwise.mp h
  have hm := List.pairwise_iff_getElem.mp hp i j
    (by simpa using hi) (by simpa using hj) hij
  rw [List.getElem_map, List.getElem_map] at hm
  rw [List.getD_eq_getElem cs dummyNode hi, List.getD_eq_getElem cs dummyNode hj]
  exact hm

/-- Full specification of the binary-search loop on a strictly sorted
children list: the result splits the indices into a strictly-smaller prefix
and a not-smaller suffix. -/
theorem bisectGo_spec (cs : List TreeNode) (x : Name)
    (hmono : ∀ i j, i < j → j < cs.length →
      (cs.getD i dummyNode).name < (cs.getD j dummyNode).name) :
    ∀ (f lo hi : Nat), lo ≤ hi → hi ≤ cs.length → hi - lo ≤ f →
      (∀ j, j < lo → (cs.getD j dummyNode).name < x) →
      (∀ j, hi ≤ j → j < cs.length → ¬ (cs.getD j dummyNode).name < x) →
      lo ≤ bisectGo cs x f lo hi ∧ bisectGo cs x f lo hi ≤ hi ∧
      (∀ j, j < bisectGo cs x f lo hi → (cs.getD j dummyNode).name < x) ∧
      (∀ j, bisectGo cs x f lo hi ≤ j → j < cs.length →
        ¬ (cs.getD j dummyNode).name < x) := by
  intro f
  induction f with
  | zero =>
    intro lo hi hlh hhl hf hlow hhigh
    have heq : lo = hi := by omega
    unfold bisectGo
    exact ⟨le_refl lo, by omega, hlow, fun j hj hjl => hhigh j (by omega) hjl⟩
  | succ f ih =>
    intro lo hi hlh hhl hf hlow hhigh
    unfold bisectGo
    by_cases hlt : lo < hi
    · rw [if_pos hlt]
      dsimp only
      by_cases hcmp : (cs.getD ((lo + hi) / 2) dummyNode).name < x
      · rw [if_pos hcmp]
        have hmidhi : (lo + hi) / 2 < hi := by omega
        have hres := ih ((lo + hi) / 2 + 1) hi (by omega) hhl (by omega) ?_ hhigh
        · exact ⟨by omega, hres.2.1, hres.2.2.1, hres.2.2.2⟩
        · intro j hj
          by_cases hjm : j < (lo + hi) / 2
          · exact lt_trans (hmono j ((lo + hi) / 2) hjm (by omega)) hcmp
          · have : j = (lo + hi) / 2 := by omega
            rw [this]
            exact hcmp
      · rw [if_neg hcmp]
        have hmidhi : (lo + hi) / 2 < hi := by omega
        have hres := ih lo ((lo + hi) / 2) (by omega) (by omega) (by omega) hlow ?_
        · exact ⟨hres.1, by omega, hres.2.2.1, hres.2.2.2⟩
        · intro j hmj hjl hjx
          by_cases hje : j = (lo + hi) / 2
          · exact hcmp (hje ▸ hjx)
          · exact hcmp (lt_trans (hmono ((lo + hi) / 2) j (by omega) hjl) hjx)
    · rw [if_neg hlt]
      exact ⟨le_refl lo, hlh, hlow, fun j hj hjl => hhigh j (by omega) hjl⟩

/-- On a strictly sorted children list, `bisect_left` on the name of the
`k`-th child lands exactly on `k`. -/
theorem bisectLeft_at (cs : List TreeNode) (x : Name)
    (hmono : ∀ i j, i < j → j < cs.length →
      (cs.getD i dummyNode).name < (cs.getD j dummyNode).name)
    (k : Nat) (hk : k < cs.length) (hx : (cs.getD k dummyNode).name = x) :
    bisectLeft cs x = k := by
  obtain ⟨h1, h2, hlow, hhigh⟩ := bisectGo_spec cs x hmono (cs.length + 1) 0 cs.length
    (Nat.zero_le _) (le_refl _) (by omega) (by omega) (fun j hj hjl => by omega)
  by_cases hlk : bisectLeft cs x < k
  · have hlt := hmono (bisectLeft cs x) k hlk hk
    rw [hx] at hlt
    exact absurd hlt (hhigh (bisectLeft cs x) (le_refl _) (lt_trans hlk hk))
  · by_cases hkl : k < bisectLeft cs x
    · exact absurd (hlow k hkl) (by rw [hx]; exact lt_irrefl x)
    · omega

/-- A binary-search hit exhibits the target among the sibling names. -/
theorem bisect_hit_mem (cs : List TreeNode) (x : Name)
    (h1 : bisectLeft cs x < cs.length)
    (h2 : (cs.getD (bisectLeft cs x) dummyNode).name = x) :
    x ∈ cs.map TreeNode.name := by
  rw [List.getD_eq_getElem cs dummyNode h1] at h2
  rw [← h2]
  exact List.mem_map.mpr ⟨_, List.getElem_mem h1, rfl⟩

/-- On a strictly sorted children list the hit test of the `where` loop is
exactly membership of the target among the sibling names. -/
theorem bisect_hit_iff (cs : List TreeNode) (x : Name)
    (h : List.Chain' (· < ·) (cs.map TreeNode.name)) :
    (bisectLeft cs x < cs.length ∧ (cs.getD (bisectLeft cs x) dummyNode).name = x)
      ↔ x ∈ cs.map TreeNode.name := by
  constructor
  · intro ⟨h1, h2⟩
    exact bisect_hit_mem cs x h1 h2
  · intro hmem
    rcases List.mem_map.mp hmem with ⟨c, hc, hcx⟩
    rcases List.getElem_of_mem hc with ⟨k, hk, hck⟩
    have hkx : (cs.getD k dummyNode).name = x := by
      rw [List.getD_eq_getElem cs dummyNode hk, hck, hcx]
    have := bisectLeft_at cs x (sorted_names_mono cs h) k hk hkx
    rw [this]
    exact ⟨hk, hkx⟩

/-- Unfolding of the sortedness predicate at a constructor. -/
theorem sortedRec_mk_iff (n : Name) (l : Bool) (ch : List TreeNode) (s : List Name) :
    (TreeNode.mk n l ch s).sortedRec = true ↔
      List.Chain' (· < ·) (ch.map TreeNode.name) ∧ sortedListRec ch = true := by
  show (_ && _) = true ↔ _
  rw [Bool.and_eq_true, namesChainLt_iff]

/-- Membership in the forest sortedness predicate. -/
theorem sortedListRec_mem : ∀ {cs : List TreeNode}, sortedListRec cs = true →
    ∀ {c : TreeNode}, c ∈ cs → c.sortedRec = true := by
  intro cs
  induction cs with
  | nil => intro _ c hc; simp at hc
  | cons x xs ih =>
    intro h c hc
    rcases andE h with ⟨hx, hxs⟩
    rcases List.mem_cons.mp hc with rfl | hmem
    · exact hx
    · exact ih hxs hmem

/-- Sortedness descends to the children. -/
theorem sortedRec_child {t c : TreeNode} (h : t.sortedRec = true)
    (hc : c ∈ t.get_children) : c.sortedRec = true := by
  cases t with
  | mk n l ch s =>
    exact sortedListRec_mem ((sortedRec_mk_iff n l ch s).mp h).2 hc

/-- A filterMap that hits on every element is the corresponding map. -/
theorem filterMap_eq_map_of_forall {α β : Type} (l : List α) (f : α → Option β)
    (g : α → β) (h : ∀ a ∈ l, f a = some (g a)) : l.filterMap f = l.map g := by
  induction l with
  | nil => rfl
  | cons a as ih =>
    simp only [List.filterMap_cons, h a (by simp), List.map_cons]
    rw [ih (fun a ha => h a (by simp [ha]))]

/-- Under the `non_leaf_names` invariant and sorted children, the sorted
deduplicated name set is exactly the (already sorted) list of directory
children names. -/
theorem sortNames_eq_dirs (n : Name) (l : Bool) (ch : List TreeNode) (s : List Name)
    (hch : List.Chain' (· < ·) (ch.map TreeNode.name))
    (hinv : (TreeNode.mk n l ch s).inv = true) :
    sortNames s = (ch.filter (fun c => !c.check_leaf)).map TreeNode.name := by
  rcases (inv_mk_iff n l ch s).mp hinv with ⟨hnd, hsub, hsup, _⟩
  have hDsub : ((ch.filter (fun c => !c.check_leaf)).map TreeNode.name).Sublist
      (ch.map TreeNode.name) := (List.filter_sublist ch).map _
  have hP : List.Pairwise (· < ·) (ch.map TreeNode.name) :=
    List.chain'_iff_pairwise.mp hch
  have hDP : List.Pairwise (· < ·)
      ((ch.filter (fun c => !c.check_leaf)).map TreeNode.name) :=
    List.Pairwise.sublist hDsub hP
  have hDnd : ((ch.filter (fun c => !c.check_leaf)).map TreeNode.name).Nodup :=
    hDP.imp ne_of_lt
  have hDsorted : List.Sorted (· ≤ ·)
      ((ch.filter (fun c => !c.check_leaf)).map TreeNode.name) :=
    hDP.imp le_of_lt
  unfold sortNames
  rw [List.dedup_eq_self.mpr hnd]
  refine List.eq_of_perm_of_sorted ?_
    (List.sorted_insertionSort (· ≤ ·) s) hDsorted
  refine (List.perm_insertionSort (· ≤ ·) s).trans ?_
  rw [List.perm_ext_iff_of_nodup hnd hDnd]
  intro a
  constructor
  · intro ha
    rcases hsub a ha with ⟨c, hc, hcl, hcn⟩
    exact List.mem_map.mpr ⟨c, List.mem_filter.mpr ⟨hc, by simp [hcl]⟩, hcn⟩
  · intro ha
    rcases List.mem_map.mp ha with ⟨c, hcf, hcn⟩
    rcases List.mem_filter.mp hcf with ⟨hc, hcl⟩
    rcases hsup c hc with hleaf | hmem
    · simp [hleaf] at hcl
    · exact hcn ▸ hmem

/-- Under sortedness and the name-set invariant, the pairs `where` pushes
for one popped node are exactly its directory children in stored (sorted)
order, each with its joined path. -/
theorem wherePush_eq_dirs (t : TreeNode) (p : Name)
    (hs : t.sortedRec = true) (hi : t.inv = true) :
    wherePush t p = (t.get_children.filter (fun c => !c.check_leaf)).map
      (fun c => (c, pathJoin p c.name)) := by
  cases t with
  | mk n l ch s =>
    have hch : List.Chain' (· < ·) (ch.map TreeNode.name) :=
      ((sortedRec_mk_iff n l ch s).mp hs).1
    unfold wherePush
    simp only [TreeNode.nln, TreeNode.get_children]
    rw [sortNames_eq_dirs n l ch s hch hi]
    rw [List.filterMap_map]
    apply filterMap_eq_map_of_forall
    intro c hcf
    rcases List.mem_filter.mp hcf with ⟨hc, hcl⟩
    rcases List.getElem_of_mem hc with ⟨k, hk, hck⟩
    have hkx : (ch.getD k dummyNode).name = c.name := by
      rw [List.getD_eq_getElem ch dummyNode hk, hck]
    have hb : bisectLeft ch c.name = k :=
      bisectLeft_at ch c.name (sorted_names_mono ch hch) k hk hkx
    show (if bisectLeft ch c.name < ch.length ∧
          (ch.getD (bisectLeft ch c.name) dummyNode).name = c.name then
        some (ch.getD (bisectLeft ch c.name) dummyNode, pathJoin p c.name)
      else none) = some (c, pathJoin p c.name)
    rw [hb, if_pos ⟨hk, hkx⟩, List.getD_eq_getElem ch dummyNode hk, hck]

/-- Spec-side order (claim C5 wording): the directory children of a node in
sorted alphabetical name order. -/
def specOrderDirs (t : TreeNode) : List TreeNode :=
  List.insertionSort (fun a b => a.name ≤ b.name)
    (t.get_children.filter (fun c => !c.check_leaf))

/-- Spec-side search of claim C5, word for word: depth-first from the root,
report `current_path/target` as soon as `target` is the exact name of a
child (leaf or directory) of the visited node, and descend into directory
children in sorted alphabetical order.  The fuel is the node count, enough
for a full traversal. -/
def specWhereGo (target : Name) : Nat → List (TreeNode × Name) → Option Name
  | 0, _ => none
  | _ + 1, [] => none
  | f + 1, (t, p) :: rest =>
    if target ∈ t.get_children.map TreeNode.name then some (pathJoin p target)
    else specWhereGo target f
      ((specOrderDirs t).map (fun c => (c, pathJoin p c.name)) ++ rest)

/-- The claim's search, from the root. -/
def specWhere (rootNode : TreeNode) (rootPath target : Name) : Option Name :=
  specWhereGo target (TreeNode.sz rootNode) [(rootNode, rootPath)]

/-- The amended search order: identical to `specWhereGo` except that the
sorted directory children are descended into in reverse alphabetical order,
which is what the LIFO stack of the code produces. -/
def specWhereRevGo (target : Name) : Nat → List (TreeNode × Name) → Option Name
  | 0, _ => none
  | _ + 1, [] => none
  | f + 1, (t, p) :: rest =>
    if target ∈ t.get_children.map TreeNode.name then some (pathJoin p target)
    else specWhereRevGo target f
      (((specOrderDirs t).map (fun c => (c, pathJoin p c.name))).reverse ++ rest)

/-- The amended search, from the root. -/
def specWhereRev (rootNode : TreeNode) (rootPath target : Name) : Option Name :=
  specWhereRevGo target (TreeNode.sz rootNode) [(rootNode, rootPath)]

/-- On sorted children the spec-side reordering of the directory children
is the identity: they are stored already in ascending name order. -/
theorem specOrderDirs_eq_filter (t : TreeNode) (hs : t.sortedRec = true) :
    specOrderDirs t = t.get_children.filter (fun c => !c.check_leaf) := by
  cases t with
  | mk n l ch s =>
    have hch : List.Chain' (· < ·) (ch.map TreeNode.name) :=
      ((sortedRec_mk_iff n l ch s).mp hs).1
    have hP : List.Pairwise (fun a b : TreeNode => a.name ≤ b.name) ch :=
      (List.pairwise_map.mp (List.chain'_iff_pairwise.mp hch)).imp le_of_lt
    have hPf : List.Sorted (fun a b : TreeNode => a.name ≤ b.name)
        (ch.filter (fun c => !c.check_leaf)) :=
      List.Pairwise.sublist (List.filter_sublist ch) hP
    unfold specOrderDirs
    simp only [TreeNode.get_children]
    exact hPf.insertionSort_eq

/-- The work-stack loop of `where` equals the amended spec-side search on
any stack of sorted, invariant-carrying nodes, given fuel at least the node
count on the stack. -/
theorem whereLoop_eq_specRev (target : Name) :
    ∀ (f : Nat) (stack : List (TreeNode × Name)),
      szList (stack.map (fun e => e.1)) ≤ f →
      (∀ e ∈ stack, e.1.sortedRec = true ∧ e.1.inv = true) →
      whereLoop target stack = specWhereRevGo target f stack := by
  intro f
  induction f with
  | zero =>
    intro stack hsz hgood
    cases stack with
    | nil => simp [whereLoop, specWhereRevGo]
    | cons e es =>
      exfalso
      have := sz_pos e.1
      simp only [List.map_cons, szList] at hsz
      omega
  | succ f ih =>
    intro stack hsz hgood
    cases stack with
    | nil => simp [whereLoop, specWhereRevGo]
    | cons ep rest =>
      obtain ⟨t, p⟩ := ep
      obtain ⟨hs, hi⟩ := hgood (t, p) (by simp)
      have hch : List.Chain' (· < ·) (t.get_children.map TreeNode.name) := by
        cases t with
        | mk n l ch s => exact ((sortedRec_mk_iff n l ch s).mp hs).1
      rw [whereLoop]
      conv_rhs => rw [specWhereRevGo]
      by_cases hmem : target ∈ t.get_children.map TreeNode.name
      · rw [if_pos ((bisect_hit_iff t.get_children target hch).mpr hmem),
          if_pos hmem]
      · rw [if_neg (fun hc => hmem ((bisect_hit_iff t.get_children target hch).mp hc)),
          if_neg hmem]
        rw [wherePush_eq_dirs t p hs hi, specOrderDirs_eq_filter t hs]
        apply ih
        · have hfilter : szList ((t.get_children.filter (fun c => !c.check_leaf)).map
              (fun c => (c, pathJoin p c.name)) |>.reverse.map (fun e => e.1))
              ≤ szList t.get_children := by
            have hp1 : (((t.get_children.filter (fun c => !c.check_leaf)).map
                (fun c => (c, pathJoin p c.name))).reverse.map (fun e => e.1)).Perm
                (t.get_children.filter (fun c => !c.check_leaf)) := by
              refine ((List.reverse_perm _).map _).trans ?_
              rw [List.map_map]
              have hcomp : ((fun e : TreeNode × Name => e.1) ∘
                  (fun c : TreeNode => (c, pathJoin p c.name))) = id := rfl
              rw [hcomp, List.map_id]
            calc szList _ = szList (t.get_children.filter (fun c => !c.check_leaf)) :=
                  szList_perm hp1
              _ ≤ szList t.get_children := szList_sublist_le (List.filter_sublist _)
          have hsz' : TreeNode.sz t + szList (rest.map (fun e => e.1)) ≤ f + 1 := by
            simpa [szList] using hsz
          have hszt : TreeNode.sz t = 1 + szList t.get_children := by
            cases t with
            | mk n l ch s => rfl
          rw [List.map_append, szList_append]
          omega
        · intro e he
          rcases List.mem_append.mp he with hleft | hright
          · rcases List.mem_reverse.mp hleft with hmap
            rcases List.mem_map.mp hmap with ⟨c, hcf, rfl⟩
            have hcch : c ∈ t.get_children := List.mem_of_mem_filter hcf
            exact ⟨sortedRec_child hs hcch, inv_child hi hcch⟩
          · exact hgood e (by simp [hright])

/-- C5 (amended): on a tree with strictly name-sorted children lists and the
`non_leaf_names` invariant, `where(target)` returns the first full path at
which `target` is the exact name of a leaf or directory child, descending
into directory children in REVERSE sorted alphabetical order (the code
pushes the sorted names onto a LIFO stack, so the alphabetically last
directory is explored first), and not-found when `target` occurs nowhere. -/
theorem where_first_match (rootNode : TreeNode) (rootPath target : Name)
    (hs : rootNode.sortedRec = true) (hi : rootNode.inv = true) :
    whereFn rootNode rootPath target = specWhereRev rootNode rootPath target := by
  unfold whereFn specWhereRev
  apply whereLoop_eq_specRev
  · simp [szList]
  · intro e he
    simp only [List.mem_singleton] at he
    subst he
    exact ⟨hs, hi⟩

/-- C5, counterexample: on the sorted, invariant-satisfying tree
`r/[a/[t], b/[t]]` the code returns `r/b/t` — it explores the
alphabetically later directory `b` first — while the claim's sorted
alphabetical descent would return `r/a/t`: the claim's order is wrong. -/
theorem where_first_match_cex :
    whereFn (TreeNode.mk (chars "r") false
        [TreeNode.mk (chars "a") false [TreeNode.mk (chars "t") true [] []] [],
         TreeNode.mk (chars "b") false [TreeNode.mk (chars "t") true [] []] []]
        [chars "a", chars "b"]) (chars "r") (chars "t")
      = some (chars "r/b/t") ∧
    specWhere (TreeNode.mk (chars "r") false
        [TreeNode.mk (chars "a") false [TreeNode.mk (chars "t") true [] []] [],
         TreeNode.mk (chars "b") false [TreeNode.mk (chars "t") true [] []] []]
        [chars "a", chars "b"]) (chars "r") (chars "t")
      = some (chars "r/a/t") ∧
    (TreeNode.mk (chars "r") false
        [TreeNode.mk (chars "a") false [TreeNode.mk (chars "t") true [] []] [],
         TreeNode.mk (chars "b") false [TreeNode.mk (chars "t") true [] []] []]
        [chars "a", chars "b"]).sortedRec = true ∧
    (TreeNode.mk (chars "r") false
        [TreeNode.mk (chars "a") false [TreeNode.mk (chars "t") true [] []] [],
         TreeNode.mk (chars "b") false [TreeNode.mk (chars "t") true [] []] []]
        [chars "a", chars "b"]).inv = true := by
  refine ⟨?_, by decide, by decide, by decide⟩
  simp +decide [whereFn, whereLoop, wherePush, sortNames, bisectLeft, bisectGo,
    pathJoin, chars, dummyNode]

/-- C5, witness: on the claim's own example tree `root/[a/[b.txt], c.txt]`
the amended theorem computes `where("b.txt") = root/a/b.txt` and
`where("missing")` not found. -/
theorem where_first_match_witness :
    whereFn (TreeNode.mk (chars "root") false
        [TreeNode.mk (chars "a") false [TreeNode.mk (chars "b.txt") true [] []] [],
         TreeNode.mk (chars "c.txt") true [] []]
        [chars "a"]) (chars "root") (chars "b.txt")
      = some (chars "root/a/b.txt") ∧
    whereFn (TreeNode.mk (chars "root") false
        [TreeNode.mk (chars "a") false [TreeNode.mk (chars "b.txt") true [] []] [],
         TreeNode.mk (chars "c.txt") true [] []]
        [chars "a"]) (chars "root") (chars "missing") = none := by
  constructor
  · rw [where_first_match _ _ _ (by decide) (by decide)]
    decide
  · rw [where_first_match _ _ _ (by decide) (by decide)]
    decide

/-! ## Subtree extraction errors (claim C6) -/

/-- C6, counterexample: `create_subtree("a/..")` on a tree with child `a`
does NOT fail: `os.path.normpath` collapses `a/..` to `.` before the token
queue is built, so the `..` never pops anything and the call succeeds,
returning the root itself. -/
theorem create_subtree_cex :
    createSubtree (TreeNode.mk (chars "r") false
        [TreeNode.mk (chars "a") false [] []] [chars "a"]) (chars "a/..")
      = .ok (TreeNode.mk (chars "r") false
        [TreeNode.mk (chars "a") false [] []] [chars "a"]) ∧
    (createSubtree (TreeNode.mk (chars "r") false
        [TreeNode.mk (chars "a") false [] []] [chars "a"]) (chars "a/..")).isOk
      = true := by
  constructor
  · rfl
  · rfl

/-- C6 (amended): after `normpath` pre-normalization, `create_subtree`
succeeds on `a/..` for every tree (the `..` is cancelled against `a`
textually, never against a resolved component, so the claim's particular
failing case in fact succeeds and yields the whole tree); it fails with the
ascend error exactly when the normalized path still begins with a `..`
token; and on sorted children a queued component that is not a child name
fails naming that component. -/
theorem create_subtree_errors :
    (∀ t : TreeNode, createSubtree t (chars "a/..") = .ok t) ∧
    (∀ (t : TreeNode) (rel : Name),
      (List.splitOn '/' (normpath rel)).head? = some (chars "..") →
      createSubtree t rel = .errAscend) ∧
    (∀ (t : TreeNode) (part : Name) (rest : List Name),
      t.sortedRec = true →
      part ∉ t.get_children.map TreeNode.name →
      navQueue t (part :: rest) = .errMissing part) := by
  refine ⟨fun t => rfl, ?_, ?_⟩
  · intro t rel hhead
    unfold createSubtree
    cases hsplit : List.splitOn '/' (normpath rel) with
    | nil =>
      rw [hsplit] at hhead
      simp at hhead
    | cons p ps =>
      rw [hsplit] at hhead
      simp only [List.head?_cons, Option.some.injEq] at hhead
      subst hhead
      rfl
  · intro t part rest hs hmem
    cases t with
    | mk n l ch s =>
      have hch : List.Chain' (· < ·) (ch.map TreeNode.name) :=
        ((sortedRec_mk_iff n l ch s).mp hs).1
      simp only [TreeNode.get_children] at hmem
      show (if bisectLeft ch part < ch.length ∧
            (ch.getD (bisectLeft ch part) dummyNode).name = part
          then navQueue (ch.getD (bisectLeft ch part) dummyNode) rest
          else .errMissing part) = .errMissing part
      rw [if_neg (fun hc => hmem ((bisect_hit_iff ch part hch).mp hc))]

/-- C6, witness: a leading `..` raises the ascend error, and a component
missing among (empty) children raises the invalid-path error naming it. -/
theorem create_subtree_errors_witness :
    createSubtree (TreeNode.mk (chars "r") false [] []) (chars "../x")
      = .errAscend ∧
    navQueue (TreeNode.mk (chars "r") false [] []) [chars "q"]
      = .errMissing (chars "q") :=
  ⟨create_subtree_errors.2.1 (TreeNode.mk (chars "r") false [] []) (chars "../x")
      (by decide),
   create_subtree_errors.2.2 (TreeNode.mk (chars "r") false [] []) (chars "q") []
      (by decide) (by decide)⟩

/-! ## Round-trip analysis (claim C1): text lemmas -/

/-- The replace engine is fuel-independent once the fuel covers the input. -/
theorem replaceGo_fuel (pat rep : Name) :
    ∀ (f : Nat) (s : Name) (g : Nat), s.length ≤ f → s.length ≤ g →
      replaceGo pat rep f s = replaceGo pat rep g s := by
  intro f
  induction f with
  | zero =>
    intro s g hf hg
    have : s = [] := List.eq_nil_of_length_eq_zero (by omega)
    subst this
    cases g <;> rfl
  | succ f ih =>
    intro s g hf hg
    cases s with
    | nil => cases g <;> rfl
    | cons c cs =>
      cases g with
      | zero => simp at hg
      | succ g =>
        show (if pat ≠ [] ∧ pat.isPrefixOf (c :: cs) then
            rep ++ replaceGo pat rep f ((c :: cs).drop pat.length)
          else c :: replaceGo pat rep f cs) =
          (if pat ≠ [] ∧ pat.isPrefixOf (c :: cs) then
            rep ++ replaceGo pat rep g ((c :: cs).drop pat.length)
          else c :: replaceGo pat rep g cs)
        by_cases hc : pat ≠ [] ∧ pat.isPrefixOf (c :: cs)
        · have hp1 : 1 ≤ pat.length := by
            rcases hc with ⟨hne, _⟩
            cases pat
            · exact absurd rfl hne
            · simp
          rw [if_pos hc, if_pos hc]
          rw [ih ((c :: cs).drop pat.length) g
            (by simp only [List.length_drop, List.length_cons] at hf ⊢; omega)
            (by simp only [List.length_drop, List.length_cons] at hg ⊢; omega)]
        · rw [if_neg hc, if_neg hc]
          rw [ih cs g (by simp at hf ⊢; omega) (by simp at hg ⊢; omega)]

/-- Replacing a single character by nothing is filtering it out. -/
theorem replaceGo_single (c : Char) :
    ∀ (f : Nat) (s : Name), s.length ≤ f →
      replaceGo [c] [] f s = s.filter (· ≠ c) := by
  intro f
  induction f with
  | zero =>
    intro s hf
    have : s = [] := List.eq_nil_of_length_eq_zero (by omega)
    subst this
    rfl
  | succ f ih =>
    intro s hf
    cases s with
    | nil => rfl
    | cons d ds =>
      show (if [c] ≠ [] ∧ [c].isPrefixOf (d :: ds) then
          [] ++ replaceGo [c] [] f ((d :: ds).drop 1)
        else d :: replaceGo [c] [] f ds) = _
      by_cases hdc : d = c
      · subst hdc
        rw [if_pos ⟨by simp, by simp [List.isPrefixOf]⟩]
        simp only [List.drop_one, List.tail_cons, List.nil_append]
        rw [ih ds (by simp at hf; omega)]
        simp [List.filter_cons]
      · rw [if_neg (fun hcon => hdc (by
          rcases hcon with ⟨_, hpre⟩
          rcases andE (show (c == d && List.isPrefixOf [] ds) = true from hpre) with ⟨hd, _⟩
          exact (beq_iff_eq.mp hd).symm))]
        rw [ih ds (by simp at hf; omega)]
        simp [List.filter_cons, hdc]

/-- `str.replace(c, "")` deletes exactly the occurrences of the character. -/
theorem replaceAll_single (c : Char) (s : Name) :
    replaceAll [c] [] s = s.filter (· ≠ c) :=
  replaceGo_single c s.length s (le_refl _)

/-- The scan walks over a stretch free of the pattern's head character. -/
theorem replaceGo_append_head (pc : Char) (pr rep : Name) :
    ∀ (pre : Name) (f : Nat) (rest : Name), pc ∉ pre →
      replaceGo (pc :: pr) rep (f + pre.length) (pre ++ rest)
        = pre ++ replaceGo (pc :: pr) rep f rest := by
  intro pre
  induction pre with
  | nil =>
    intro f rest _
    rfl
  | cons d ds ih =>
    intro f rest hmem
    show (if (pc :: pr) ≠ [] ∧ (pc :: pr).isPrefixOf (d :: (ds ++ rest)) then
        rep ++ replaceGo (pc :: pr) rep (f + ds.length) ((d :: (ds ++ rest)).drop (pc :: pr).length)
      else d :: replaceGo (pc :: pr) rep (f + ds.length) (ds ++ rest)) = _
    rw [if_neg]
    · rw [ih f rest (fun h => hmem (by simp [h]))]
      rfl
    · intro hcon
      rcases hcon with ⟨_, hpre⟩
      rcases andE (show (pc == d && List.isPrefixOf pr (ds ++ rest)) = true from hpre)
        with ⟨hd, _⟩
      refine hmem ?_
      rw [beq_iff_eq.mp hd]
      exact List.mem_cons_self d ds

/-- `str.replace` leaves a stretch free of the pattern's head alone and
continues behind it. -/
theorem replaceAll_append_head (pc : Char) (pr rep pre rest : Name)
    (h : pc ∉ pre) :
    replaceAll (pc :: pr) rep (pre ++ rest) = pre ++ replaceAll (pc :: pr) rep rest := by
  unfold replaceAll
  rw [List.length_append, Nat.add_comm]
  exact replaceGo_append_head pc pr rep pre rest.length rest h

/-- `str.replace` is the identity on a string free of the pattern's head
character. -/
theorem replaceAll_of_head_notMem (pc : Char) (pr rep : Name) (s : Name)
    (h : pc ∉ s) : replaceAll (pc :: pr) rep s = s := by
  have := replaceAll_append_head pc pr rep s [] h
  simpa [replaceAll, replaceGo] using this

/-- `str.replace(pat, "")` consumes a pattern occurrence at the front. -/
theorem replaceAll_front (pat rest : Name) (hne : pat ≠ []) :
    replaceAll pat [] (pat ++ rest) = replaceAll pat [] rest := by
  cases pat with
  | nil => exact absurd rfl hne
  | cons pc pr =>
    show replaceGo (pc :: pr) [] ((pc :: pr) ++ rest).length ((pc :: pr) ++ rest) = _
    have hlen : ((pc :: pr) ++ rest).length = (pr ++ rest).length + 1 := by simp
    rw [hlen]
    show (if (pc :: pr) ≠ [] ∧ (pc :: pr).isPrefixOf (pc :: (pr ++ rest)) then
        [] ++ replaceGo (pc :: pr) [] (pr ++ rest).length
          ((pc :: (pr ++ rest)).drop (pc :: pr).length)
      else pc :: replaceGo (pc :: pr) [] (pr ++ rest).length (pr ++ rest)) = _
    have hpre : (pc :: pr).isPrefixOf (pc :: (pr ++ rest)) = true := by
      show ((pc :: pr).isPrefixOf ((pc :: pr) ++ rest)) = true
      exact List.isPrefixOf_iff_prefix.mpr (List.prefix_append _ _)
    rw [if_pos ⟨by simp, hpre⟩]
    have hdrop : (pc :: (pr ++ rest)).drop (pc :: pr).length = rest := by
      show ((pc :: pr) ++ rest).drop (pc :: pr).length = rest
      exact List.drop_left _ _
    rw [hdrop, List.nil_append]
    exact replaceGo_fuel (pc :: pr) [] (pr ++ rest).length rest rest.length
      (by simp) (le_refl _)

/-- `str.replace(pat, "")` on prefix ++ pattern ++ suffix, where neither
prefix nor suffix contains the pattern's head character, removes exactly the
pattern. -/
theorem replaceAll_mid (pc : Char) (pr pre rest : Name)
    (hpre : pc ∉ pre) (hrest : pc ∉ rest) :
    replaceAll (pc :: pr) [] (pre ++ (pc :: pr) ++ rest) = pre ++ rest := by
  rw [List.append_assoc, replaceAll_append_head pc pr [] pre ((pc :: pr) ++ rest) hpre]
  rw [replaceAll_front (pc :: pr) rest (by simp)]
  rw [replaceAll_of_head_notMem pc pr [] rest hrest]

/-- `lstrip` drops a leading all-whitespace stretch. -/
theorem pyLstrip_append (pre s : Name) (h : pre.all pyIsSpace = true) :
    pyLstrip (pre ++ s) = pyLstrip s := by
  induction pre with
  | nil => rfl
  | cons c cs ih =>
    rcases andE (show (pyIsSpace c && cs.all pyIsSpace) = true by simpa using h)
      with ⟨hc, hcs⟩
    show List.dropWhile pyIsSpace (c :: (cs ++ s)) = _
    rw [List.dropWhile_cons_of_pos hc]
    exact ih hcs

/-- `lstrip` stops at a non-whitespace head. -/
theorem pyLstrip_cons_neg (c : Char) (s : Name) (h : pyIsSpace c = false) :
    pyLstrip (c :: s) = c :: s := by
  show List.dropWhile pyIsSpace (c :: s) = _
  rw [List.dropWhile_cons_of_neg (by simp [h])]

/-- `rstrip` is the identity when the last character is not whitespace. -/
theorem pyRstrip_of_last (s : Name) (c : Char) (hlast : s.getLast? = some c)
    (hc : pyIsSpace c = false) : pyRstrip s = s := by
  unfold pyRstrip
  have hrev : s.reverse.head? = some c := by
    rw [List.head?_reverse]
    exact hlast
  cases hr : s.reverse with
  | nil => simp [hr] at hrev
  | cons d ds =>
    rw [hr] at hrev
    simp only [List.head?_cons, Option.some.injEq] at hrev
    subst hrev
    rw [List.dropWhile_cons_of_neg (by simp [hc])]
    rw [← hr, List.reverse_reverse]

/-- `strip` is the identity on a string with non-whitespace first and last
characters. -/
theorem pyStrip_eq_self (s : Name)
    (h1 : ∀ c, s.head? = some c → pyIsSpace c = false)
    (h2 : ∀ c, s.getLast? = some c → pyIsSpace c = false) : pyStrip s = s := by
  cases hs : s with
  | nil => rfl
  | cons c cs =>
    unfold pyStrip
    rw [pyLstrip_cons_neg c cs (h1 c (by rw [hs]; rfl))]
    cases hlast : (c :: cs).getLast? with
    | none => simp at hlast
    | some d =>
      exact pyRstrip_of_last (c :: cs) d hlast (h2 d (by rw [hs]; exact hlast))

/-- The splitter engine on a newline-free final line. -/
theorem pySplitlinesGo_last (l : Name) (hl : '\n' ∉ l) :
    ∀ acc, pySplitlinesGo l acc = [acc.reverse ++ l] := by
  induction l with
  | nil =>
    intro acc
    simp [pySplitlinesGo]
  | cons c cs ih =>
    intro acc
    have hc : c ≠ '\n' := fun h => hl (by simp [h])
    show (if c = '\n' then _ else pySplitlinesGo cs (c :: acc)) = _
    rw [if_neg hc, ih (fun h => hl (by simp [h])) (c :: acc)]
    simp

/-- The splitter engine: a newline-free line, a newline, then a non-empty
remainder. -/
theorem pySplitlinesGo_cons (l rest : Name) (hl : '\n' ∉ l) (hrest : rest ≠ []) :
    ∀ acc, pySplitlinesGo (l ++ '\n' :: rest) acc
      = (acc.reverse ++ l) :: pySplitlinesGo rest [] := by
  induction l with
  | nil =>
    intro acc
    show (if '\n' = '\n' then
        acc.reverse :: (if rest.isEmpty then [] else pySplitlinesGo rest [])
      else _) = _
    rw [if_pos rfl]
    rw [if_neg (by simpa [List.isEmpty_iff] using hrest)]
    simp
  | cons c cs ih =>
    intro acc
    have hc : c ≠ '\n' := fun h => hl (by simp [h])
    show (if c = '\n' then _ else pySplitlinesGo (cs ++ '\n' :: rest) (c :: acc)) = _
    rw [if_neg hc, ih (fun h => hl (by simp [h])) (c :: acc)]
    simp

/-- `splitlines` recovers the lines joined by single newlines, for non-empty
newline-free lines. -/
theorem pySplitlines_join : ∀ ls : List Name,
    (∀ l ∈ ls, l ≠ [] ∧ '\n' ∉ l) → ls ≠ [] →
    pySplitlines (joinLines ls) = ls := by
  intro ls
  induction ls with
  | nil => intro _ h; exact absurd rfl h
  | cons l rest ih =>
    intro hok _
    rcases hok l (by simp) with ⟨hne, hnl⟩
    cases hr : rest with
    | nil =>
      rw [joinLines_single]
      unfold pySplitlines
      rw [if_neg (by simpa [List.isEmpty_iff] using hne)]
      rw [pySplitlinesGo_last l hnl []]
      simp
    | cons l2 rest2 =>
      have hjr : joinLines rest ≠ [] := by
        rw [hr]
        cases rest2 with
        | nil =>
          rw [joinLines_single]
          exact (hok l2 (by simp [hr])).1
        | cons l3 rest3 =>
          rw [joinLines_cons l2 (l3 :: rest3) (by simp)]
          simp
      rw [← hr, joinLines_cons l rest (by rw [hr]; simp)]
      unfold pySplitlines
      rw [if_neg (by simp [List.isEmpty_iff])]
      rw [pySplitlinesGo_cons l (joinLines rest) hnl hjr []]
      have hrec : pySplitlines (joinLines rest) = rest :=
        ih (fun x hx => hok x (by simp [hx])) (by rw [hr]; simp)
      unfold pySplitlines at hrec
      rw [if_neg (by simpa [List.isEmpty_iff] using hjr)] at hrec
      rw [hrec]
      simp

/-- The facts about a codec-safe name the parse lemmas consume. -/
theorem nameOk_facts (nm : Name) (h : nameOk nm = true) :
    nm ≠ [] ∧ (∀ c ∈ nm, pyIsSpace c = false) ∧ '/' ∉ nm ∧ '│' ∉ nm ∧
      '├' ∉ nm ∧ '└' ∉ nm ∧ '|' ∉ nm ∧ '\n' ∉ nm := by
  rcases andE (show (!nm.isEmpty && nm.all charOk) = true from h) with ⟨h1, h2⟩
  have hall : ∀ c ∈ nm, charOk c = true := by
    intro c hc
    exact List.all_eq_true.mp h2 c hc
  have hco : ∀ c ∈ nm, pyIsSpace c = false ∧ c ≠ '/' ∧ c ≠ '│' ∧ c ≠ '├' ∧
      c ≠ '└' ∧ c ≠ '|' := by
    intro c hc
    have := hall c hc
    unfold charOk at this
    simp only [Bool.and_eq_true, Bool.not_eq_true', decide_eq_true_eq] at this
    tauto
  refine ⟨by simpa [List.isEmpty_iff] using h1, fun c hc => (hco c hc).1,
    fun hc => (hco _ hc).2.1 rfl, fun hc => (hco _ hc).2.2.1 rfl,
    fun hc => (hco _ hc).2.2.2.1 rfl, fun hc => (hco _ hc).2.2.2.2.1 rfl,
    fun hc => (hco _ hc).2.2.2.2.2 rfl, fun hc => ?_⟩
  have := (hco _ hc).1
  simp [pyIsSpace] at this

/-- A run of spaces is all whitespace. -/
theorem spaces_all (n : Nat) : (spaces n).all pyIsSpace = true := by
  unfold spaces
  simp [List.all_eq_true, pyIsSpace]

/-- Deleting a character absent from the list changes nothing. -/
theorem filter_ne_of_notMem (c : Char) (l : Name) (h : c ∉ l) :
    l.filter (· ≠ c) = l :=
  List.filter_eq_self.mpr (fun a ha => by
    simp only [decide_eq_true_eq, ne_eq]
    intro hac
    exact h (hac ▸ ha))

/-- No non-space character lives in an all-space list. -/
theorem notMem_of_all_spaces (l : Name) (h : ∀ c ∈ l, c = ' ') (c : Char)
    (hc : c ≠ ' ') : c ∉ l := fun hmem => hc (h c hmem)

/-- `lstrip` over a prefix followed by a non-space head. -/
theorem pyLstrip_append_general (pre s : Name)
    (hs : ∀ c, s.head? = some c → pyIsSpace c = false) :
    pyLstrip (pre ++ s) = pre.dropWhile pyIsSpace ++ s := by
  induction pre with
  | nil =>
    simp only [List.nil_append, List.dropWhile_nil]
    cases s with
    | nil => rfl
    | cons c cs => exact pyLstrip_cons_neg c cs (hs c rfl)
  | cons c cs ih =>
    show List.dropWhile pyIsSpace (c :: (cs ++ s)) = List.dropWhile pyIsSpace (c :: cs) ++ s
    by_cases hc : pyIsSpace c = true
    · rw [List.dropWhile_cons_of_pos hc, List.dropWhile_cons_of_pos hc]
      exact ih
    · rw [List.dropWhile_cons_of_neg (by simpa using hc),
        List.dropWhile_cons_of_neg (by simpa using hc)]
      rfl

/-- The plain-listing body line of an emission `(nm, isLeaf, lvl)`. -/
def reprLineOf (e : Name × Bool × Nat) : Name :=
  spaces (4 * e.2.2) ++ chars "|-- " ++ e.1 ++ (if e.2.1 then [] else ['/'])

/-- A codec-safe name survives `strip` unchanged. -/
theorem pyStrip_name (nm : Name) (hsp : ∀ c ∈ nm, pyIsSpace c = false) :
    pyStrip nm = nm := by
  refine pyStrip_eq_self nm ?_ ?_
  · intro c hc
    exact hsp c (by
      cases nm with
      | nil => simp at hc
      | cons d ds =>
        simp only [List.head?_cons, Option.some.injEq] at hc
        simp [hc])
  · intro c hc
    exact hsp c (List.mem_of_mem_getLast? hc)

/-- Parsing the body line the listing encoder writes for `(nm, isLeaf, lvl)`
recovers exactly the level, the leaf flag and the name. -/
theorem reprParseLine_correct (nm : Name) (isLeaf : Bool) (lvl : Nat)
    (hnm : nameOk nm = true) :
    reprParseLine (reprLineOf (nm, isLeaf, lvl)) = (lvl, isLeaf, nm) := by
  obtain ⟨hne, hsp, hslash, _, _, _, hbar, _⟩ := nameOk_facts nm hnm
  have hpatc : chars "|-- " = '|' :: chars "-- " := rfl
  have hstripnm : pyStrip nm = nm := pyStrip_name nm hsp
  cases isLeaf
  case true =>
    have hline : reprLineOf (nm, true, lvl) = spaces (4 * lvl) ++ (chars "|-- " ++ nm) := by
      unfold reprLineOf
      simp [List.append_assoc]
    have hl1 : pyLstrip (reprLineOf (nm, true, lvl)) = chars "|-- " ++ nm := by
      rw [hline, pyLstrip_append _ _ (spaces_all _), hpatc]
      exact pyLstrip_cons_neg '|' _ (by decide)
    obtain ⟨lc, hlc⟩ : ∃ c, nm.getLast? = some c := by
      cases hg : nm.getLast? with
      | none => exact absurd (by simpa using hg) hne
      | some c => exact ⟨c, rfl⟩
    have hlcm : lc ∈ nm := List.mem_of_mem_getLast? hlc
    have hcontent : pyStrip (reprLineOf (nm, true, lvl)) = chars "|-- " ++ nm := by
      unfold pyStrip
      rw [hl1]
      exact pyRstrip_of_last _ lc
        (by rw [List.getLast?_append_of_ne_nil _ hne]; exact hlc) (hsp lc hlcm)
    have hends : pyEndsWith (chars "|-- " ++ nm) '/' = false := by
      unfold pyEndsWith
      rw [List.getLast?_append_of_ne_nil _ hne, hlc]
      simp only [Option.some.injEq, decide_eq_false_iff_not]
      intro hcon
      exact hslash (hcon ▸ hlcm)
    have hrepl : replaceAll (chars "|-- ") [] (chars "|-- " ++ nm) = nm := by
      rw [replaceAll_front _ _ (by rw [hpatc]; simp), hpatc,
        replaceAll_of_head_notMem '|' _ [] nm hbar]
    unfold reprParseLine
    rw [hl1, hcontent]
    dsimp only
    rw [hends]
    simp only [Bool.not_false]
    rw [if_pos trivial]
    rw [hrepl, hstripnm, hline]
    simp only [Prod.mk.injEq, List.length_append, spaces, List.length_replicate,
      (show (chars "|-- ").length = 4 from rfl)]
    constructor
    · omega
    · trivial
  case false =>
    have hline : reprLineOf (nm, false, lvl)
        = spaces (4 * lvl) ++ (chars "|-- " ++ (nm ++ ['/'])) := by
      unfold reprLineOf
      simp [List.append_assoc]
    have hl1 : pyLstrip (reprLineOf (nm, false, lvl))
        = chars "|-- " ++ (nm ++ ['/']) := by
      rw [hline, pyLstrip_append _ _ (spaces_all _), hpatc]
      exact pyLstrip_cons_neg '|' _ (by decide)
    have hlast : (chars "|-- " ++ (nm ++ ['/'])).getLast? = some '/' := by
      rw [List.getLast?_append_of_ne_nil _ (by simp),
        List.getLast?_append_of_ne_nil _ (by simp)]
      rfl
    have hcontent : pyStrip (reprLineOf (nm, false, lvl))
        = chars "|-- " ++ (nm ++ ['/']) := by
      unfold pyStrip
      rw [hl1]
      exact pyRstrip_of_last _ '/' hlast (by decide)
    have hends : pyEndsWith (chars "|-- " ++ (nm ++ ['/'])) '/' = true := by
      unfold pyEndsWith
      rw [hlast]
      simp
    have hslashdel : replaceAll ['/'] [] (chars "|-- " ++ (nm ++ ['/']))
        = chars "|-- " ++ nm := by
      rw [replaceAll_single]
      simp only [List.filter_append]
      rw [filter_ne_of_notMem '/' (chars "|-- ") (by decide),
        filter_ne_of_notMem '/' nm hslash]
      simp
    have hrepl : replaceAll (chars "|-- ") [] (chars "|-- " ++ nm) = nm := by
      rw [replaceAll_front _ _ (by rw [hpatc]; simp), hpatc,
        replaceAll_of_head_notMem '|' _ [] nm hbar]
    unfold reprParseLine
    rw [hl1, hcontent]
    dsimp only
    rw [hends]
    simp only [Bool.not_true]
    rw [if_neg (by simp)]
    rw [hslashdel, hrepl, hstripnm, hline]
    simp only [Prod.mk.injEq, List.length_append, spaces, List.length_replicate,
      (show (chars "|-- ").length = 4 from rfl), (show (['/'] : Name).length = 1 from rfl)]
    constructor
    · omega
    · trivial

/-- The characters a diagram continuation prefix may hold. -/
def blockOk (cur : Name) : Bool := cur.all (fun ch => ch = '│' || ch = ' ')

/-- Membership form of `blockOk`. -/
theorem blockOk_mem {cur : Name} (h : blockOk cur = true) :
    ∀ c ∈ cur, c = '│' ∨ c = ' ' := by
  intro c hc
  have := List.all_eq_true.mp h c hc
  simpa using this

/-- Removing the verticals from a prefix leaves only spaces. -/
theorem blockOk_filter_spaces {cur : Name} (h : blockOk cur = true) :
    ∀ c ∈ cur.filter (· ≠ '│'), c = ' ' := by
  intro c hc
  rcases List.mem_filter.mp hc with ⟨hmem, hne⟩
  rcases blockOk_mem h c hmem with h1 | h1
  · exact absurd h1 (by simpa using hne)
  · exact h1

/-- An all-space list is all whitespace. -/
theorem all_spaces_pyIsSpace {l : Name} (h : ∀ c ∈ l, c = ' ') :
    l.all pyIsSpace = true := by
  rw [List.all_eq_true]
  intro c hc
  rw [h c hc]
  rfl

/-- Parsing the diagram line the encoder writes for a node at level
`lvl + 1` under a legal continuation prefix recovers the measured level
`lvl`, the leaf flag and the name. -/
theorem mdParseLine_correct (cur : Name) (lvl : Nat) (isLast : Bool) (nm : Name)
    (isLeaf : Bool) (hcur : blockOk cur = true) (hlen : cur.length = 4 * lvl)
    (hnm : nameOk nm = true) :
    mdParseLine (mdLine cur (lvl + 1) isLast nm isLeaf) = (lvl, isLeaf, nm) := by
  obtain ⟨hne, hsp, hslash, hvert, hforkc, hlastc, _, _⟩ := nameOk_facts nm hnm
  set conn : Name := if isLast then chars "└── " else chars "├── " with hconn
  set sl : Name := if isLeaf then [] else ['/'] with hsl
  have hml : mdLine cur (lvl + 1) isLast nm isLeaf = cur ++ (conn ++ (nm ++ sl)) := by
    unfold mdLine
    rw [if_pos (Nat.succ_pos lvl)]
    simp [List.append_assoc, hconn, hsl]
  have hconnlen : conn.length = 4 := by
    rw [hconn]
    cases isLast <;> rfl
  have hconnhead : ∀ c, conn.head? = some c → pyIsSpace c = false := by
    intro c hc
    rw [hconn] at hc
    cases isLast
    · rw [if_neg (by simp)] at hc
      rw [show (chars "├── ").head? = some '├' from rfl] at hc
      cases hc
      rfl
    · rw [if_pos rfl] at hc
      rw [show (chars "└── ").head? = some '└' from rfl] at hc
      cases hc
      rfl
  have hconnvert : '│' ∉ conn := by
    rw [hconn]; cases isLast <;> decide
  have hconnslash : '/' ∉ conn := by
    rw [hconn]; cases isLast <;> decide
  have hslvert : '│' ∉ sl := by
    rw [hsl]; cases isLeaf <;> decide
  have hslfork : '├' ∉ sl := by
    rw [hsl]; cases isLeaf <;> decide
  have hsllast : '└' ∉ sl := by
    rw [hsl]; cases isLeaf <;> decide
  -- A. the measured indent
  have hfa : ∀ c ∈ cur.filter (· ≠ '│'), c = ' ' := blockOk_filter_spaces hcur
  have hA : replaceAll ['│'] [] (cur ++ (conn ++ (nm ++ sl)))
      = cur.filter (· ≠ '│') ++ (conn ++ (nm ++ sl)) := by
    rw [replaceAll_single]
    simp only [List.filter_append]
    rw [filter_ne_of_notMem '│' conn hconnvert, filter_ne_of_notMem '│' nm hvert,
      filter_ne_of_notMem '│' sl hslvert]
  have hA2 : pyLstrip (cur.filter (· ≠ '│') ++ (conn ++ (nm ++ sl)))
      = conn ++ (nm ++ sl) := by
    rw [pyLstrip_append _ _ (all_spaces_pyIsSpace hfa)]
    cases hcn : conn with
    | nil =>
      rw [hcn] at hconnlen
      simp at hconnlen
    | cons d ds =>
      simp only [List.cons_append]
      exact pyLstrip_cons_neg d _ (hconnhead d (by rw [hcn]; rfl))
  -- B. the stripped content
  have hdc : ∀ c ∈ cur.dropWhile pyIsSpace, c = '│' ∨ c = ' ' := by
    intro c hc
    exact blockOk_mem hcur c ((List.dropWhile_sublist _).mem hc)
  have hB1 : pyLstrip (cur ++ (conn ++ (nm ++ sl)))
      = cur.dropWhile pyIsSpace ++ (conn ++ (nm ++ sl)) := by
    refine pyLstrip_append_general cur _ ?_
    intro c hc
    cases hcn : conn with
    | nil => rw [hcn] at hconnlen; simp at hconnlen
    | cons d ds =>
      rw [hcn] at hc
      simp only [List.cons_append, List.head?_cons, Option.some.injEq] at hc
      rw [← hc]
      exact hconnhead d (by rw [hcn]; rfl)
  have hlastc2 : ∃ c, (nm ++ sl).getLast? = some c ∧ pyIsSpace c = false ∧
      (c = '/' ↔ isLeaf = false) := by
    rw [hsl]
    cases isLeaf
    · refine ⟨'/', by simp, by decide, by simp⟩
    · obtain ⟨lc, hlc⟩ : ∃ c, nm.getLast? = some c := by
        cases hg : nm.getLast? with
        | none => exact absurd (by simpa using hg) hne
        | some c => exact ⟨c, rfl⟩
      have hlcm : lc ∈ nm := List.mem_of_mem_getLast? hlc
      refine ⟨lc, by simpa using hlc, hsp lc hlcm, ?_⟩
      constructor
      · intro hcon
        exact absurd (hcon ▸ hlcm) hslash
      · intro hcon
        simp at hcon
  obtain ⟨lc, hlc, hlcsp, hlciff⟩ := hlastc2
  have hlast : (cur.dropWhile pyIsSpace ++ (conn ++ (nm ++ sl))).getLast? = some lc := by
    rw [List.getLast?_append_of_ne_nil _ (by
        intro hcon
        rcases List.append_eq_nil.mp hcon with ⟨h1, _⟩
        rw [h1] at hconnlen
        simp at hconnlen),
      List.getLast?_append_of_ne_nil _ (by simp [hne])]
    exact hlc
  have hB : pyStrip (cur ++ (conn ++ (nm ++ sl)))
      = cur.dropWhile pyIsSpace ++ (conn ++ (nm ++ sl)) := by
    unfold pyStrip
    rw [hB1]
    exact pyRstrip_of_last _ lc hlast hlcsp
  -- C. the leaf flag
  have hC : pyEndsWith (cur.dropWhile pyIsSpace ++ (conn ++ (nm ++ sl))) '/'
      = !isLeaf := by
    unfold pyEndsWith
    rw [hlast]
    cases hil : isLeaf
    · simp only [Bool.not_false, Option.some.injEq, decide_eq_true_eq]
      exact hlciff.mpr hil
    · simp only [Bool.not_true, Option.some.injEq, decide_eq_false_iff_not]
      intro hcon
      have := hlciff.mp hcon
      rw [hil] at this
      simp at this
  -- D. the name
  have hfdc : ∀ c ∈ (cur.dropWhile pyIsSpace).filter (· ≠ '│'), c = ' ' := by
    intro c hc
    rcases List.mem_filter.mp hc with ⟨hmem, hne'⟩
    rcases hdc c hmem with h1 | h1
    · exact absurd h1 (by simpa using hne')
    · exact h1
  have hD1 : replaceAll ['│'] [] (cur.dropWhile pyIsSpace ++ (conn ++ (nm ++ sl)))
      = (cur.dropWhile pyIsSpace).filter (· ≠ '│') ++ (conn ++ (nm ++ sl)) := by
    rw [replaceAll_single]
    simp only [List.filter_append]
    rw [filter_ne_of_notMem '│' conn hconnvert, filter_ne_of_notMem '│' nm hvert,
      filter_ne_of_notMem '│' sl hslvert]
  have hnofork : ∀ c : Char, c ≠ ' ' → c ∉ nm → c ∉ sl →
      c ∉ (cur.dropWhile pyIsSpace).filter (· ≠ '│') ++ (nm ++ sl) := by
    intro c hcsp hcnm hcsl hcon
    rcases List.mem_append.mp hcon with h1 | h1
    · exact hcsp (hfdc c h1)
    · rcases List.mem_append.mp h1 with h2 | h2
      · exact hcnm h2
      · exact hcsl h2
  have hD2 : replaceAll (chars "├── ") []
      (replaceAll (chars "└── ") []
        ((cur.dropWhile pyIsSpace).filter (· ≠ '│') ++ (conn ++ (nm ++ sl))))
      = (cur.dropWhile pyIsSpace).filter (· ≠ '│') ++ (nm ++ sl) := by
    rw [hconn]
    cases isLast
    case true =>
      have hmid : replaceAll (chars "└── ") []
          ((cur.dropWhile pyIsSpace).filter (· ≠ '│') ++ (chars "└── " ++ (nm ++ sl)))
          = (cur.dropWhile pyIsSpace).filter (· ≠ '│') ++ (nm ++ sl) := by
        rw [show chars "└── " = '└' :: chars "── " from rfl]
        rw [← List.append_assoc]
        refine replaceAll_mid '└' (chars "── ") _ _ ?_ ?_
        · intro hcon
          exact (by decide : ('└' : Char) ≠ ' ') (hfdc _ hcon)
        · intro hcon
          rcases List.mem_append.mp hcon with h1 | h1
          · exact hlastc h1
          · exact hsllast h1
      rw [if_pos rfl, hmid]
      rw [show chars "├── " = '├' :: chars "── " from rfl]
      exact replaceAll_of_head_notMem '├' _ [] _
        (hnofork '├' (by decide) hforkc hslfork)
    case false =>
      rw [if_neg (by simp)]
      rw [show chars "└── " = '└' :: chars "── " from rfl]
      rw [replaceAll_of_head_notMem '└' _ [] _ (by
        intro hcon
        rcases List.mem_append.mp hcon with h1 | h1
        · exact (by decide : ('└' : Char) ≠ ' ') (hfdc _ h1)
        · rcases List.mem_append.mp h1 with h2 | h2
          · exact (by decide : '└' ∉ chars "├── ") h2
          · rcases List.mem_append.mp h2 with h3 | h3
            · exact hlastc h3
            · exact hsllast h3)]
      rw [show chars "├── " = '├' :: chars "── " from rfl]
      rw [← List.append_assoc]
      refine replaceAll_mid '├' (chars "── ") _ _ ?_ ?_
      · intro hcon
        exact (by decide : ('├' : Char) ≠ ' ') (hfdc _ hcon)
      · intro hcon
        rcases List.mem_append.mp hcon with h1 | h1
        · exact hforkc h1
        · exact hslfork h1
  have hD3 : replaceAll ['/'] []
      ((cur.dropWhile pyIsSpace).filter (· ≠ '│') ++ (nm ++ sl))
      = (cur.dropWhile pyIsSpace).filter (· ≠ '│') ++ nm := by
    rw [replaceAll_single]
    simp only [List.filter_append]
    rw [filter_ne_of_notMem '/' _ (fun hcon =>
        (by decide : ('/' : Char) ≠ ' ') (hfdc _ hcon)),
      filter_ne_of_notMem '/' nm hslash]
    have : sl.filter (· ≠ '/') = [] := by
      rw [hsl]; cases isLeaf <;> rfl
    rw [this, List.append_nil]
  have hD4 : pyStrip ((cur.dropWhile pyIsSpace).filter (· ≠ '│') ++ nm) = nm := by
    unfold pyStrip
    rw [pyLstrip_append _ _ (all_spaces_pyIsSpace hfdc)]
    exact pyStrip_name nm hsp
  -- assemble
  unfold mdParseLine
  rw [hml, hA, hA2, hB]
  dsimp only
  rw [hC, hD1, hD2, hD3, hD4]
  simp only [Prod.mk.injEq, Bool.not_not, List.length_append]
  constructor
  · omega
  · trivial

/-- Popping never resurrects an empty stack. -/
theorem popN_nil (n : Nat) : popN n [] = [] := by cases n <;> rfl

/-- A singleton stack is never popped. -/
theorem popN_single (n : Nat) (f : Frame) : popN n [f] = [f] := by cases n <;> rfl

/-- Pops compose additively. -/
theorem popN_add (a b : Nat) : ∀ S, popN (a + b) S = popN a (popN b S) := by
  induction b with
  | zero => intro S; rfl
  | succ b ih =>
    intro S
    cases S with
    | nil => rw [popN_nil, popN_nil, popN_nil]
    | cons f rest =>
      cases rest with
      | nil => rw [popN_single, popN_single, popN_single]
      | cons g rest2 =>
        show popN (a + b) (frameAdd g (closeFrame f) :: rest2)
            = popN a (popN b (frameAdd g (closeFrame f) :: rest2))
        exact ih _

/-- Each pop removes exactly one frame while at least two remain. -/
theorem popN_length : ∀ (n : Nat) (S : List Frame), n ≤ S.length - 1 →
    (popN n S).length = S.length - n := by
  intro n
  induction n with
  | zero => intro S _; rfl
  | succ n ih =>
    intro S hn
    cases S with
    | nil => simp at hn
    | cons f rest =>
      cases rest with
      | nil => simp at hn
      | cons g rest2 =>
        rw [show popN (n + 1) (f :: g :: rest2)
            = popN n (frameAdd g (closeFrame f) :: rest2) from rfl]
        rw [ih _ (by simp at hn ⊢; omega)]
        simp only [List.length_cons]
        omega

/-- Truncation to at least the current length is the identity. -/
theorem popTo_eq_self (k : Nat) (S : List Frame) (h : S.length ≤ k) :
    popTo k S = S := by
  unfold popTo
  rw [show S.length - k = 0 from by omega]
  rfl

/-- Truncation to a reachable positive length lands exactly there. -/
theorem popTo_length (k : Nat) (S : List Frame) (hk : 1 ≤ k) (h : k ≤ S.length) :
    (popTo k S).length = k := by
  unfold popTo
  rw [popN_length (S.length - k) S (by omega)]
  omega

/-- Truncating further after truncating is truncating once. -/
theorem popTo_popTo (k k' : Nat) (S : List Frame) (hk : 1 ≤ k) (hkk : k ≤ k') :
    popTo k (popTo k' S) = popTo k S := by
  by_cases hS : S.length ≤ k'
  · rw [popTo_eq_self k' S hS]
  · have hlen : (popTo k' S).length = k' := popTo_length k' S (by omega) (by omega)
    show popN ((popTo k' S).length - k) (popTo k' S) = popN (S.length - k) S
    rw [hlen]
    show popN (k' - k) (popN (S.length - k') S) = _
    rw [← popN_add]
    rw [show k' - k + (S.length - k') = S.length - k from by omega]

/-- All the children the decoder attaches to one open frame, in order. -/
def frameAdds (f : Frame) (cs : List TreeNode) : Frame := cs.foldl frameAdd f

/-- The frame a run of attachments produces. -/
theorem frameAdds_spec : ∀ (cs : List TreeNode) (n : Name) (ch0 : List TreeNode)
    (s0 : List Name),
    frameAdds (Frame.mk n ch0 s0) cs = Frame.mk n (ch0 ++ cs)
      (cs.foldl (fun acc c => if c.check_leaf then acc else insName c.name acc) s0)
  | [], n, ch0, s0 => by simp [frameAdds]
  | c :: cs, n, ch0, s0 => by
    show frameAdds (Frame.mk n (ch0 ++ [c])
        (if c.check_leaf then s0 else insName c.name s0)) cs = _
    rw [frameAdds_spec cs n (ch0 ++ [c]) _]
    rw [show (ch0 ++ [c]) ++ cs = ch0 ++ (c :: cs) from by simp]
    rfl

/-- Attaching one more child onto an accumulated frame. -/
theorem frameAdds_cons (f : Frame) (c : TreeNode) (cs : List TreeNode) :
    frameAdds f (c :: cs) = frameAdds (frameAdd f c) cs := rfl

/-- Closing the root-shaped frame after all attachments yields exactly the
canonical directory node. -/
theorem closeFrame_frameAdds (n : Name) (cs : List TreeNode) :
    closeFrame (frameAdds (Frame.mk n [] []) cs)
      = TreeNode.mk n false cs (nlnOf cs) := by
  rw [frameAdds_spec cs n [] []]
  rfl

/-- The canonical form of a directory node. -/
theorem canon_dir (n : Name) (ch : List TreeNode) (s : List Name) :
    (TreeNode.mk n false ch s).canon
      = TreeNode.mk n false (canonList ch) (nlnOf (canonList ch)) := by
  unfold TreeNode.canon
  rw [if_neg (by simp)]

/-- The canonical form of a leaf node. -/
theorem canon_leaf (n : Name) (ch : List TreeNode) (s : List Name) :
    (TreeNode.mk n true ch s).canon = TreeNode.mk n true [] [] := by
  unfold TreeNode.canon
  rw [if_pos rfl]

/-- Member access for well-formedness at a constructor. -/
theorem wf_parts {n : Name} {l : Bool} {ch : List TreeNode} {s : List Name}
    (h : (TreeNode.mk n l ch s).wf = true) :
    nameOk n = true ∧ (l = true → ch = []) ∧ wfList ch = true := by
  rcases andE (show (_ && _ && _) = true from h) with ⟨h12, h3⟩
  rcases andE h12 with ⟨h1, h2⟩
  refine ⟨h1, ?_, h3⟩
  intro hl
  subst hl
  simpa [List.isEmpty_iff] using h2

/-- Membership in the forest well-formedness predicate. -/
theorem wfList_parts {c : TreeNode} {cs : List TreeNode}
    (h : wfList (c :: cs) = true) : c.wf = true ∧ wfList cs = true :=
  andE h

/-- The continuation prefix handed to the children of a node at level
`lvl + 1` extends the current prefix by one legal block. -/
theorem mdNewPrefix_succ (pfx0 np : Name) (lvl : Nat) (isLast : Bool) :
    mdNewPrefix pfx0 np (lvl + 1) isLast
      = np ++ (if isLast then spaces 4 else chars "│   ") := by
  unfold mdNewPrefix
  rw [if_pos (Nat.succ_pos lvl)]

/-- Extending a legal prefix by either block keeps it legal. -/
theorem blockOk_append_block (np : Name) (h : blockOk np = true) (b : Bool) :
    blockOk (np ++ (if b then spaces 4 else chars "│   ")) = true := by
  unfold blockOk at h ⊢
  rw [List.all_append, h]
  cases b <;> decide

/-- Either block is four characters. -/
theorem block_length (b : Bool) :
    (if b then spaces 4 else chars "│   ").length = 4 := by
  cases b <;> rfl

/-- The driving lemma of the diagram round trip: folding the decoder over
the lines the encoder emits for a forest at level `l + 1` attaches exactly
the canonical forest to the open parent frame, whatever deeper frames the
stack still holds. -/
theorem mdFold (pfx0 : Name) : ∀ (n : Nat) (cs : List TreeNode), szList cs ≤ n →
    wfList cs = true →
    ∀ (l : Nat) (np : Name), blockOk np = true → np.length = 4 * l →
    ∀ (S : List Frame) (top : Frame) (rest : List Frame),
      popTo (l + 1) S = top :: rest → rest.length = l →
      popTo (l + 1) (List.foldl mdStep S
          ((mdEmitsList 0 0 pfx0 cs (l + 1) np).map (fun e => e.2.2)))
        = frameAdds top (canonList cs) :: rest := by
  intro n
  induction n with
  | zero =>
    intro cs hsz _ l np _ _ S top rest hpop _
    cases cs with
    | nil =>
      show popTo (l + 1) (List.foldl mdStep S []) = _
      simpa [frameAdds] using hpop
    | cons c cs =>
      exfalso
      have := sz_pos c
      simp only [szList] at hsz
      omega
  | succ n ih =>
    intro cs hsz hwf l np hblock hnp S top rest hpop hrest
    cases cs with
    | nil =>
      show popTo (l + 1) (List.foldl mdStep S []) = _
      simpa [frameAdds] using hpop
    | cons c cs =>
      obtain ⟨hwfc, hwfcs⟩ := wfList_parts hwf
      cases c with
      | mk nm lf ch s =>
        obtain ⟨hnm, hleafch, hwfch⟩ := wf_parts hwfc
        have hemit : mdEmitsList 0 0 pfx0 (TreeNode.mk nm lf ch s :: cs) (l + 1) np
            = mdEmits 0 0 pfx0 (TreeNode.mk nm lf ch s) (l + 1)
                (!cs.any (keepChild 0 0 (l + 1))) np
              ++ mdEmitsList 0 0 pfx0 cs (l + 1) np := by
          conv_lhs => unfold mdEmitsList
          rw [if_pos (keepChild_zero (l + 1) _)]
        rw [hemit]
        set flag := !cs.any (keepChild 0 0 (l + 1)) with hflag
        cases hlf : lf
        case false =>
          have hemit2 : mdEmits 0 0 pfx0 (TreeNode.mk nm false ch s) (l + 1) flag np
              = (l + 1, false, mdLine np (l + 1) flag nm false) ::
                  mdEmitsList 0 0 pfx0 ch (l + 2) (mdNewPrefix pfx0 np (l + 1) flag) := by
            conv_lhs => unfold mdEmits
            rfl
          rw [hemit2]
          simp only [List.map_cons, List.map_append, List.foldl_cons, List.foldl_append]
          have hstep : mdStep S (mdLine np (l + 1) flag nm false)
              = Frame.mk nm [] [] :: top :: rest := by
            unfold mdStep
            rw [mdParseLine_correct np l flag nm false hblock hnp hnm]
            dsimp only
            rw [hpop]
            rfl
          rw [hstep]
          have hnp' : mdNewPrefix pfx0 np (l + 1) flag
              = np ++ (if flag then spaces 4 else chars "│   ") :=
            mdNewPrefix_succ pfx0 np l flag
          have hchild := ih ch (by simp only [szList, TreeNode.sz] at hsz; omega) hwfch
            (l + 1) (mdNewPrefix pfx0 np (l + 1) flag)
            (by rw [hnp']; exact blockOk_append_block np hblock flag)
            (by rw [hnp', List.length_append, hnp, block_length]; omega)
            (Frame.mk nm [] [] :: top :: rest) (Frame.mk nm [] []) (top :: rest)
            (popTo_eq_self _ _ (by simp; omega)) (by simp; omega)
          have hsib := ih cs (by simp only [szList, TreeNode.sz] at hsz; omega) hwfcs
            l np hblock hnp
            (List.foldl mdStep (Frame.mk nm [] [] :: top :: rest)
              ((mdEmitsList 0 0 pfx0 ch (l + 2) (mdNewPrefix pfx0 np (l + 1) flag)).map
                (fun e => e.2.2)))
            (frameAdd top ((TreeNode.mk nm false ch s).canon)) rest ?_ hrest
          · rw [hsib]
            rw [show frameAdds (frameAdd top (TreeNode.mk nm false ch s).canon)
                (canonList cs)
                = frameAdds top ((TreeNode.mk nm false ch s).canon :: canonList cs)
              from rfl]
            rfl
          · rw [show l + 1 + 1 = l + 2 from rfl] at hchild
            rw [← popTo_popTo (l + 1) (l + 2) _ (by omega) (by omega), hchild]
            have hlen2 : (frameAdds (Frame.mk nm [] []) (canonList ch)
                :: top :: rest).length = l + 2 := by
              simp [hrest]
            show popN ((frameAdds (Frame.mk nm [] []) (canonList ch)
                :: top :: rest).length - (l + 1)) _ = _
            rw [hlen2, show l + 2 - (l + 1) = 1 from by omega]
            show popN 0 (frameAdd top
                (closeFrame (frameAdds (Frame.mk nm [] []) (canonList ch))) :: rest) = _
            rw [closeFrame_frameAdds nm (canonList ch)]
            rw [show (TreeNode.mk nm false ch s).canon
                = TreeNode.mk nm false (canonList ch) (nlnOf (canonList ch))
              from canon_dir nm ch s]
            rfl
        case true =>
          have hemit2 : mdEmits 0 0 pfx0 (TreeNode.mk nm true ch s) (l + 1) flag np
              = [(l + 1, true, mdLine np (l + 1) flag nm true)] := by
            conv_lhs => unfold mdEmits
            rfl
          rw [hemit2]
          simp only [List.map_cons, List.map_nil, List.map_append,
            List.foldl_cons, List.foldl_append, List.foldl_nil]
          have hstep : mdStep S (mdLine np (l + 1) flag nm true)
              = frameAdd top (TreeNode.mk nm true [] []) :: rest := by
            unfold mdStep
            rw [mdParseLine_correct np l flag nm true hblock hnp hnm]
            dsimp only
            rw [hpop]
            rfl
          rw [hstep]
          have hsib := ih cs (by
              simp only [szList, TreeNode.sz] at hsz
              have := szList ch
              omega) hwfcs
            l np hblock hnp
            (frameAdd top (TreeNode.mk nm true [] []) :: rest)
            (frameAdd top (TreeNode.mk nm true [] [])) rest
            (popTo_eq_self _ _ (by simp; omega)) hrest
          rw [hsib]
          rfl

/-- What the splitter and stripper need of every emitted line: non-empty,
newline-free, and ending in a non-whitespace character. -/
def lineOk (ln : Name) : Prop :=
  ln ≠ [] ∧ '\n' ∉ ln ∧ ∀ c, ln.getLast? = some c → pyIsSpace c = false

/-- Every diagram line over a legal prefix and a codec-safe name is a good
line. -/
theorem mdLine_ok (cur : Name) (lvl : Nat) (isLast : Bool) (nm : Name)
    (isLeaf : Bool) (hcur : blockOk cur = true) (hnm : nameOk nm = true) :
    lineOk (mdLine cur lvl isLast nm isLeaf) := by
  obtain ⟨hne, hsp, _, _, _, _, _, hnl⟩ := nameOk_facts nm hnm
  have hcurnl : '\n' ∉ cur := by
    intro hcon
    rcases blockOk_mem hcur _ hcon with h | h <;> simp at h
  have hconnnl : '\n' ∉ (if lvl > 0 then
      (if isLast then chars "└── " else chars "├── ") else []) := by
    split
    · split <;> decide
    · simp
  have hslnl : '\n' ∉ (if isLeaf then ([] : Name) else ['/']) := by
    cases isLeaf <;> decide
  refine ⟨?_, ?_, ?_⟩
  · unfold mdLine
    intro hcon
    rcases List.append_eq_nil.mp hcon with ⟨h1, _⟩
    rcases List.append_eq_nil.mp h1 with ⟨_, h2⟩
    exact hne h2
  · unfold mdLine
    intro hcon
    rcases List.mem_append.mp hcon with h1 | h1
    · rcases List.mem_append.mp h1 with h2 | h2
      · rcases List.mem_append.mp h2 with h3 | h3
        · exact hcurnl h3
        · exact hconnnl h3
      · exact hnl h2
    · exact hslnl h1
  · intro c hc
    unfold mdLine at hc
    cases hil : isLeaf
    case true =>
      rw [hil] at hc
      rw [if_pos (show (true : Bool) = true from rfl), List.append_nil] at hc
      rw [List.getLast?_append_of_ne_nil _ hne] at hc
      exact hsp c (List.mem_of_mem_getLast? hc)
    case false =>
      rw [hil] at hc
      rw [if_neg (show ¬ ((false : Bool) = true) by simp)] at hc
      rw [List.getLast?_append_of_ne_nil _ (by simp)] at hc
      simp only [List.getLast?_singleton, Option.some.injEq] at hc
      rw [← hc]
      rfl

mutual

/-- Every line the zero-cap diagram encoder emits under legal prefixes is a
good line. -/
theorem mdEmits_linesOk (pfx0 : Name) (hp : blockOk pfx0 = true) :
    ∀ (t : TreeNode) (lvl : Nat) (isLast : Bool) (cur : Name),
      t.wf = true → blockOk cur = true →
      ∀ e ∈ mdEmits 0 0 pfx0 t lvl isLast cur, lineOk e.2.2
  | .mk nm lf ch s, lvl, isLast, cur => by
    intro hwf hcur e he
    obtain ⟨hnm, _, hwfch⟩ := wf_parts hwf
    unfold mdEmits at he
    split at he
    case isTrue hl =>
      simp only [List.mem_singleton] at he
      subst he
      subst hl
      exact mdLine_ok cur lvl isLast nm true hcur hnm
    case isFalse hl =>
      have hlf : lf = false := by simpa using hl
      subst hlf
      rcases List.mem_cons.mp he with rfl | hmem
      · exact mdLine_ok cur lvl isLast nm false hcur hnm
      · refine mdEmitsList_linesOk pfx0 hp ch (lvl + 1)
          (mdNewPrefix pfx0 cur lvl isLast) hwfch ?_ e hmem
        unfold mdNewPrefix
        split
        · rename_i hpos
          obtain ⟨lvl', rfl⟩ : ∃ m, lvl = m + 1 := ⟨lvl - 1, by omega⟩
          exact blockOk_append_block cur hcur isLast
        · exact hp

/-- The forest version of `mdEmits_linesOk`. -/
theorem mdEmitsList_linesOk (pfx0 : Name) (hp : blockOk pfx0 = true) :
    ∀ (cs : List TreeNode) (lvl1 : Nat) (np : Name),
      wfList cs = true → blockOk np = true →
      ∀ e ∈ mdEmitsList 0 0 pfx0 cs lvl1 np, lineOk e.2.2
  | [], _, _ => by
    intro _ _ e he
    simp [mdEmitsList] at he
  | c :: cs, lvl1, np => by
    intro hwf hnp e he
    obtain ⟨hwfc, hwfcs⟩ := wfList_parts hwf
    unfold mdEmitsList at he
    split at he
    · rcases List.mem_append.mp he with hm | hm
      · exact mdEmits_linesOk pfx0 hp c lvl1 _ np hwfc hnp e hm
      · exact mdEmitsList_linesOk pfx0 hp cs lvl1 np hwfcs hnp e hm
    · exact mdEmitsList_linesOk pfx0 hp cs lvl1 np hwfcs hnp e he

end

/-- Joined good lines are non-empty. -/
theorem joinLines_ne_nil : ∀ (ls : List Name), ls ≠ [] → (∀ l ∈ ls, l ≠ []) →
    joinLines ls ≠ [] := by
  intro ls
  cases ls with
  | nil => intro h _; exact absurd rfl h
  | cons l rest =>
    intro _ hall
    cases rest with
    | nil =>
      rw [joinLines_single]
      exact hall l (by simp)
    | cons l2 rest2 =>
      rw [joinLines_cons l _ (by simp)]
      simp

/-- The first character of joined lines is the first character of the first
line. -/
theorem joinLines_head (l0 : Name) (ls : List Name) (h : l0 ≠ []) :
    (joinLines (l0 :: ls)).head? = l0.head? := by
  cases ls with
  | nil => rw [joinLines_single]
  | cons l2 rest2 =>
    rw [joinLines_cons l0 _ (by simp)]
    exact List.head?_append_of_ne_nil _ h

/-- The last character of joined lines is the last character of some line. -/
theorem joinLines_getLast : ∀ (ls : List Name), ls ≠ [] → (∀ l ∈ ls, l ≠ []) →
    ∃ ll ∈ ls, (joinLines ls).getLast? = ll.getLast? := by
  intro ls
  induction ls with
  | nil => intro h _; exact absurd rfl h
  | cons l rest ih =>
    intro _ hall
    cases hr : rest with
    | nil =>
      rw [joinLines_single]
      exact ⟨l, by simp, rfl⟩
    | cons l2 rest2 =>
      rw [← hr, joinLines_cons l rest (by rw [hr]; simp)]
      have hjr : joinLines rest ≠ [] := by
        rw [hr]
        exact joinLines_ne_nil _ (by simp) (fun x hx => hall x (by simp [hr, hx]))
      obtain ⟨ll, hmem, hlast⟩ := ih (by rw [hr]; simp)
        (fun x hx => hall x (by simp [hx]))
      refine ⟨ll, by simp [hmem], ?_⟩
      rw [List.getLast?_append_of_ne_nil _ (by simp)]
      rw [show ('\n' :: joinLines rest) = ['\n'] ++ joinLines rest from rfl]
      rw [List.getLast?_append_of_ne_nil _ hjr]
      exact hlast

/-- The diagram round trip: a well-formed directory-rooted tree decodes
from its own encoding as exactly its canonical reconstruction. -/
theorem from_md_to_md (n : Name) (ch : List TreeNode) (s : List Name)
    (hwf : (TreeNode.mk n false ch s).wf = true) :
    TreeNode.from_md ((TreeNode.mk n false ch s).to_md 0 true [] 0 0)
      = some (TreeNode.mk n false ch s).canon := by
  obtain ⟨hnm, _, hwfch⟩ := wf_parts hwf
  obtain ⟨hne, hsp, hslash, _, _, _, _, _⟩ := nameOk_facts n hnm
  rw [to_md_eq_render]
  have hemit : mdEmits 0 0 [] (TreeNode.mk n false ch s) 0 true []
      = (0, false, n ++ ['/']) :: mdEmitsList 0 0 [] ch 1 [] := by
    conv_lhs => unfold mdEmits
    rfl
  have hlinesOk : ∀ e ∈ mdEmits 0 0 [] (TreeNode.mk n false ch s) 0 true [],
      lineOk e.2.2 :=
    mdEmits_linesOk [] rfl _ 0 true [] hwf rfl
  rw [hemit] at hlinesOk ⊢
  set body := (mdEmitsList 0 0 [] ch 1 []).map (fun e => e.2.2) with hbody
  have hlines : renderMd ((0, false, n ++ ['/']) :: mdEmitsList 0 0 [] ch 1 [])
      = joinLines ((n ++ ['/']) :: body) := rfl
  rw [hlines]
  have hallOk : ∀ l ∈ (n ++ ['/']) :: body, l ≠ [] ∧ '\n' ∉ l ∧
      ∀ c, l.getLast? = some c → pyIsSpace c = false := by
    intro l hl
    rcases List.mem_cons.mp hl with rfl | hmem
    · exact hlinesOk (0, false, n ++ ['/']) (by simp)
    · rcases List.mem_map.mp hmem with ⟨e, he, rfl⟩
      exact hlinesOk e (by simp [he])
  have hstrip : pyStrip (joinLines ((n ++ ['/']) :: body))
      = joinLines ((n ++ ['/']) :: body) := by
    refine pyStrip_eq_self _ ?_ ?_
    · intro c hc
      rw [joinLines_head _ _ (by simp)] at hc
      rw [List.head?_append_of_ne_nil _ hne] at hc
      refine hsp c ?_
      cases hn0 : n with
      | nil => exact absurd hn0 hne
      | cons d ds =>
        rw [hn0] at hc
        simp only [List.head?_cons, Option.some.injEq] at hc
        subst hc
        exact List.mem_cons_self _ _
    · intro c hc
      obtain ⟨ll, hmem, hlast⟩ := joinLines_getLast ((n ++ ['/']) :: body)
        (by simp) (fun l hl => (hallOk l hl).1)
      rw [hlast] at hc
      exact (hallOk ll hmem).2.2 c hc
  have hsplit : pySplitlines (joinLines ((n ++ ['/']) :: body))
      = (n ++ ['/']) :: body :=
    pySplitlines_join _ (fun l hl => ⟨(hallOk l hl).1, (hallOk l hl).2.1⟩) (by simp)
  unfold TreeNode.from_md
  rw [hstrip, hsplit]
  have hroot : replaceAll ['/'] [] (pyStrip (n ++ ['/'])) = n := by
    rw [pyStrip_eq_self _ ?_ ?_]
    · rw [replaceAll_single]
      simp only [List.filter_append]
      rw [filter_ne_of_notMem '/' n hslash]
      simp
    · intro c hc
      rw [List.head?_append_of_ne_nil _ hne] at hc
      refine hsp c ?_
      cases hn0 : n with
      | nil => exact absurd hn0 hne
      | cons d ds =>
        rw [hn0] at hc
        simp only [List.head?_cons, Option.some.injEq] at hc
        subst hc
        exact List.mem_cons_self _ _
    · intro c hc
      rw [List.getLast?_append_of_ne_nil _ (by simp)] at hc
      simp only [List.getLast?_singleton, Option.some.injEq] at hc
      rw [← hc]
      rfl
  have hfold := mdFold [] (szList ch) ch (le_refl _) hwfch 0 [] rfl rfl
    [Frame.mk (replaceAll ['/'] [] (pyStrip (n ++ ['/']))) [] []]
    (Frame.mk (replaceAll ['/'] [] (pyStrip (n ++ ['/']))) [] []) []
    (popTo_eq_self 1 _ (by simp)) rfl
  dsimp only
  rw [hfold, hroot]
  show some (closeFrame (frameAdds (Frame.mk n [] []) (canonList ch)))
      = some (TreeNode.mk n false ch s).canon
  rw [closeFrame_frameAdds n (canonList ch), canon_dir n ch s]

/-- A deep listing piece is a newline followed by the body line. -/
theorem reprPiece_pos (nm : Name) (isLeaf : Bool) (lvl : Nat) (h : 1 ≤ lvl) :
    reprPiece nm isLeaf lvl = '\n' :: reprLineOf (nm, isLeaf, lvl) := by
  unfold reprPiece reprLineOf
  rw [if_pos (by omega : lvl > 0)]
  simp [List.cons_append, List.append_assoc]

/-- The rendering of a deep emission list is the flattened newline-prefixed
body lines. -/
theorem renderRepr_flat : ∀ (es : List (Name × Bool × Nat)),
    (∀ e ∈ es, 1 ≤ e.2.2) →
    renderRepr es = es.flatMap (fun e => '\n' :: reprLineOf e) := by
  intro es
  induction es with
  | nil => intro _; rfl
  | cons e es ih =>
    intro h
    show reprPiece e.1 e.2.1 e.2.2 ++ renderRepr es = _
    rw [reprPiece_pos e.1 e.2.1 e.2.2 (h e (by simp)), ih (fun x hx => h x (by simp [hx]))]
    rfl

/-- Joined lines as first line plus newline-prefixed tail lines. -/
theorem joinLines_flat : ∀ (l0 : Name) (ls : List Name),
    joinLines (l0 :: ls) = l0 ++ ls.flatMap (fun l => '\n' :: l) := by
  intro l0 ls
  induction ls generalizing l0 with
  | nil =>
    rw [joinLines_single]
    simp
  | cons l1 ls2 ih =>
    rw [joinLines_cons l0 _ (by simp)]
    rw [ih l1]
    simp

mutual

/-- Every zero-cap listing emission of a well-formed node carries a
codec-safe name and a level at least the node's. -/
theorem reprEmits_shape : ∀ (t : TreeNode) (lvl : Nat), t.wf = true →
    ∀ e ∈ reprEmits 0 0 t lvl, nameOk e.1 = true ∧ lvl ≤ e.2.2
  | .mk nm lf ch s, lvl => by
    intro hwf e he
    obtain ⟨hnm, _, hwfch⟩ := wf_parts hwf
    unfold reprEmits at he
    rw [if_neg (by simp [reprSkip_zero])] at he
    rcases List.mem_cons.mp he with rfl | hmem
    · exact ⟨hnm, le_refl _⟩
    · split at hmem
      · simp at hmem
      · obtain ⟨h1, h2⟩ := reprEmitsList_shape ch (lvl + 1) hwfch e hmem
        exact ⟨h1, by omega⟩

/-- The forest version of `reprEmits_shape`. -/
theorem reprEmitsList_shape : ∀ (cs : List TreeNode) (lvl1 : Nat),
    wfList cs = true → ∀ e ∈ reprEmitsList 0 0 cs lvl1,
      nameOk e.1 = true ∧ lvl1 ≤ e.2.2
  | [], _ => by
    intro _ e he
    simp [reprEmitsList] at he
  | c :: cs, lvl1 => by
    intro hwf e he
    obtain ⟨hwfc, hwfcs⟩ := wfList_parts hwf
    rcases List.mem_append.mp he with hm | hm
    · exact reprEmits_shape c lvl1 hwfc e hm
    · exact reprEmitsList_shape cs lvl1 hwfcs e hm

end

/-- Every listing body line over a codec-safe name is a good line. -/
theorem reprLineOf_ok (e : Name × Bool × Nat) (hnm : nameOk e.1 = true) :
    lineOk (reprLineOf e) := by
  obtain ⟨hne, hsp, _, _, _, _, _, hnl⟩ := nameOk_facts e.1 hnm
  refine ⟨?_, ?_, ?_⟩
  · unfold reprLineOf
    intro hcon
    rcases List.append_eq_nil.mp hcon with ⟨h1, _⟩
    rcases List.append_eq_nil.mp h1 with ⟨_, h2⟩
    exact hne h2
  · unfold reprLineOf
    intro hcon
    rcases List.mem_append.mp hcon with h1 | h1
    · rcases List.mem_append.mp h1 with h2 | h2
      · rcases List.mem_append.mp h2 with h3 | h3
        · exact absurd (List.eq_of_mem_replicate h3) (by decide)
        · exact absurd h3 (by decide)
      · exact hnl h2
    · split at h1
      · simp at h1
      · simp only [List.mem_singleton] at h1
        cases h1
  · intro c hc
    unfold reprLineOf at hc
    rcases he : e.2.1 with _ | _
    · rw [he] at hc
      rw [if_neg (show ¬ ((false : Bool) = true) by simp)] at hc
      rw [List.getLast?_append_of_ne_nil _ (by simp)] at hc
      simp only [List.getLast?_singleton, Option.some.injEq] at hc
      rw [← hc]
      rfl
    · rw [he] at hc
      rw [if_pos (show (true : Bool) = true from rfl), List.append_nil] at hc
      rw [List.getLast?_append_of_ne_nil _ hne] at hc
      exact hsp c (List.mem_of_mem_getLast? hc)

/-- Member access for the directory-last condition on a non-empty sibling
list. -/
theorem dirsLastList_parts {c : TreeNode} {cs : List TreeNode}
    (h : dirsLastList (c :: cs) = true) :
    c.dirsLast = true ∧ dirsLastList cs = true ∧
      (cs ≠ [] → c.check_leaf = true) := by
  cases cs with
  | nil =>
    refine ⟨h, rfl, fun hcon => absurd rfl hcon⟩
  | cons c2 cs2 =>
    have h' : (c.check_leaf && TreeNode.dirsLast c && dirsLastList (c2 :: cs2)) = true := h
    rcases andE h' with ⟨h12, h3⟩
    rcases andE h12 with ⟨h1, h2⟩
    exact ⟨h2, h3, fun _ => h1⟩

/-- The directory-last condition at a constructor. -/
theorem dirsLast_mk (n : Name) (l : Bool) (ch : List TreeNode) (s : List Name) :
    (TreeNode.mk n l ch s).dirsLast = dirsLastList ch := rfl

/-- The driving lemma of the listing round trip, on directory-last forests:
the decoder's off-by-one truncation is harmless exactly because any open
directory frame is the last sibling, so the fold attaches the canonical
forest. -/
theorem reprFold : ∀ (n : Nat) (cs : List TreeNode), szList cs ≤ n →
    wfList cs = true → dirsLastList cs = true →
    ∀ (l : Nat) (top : Frame) (rest : List Frame), rest.length = l →
      popTo (l + 1) (List.foldl reprStep (top :: rest)
          ((reprEmitsList 0 0 cs (l + 1)).map reprLineOf))
        = frameAdds top (canonList cs) :: rest := by
  intro n
  induction n with
  | zero =>
    intro cs hsz _ _ l top rest hrest
    cases cs with
    | nil =>
      show popTo (l + 1) (List.foldl reprStep (top :: rest) []) = _
      rw [List.foldl_nil]
      rw [popTo_eq_self _ _ (by simp [hrest])]
      rfl
    | cons c cs =>
      exfalso
      have := sz_pos c
      simp only [szList] at hsz
      omega
  | succ n ih =>
    intro cs hsz hwf hdl l top rest hrest
    cases cs with
    | nil =>
      show popTo (l + 1) (List.foldl reprStep (top :: rest) []) = _
      rw [List.foldl_nil]
      rw [popTo_eq_self _ _ (by simp [hrest])]
      rfl
    | cons c cs =>
      obtain ⟨hwfc, hwfcs⟩ := wfList_parts hwf
      obtain ⟨hdlc, hdlcs, hdlleaf⟩ := dirsLastList_parts hdl
      cases c with
      | mk nm lf ch s =>
        obtain ⟨hnm, hleafch, hwfch⟩ := wf_parts hwfc
        have hemit : reprEmitsList 0 0 (TreeNode.mk nm lf ch s :: cs) (l + 1)
            = reprEmits 0 0 (TreeNode.mk nm lf ch s) (l + 1)
              ++ reprEmitsList 0 0 cs (l + 1) := rfl
        rw [hemit]
        cases hlf : lf
        case true =>
          subst hlf
          have hch : ch = [] := hleafch rfl
          subst hch
          have hemit2 : reprEmits 0 0 (TreeNode.mk nm true [] s) (l + 1)
              = [(nm, true, l + 1)] := by
            conv_lhs => unfold reprEmits
            rw [if_neg (by simp [reprSkip_zero])]
            rfl
          rw [hemit2]
          simp only [List.map_cons, List.map_nil, List.map_append,
            List.foldl_cons, List.foldl_append, List.foldl_nil]
          have hstep : reprStep (top :: rest) (reprLineOf (nm, true, l + 1))
              = frameAdd top (TreeNode.mk nm true [] []) :: rest := by
            unfold reprStep
            rw [reprParseLine_correct nm true (l + 1) hnm]
            dsimp only
            rw [popTo_eq_self _ _ (by simp [hrest])]
            rfl
          rw [hstep]
          have hsib := ih cs (by simp only [szList, TreeNode.sz, szList] at hsz; omega)
            hwfcs hdlcs l (frameAdd top (TreeNode.mk nm true [] [])) rest hrest
          rw [hsib]
          rfl
        case false =>
          subst hlf
          have hcs : cs = [] := by
            by_cases hcon : cs = []
            · exact hcon
            · have := hdlleaf hcon
              simp only [TreeNode.check_leaf] at this
              simp at this
          subst hcs
          have hemit2 : reprEmits 0 0 (TreeNode.mk nm false ch s) (l + 1)
              = (nm, false, l + 1) :: reprEmitsList 0 0 ch (l + 2) := by
            conv_lhs => unfold reprEmits
            rw [if_neg (by simp [reprSkip_zero])]
            rfl
          rw [hemit2]
          have hnil : reprEmitsList 0 0 ([] : List TreeNode) (l + 1) = [] := rfl
          rw [hnil, List.append_nil]
          simp only [List.map_cons, List.foldl_cons]
          have hstep : reprStep (top :: rest) (reprLineOf (nm, false, l + 1))
              = Frame.mk nm [] [] :: top :: rest := by
            unfold reprStep
            rw [reprParseLine_correct nm false (l + 1) hnm]
            dsimp only
            rw [popTo_eq_self _ _ (by simp [hrest])]
            rfl
          rw [hstep]
          have hdlch : dirsLastList ch = true := hdlc
          have hchild := ih ch (by
              simp only [szList, TreeNode.sz] at hsz
              omega) hwfch hdlch (l + 1) (Frame.mk nm [] []) (top :: rest)
            (by simp [hrest])
          rw [show l + 1 + 1 = l + 2 from rfl] at hchild
          rw [← popTo_popTo (l + 1) (l + 2) _ (by omega) (by omega), hchild]
          have hlen2 : (frameAdds (Frame.mk nm [] []) (canonList ch)
              :: top :: rest).length = l + 2 := by
            simp [hrest]
          show popN ((frameAdds (Frame.mk nm [] []) (canonList ch)
              :: top :: rest).length - (l + 1)) _ = _
          rw [hlen2, show l + 2 - (l + 1) = 1 from by omega]
          show popN 0 (frameAdd top
              (closeFrame (frameAdds (Frame.mk nm [] []) (canonList ch))) :: rest) = _
          rw [closeFrame_frameAdds nm (canonList ch)]
          rfl

/-- The listing round trip on a well-formed, directory-rooted,
directory-last tree: decoding the encoding is exactly the canonical
reconstruction. -/
theorem from_repr_to_repr (n : Name) (ch : List TreeNode) (s : List Name)
    (hwf : (TreeNode.mk n false ch s).wf = true)
    (hdl : (TreeNode.mk n false ch s).dirsLast = true) :
    TreeNode.from_repr ((TreeNode.mk n false ch s).to_repr 0 0 0)
      = some (TreeNode.mk n false ch s).canon := by
  obtain ⟨hnm, _, hwfch⟩ := wf_parts hwf
  obtain ⟨hne, hsp, hslash, _, _, _, _, _⟩ := nameOk_facts n hnm
  rw [to_repr_eq_render]
  have hemit : reprEmits 0 0 (TreeNode.mk n false ch s) 0
      = (n, false, 0) :: reprEmitsList 0 0 ch 1 := by
    conv_lhs => unfold reprEmits
    rw [if_neg (by simp [reprSkip_zero])]
    rfl
  rw [hemit]
  set body := (reprEmitsList 0 0 ch 1).map reprLineOf with hbody
  have hshape := reprEmitsList_shape ch 1 hwfch
  have htext : renderRepr ((n, false, 0) :: reprEmitsList 0 0 ch 1)
      = joinLines ((n ++ ['/']) :: body) := by
    show reprPiece n false 0 ++ renderRepr (reprEmitsList 0 0 ch 1) = _
    rw [renderRepr_flat _ (fun e he => (hshape e he).2)]
    rw [joinLines_flat]
    rw [show reprPiece n false 0 = n ++ ['/'] from rfl]
    rw [hbody, List.flatMap_map]
  rw [htext]
  have hallOk : ∀ l ∈ (n ++ ['/']) :: body, l ≠ [] ∧ '\n' ∉ l ∧
      ∀ c, l.getLast? = some c → pyIsSpace c = false := by
    intro l hl
    rcases List.mem_cons.mp hl with rfl | hmem
    · refine ⟨by simp [hne], ?_, ?_⟩
      · intro hcon
        rcases List.mem_append.mp hcon with h1 | h1
        · exact (nameOk_facts n hnm).2.2.2.2.2.2.2 h1
        · simp at h1
      · intro c hc
        rw [List.getLast?_append_of_ne_nil _ (by simp)] at hc
        simp only [List.getLast?_singleton, Option.some.injEq] at hc
        rw [← hc]
        rfl
    · rcases List.mem_map.mp hmem with ⟨e, he, rfl⟩
      exact reprLineOf_ok e (hshape e he).1
  have hstrip : pyStrip (joinLines ((n ++ ['/']) :: body))
      = joinLines ((n ++ ['/']) :: body) := by
    refine pyStrip_eq_self _ ?_ ?_
    · intro c hc
      rw [joinLines_head _ _ (by simp)] at hc
      rw [List.head?_append_of_ne_nil _ hne] at hc
      refine hsp c ?_
      cases hn0 : n with
      | nil => exact absurd hn0 hne
      | cons d ds =>
        rw [hn0] at hc
        simp only [List.head?_cons, Option.some.injEq] at hc
        subst hc
        exact List.mem_cons_self _ _
    · intro c hc
      obtain ⟨ll, hmem, hlast⟩ := joinLines_getLast ((n ++ ['/']) :: body)
        (by simp) (fun l hl => (hallOk l hl).1)
      rw [hlast] at hc
      exact (hallOk ll hmem).2.2 c hc
  have hsplit : pySplitlines (joinLines ((n ++ ['/']) :: body))
      = (n ++ ['/']) :: body :=
    pySplitlines_join _ (fun l hl => ⟨(hallOk l hl).1, (hallOk l hl).2.1⟩) (by simp)
  unfold TreeNode.from_repr
  rw [hstrip, hsplit]
  have hroot : replaceAll ['/'] [] (pyStrip (n ++ ['/'])) = n := by
    rw [pyStrip_eq_self _ ?_ ?_]
    · rw [replaceAll_single]
      simp only [List.filter_append]
      rw [filter_ne_of_notMem '/' n hslash]
      simp
    · intro c hc
      rw [List.head?_append_of_ne_nil _ hne] at hc
      refine hsp c ?_
      cases hn0 : n with
      | nil => exact absurd hn0 hne
      | cons d ds =>
        rw [hn0] at hc
        simp only [List.head?_cons, Option.some.injEq] at hc
        subst hc
        exact List.mem_cons_self _ _
    · intro c hc
      rw [List.getLast?_append_of_ne_nil _ (by simp)] at hc
      simp only [List.getLast?_singleton, Option.some.injEq] at hc
      rw [← hc]
      rfl
  have hfold := reprFold (szList ch) ch (le_refl _) hwfch
    (by rw [dirsLast_mk] at hdl; exact hdl) 0
    (Frame.mk (replaceAll ['/'] [] (pyStrip (n ++ ['/']))) [] []) [] rfl
  dsimp only
  rw [hfold, hroot]
  show some (closeFrame (frameAdds (Frame.mk n [] []) (canonList ch)))
      = some (TreeNode.mk n false ch s).canon
  rw [closeFrame_frameAdds n (canonList ch), canon_dir n ch s]

mutual

/-- Well-formedness implies the childless-leaf condition. -/
theorem wf_leavesEmpty : ∀ t : TreeNode, t.wf = true → t.leavesEmpty = true
  | .mk n l ch s => by
    intro h
    rcases andE (show (_ && _ && _) = true from h) with ⟨h12, h3⟩
    rcases andE h12 with ⟨_, h2⟩
    exact andI h2 (wfList_leavesEmpty ch h3)

/-- Forest version of `wf_leavesEmpty`. -/
theorem wfList_leavesEmpty : ∀ cs : List TreeNode,
    wfList cs = true → leavesEmptyList cs = true
  | [] => by intro _; rfl
  | c :: cs => by
    intro h
    rcases andE h with ⟨h1, h2⟩
    exact andI (wf_leavesEmpty c h1) (wfList_leavesEmpty cs h2)

end

/-- C1, counterexample: the tree `r/[a/, b]` (directory `a` first, then
leaf `b`) is well formed, yet decoding its own unbounded listing encoding
yields `r/[a/[b]]` — the sibling `b` after the directory `a` is re-attached
INSIDE `a`, because `from_repr` truncates the ancestor stack to
`level + 1` frames while body levels start at 1.  The decoded tree differs
from the original in its children, so `from_repr(to_repr(T, depth=(0,0)))
== T` fails. -/
theorem text_roundtrip_cex :
    TreeNode.from_repr ((TreeNode.mk (chars "r") false
        [TreeNode.mk (chars "a") false [] [], TreeNode.mk (chars "b") true [] []]
        [chars "a"]).to_repr 0 0 0)
      = some (TreeNode.mk (chars "r") false
          [TreeNode.mk (chars "a") false [TreeNode.mk (chars "b") true [] []] []]
          [chars "a"]) ∧
    (TreeNode.mk (chars "r") false
          [TreeNode.mk (chars "a") false [TreeNode.mk (chars "b") true [] []] []]
          [chars "a"]).equiv
        (TreeNode.mk (chars "r") false
          [TreeNode.mk (chars "a") false [] [], TreeNode.mk (chars "b") true [] []]
          [chars "a"]) = false ∧
    (TreeNode.mk (chars "r") false
        [TreeNode.mk (chars "a") false [] [], TreeNode.mk (chars "b") true [] []]
        [chars "a"]).wf = true := by
  refine ⟨?_, by decide, by decide⟩
  rw [to_repr_eq_render]
  rfl

/-- C1 (amended): for every well-formed directory-rooted tree the diagram
round trip reproduces the tree: `from_md(to_md(T, depth=(0,0)))` is the
canonical reconstruction of `T`, which agrees with `T` on every node's
name, leaf/directory tag, children and child order.  The listing round
trip `from_repr(to_repr(T, depth=(0,0)))` does the same only on the
narrower class where every directory is the last among its siblings; on a
directory followed by a sibling it mis-attaches the sibling (see the
counterexample). -/
theorem text_roundtrip (n : Name) (ch : List TreeNode) (s : List Name)
    (hwf : (TreeNode.mk n false ch s).wf = true) :
    TreeNode.from_md ((TreeNode.mk n false ch s).to_md 0 true [] 0 0)
        = some (TreeNode.mk n false ch s).canon ∧
    (TreeNode.mk n false ch s).canon.equiv (TreeNode.mk n false ch s) = true ∧
    ((TreeNode.mk n false ch s).dirsLast = true →
      TreeNode.from_repr ((TreeNode.mk n false ch s).to_repr 0 0 0)
        = some (TreeNode.mk n false ch s).canon) :=
  ⟨from_md_to_md n ch s hwf,
   canon_equiv _ (wf_leavesEmpty _ hwf),
   fun hdl => from_repr_to_repr n ch s hwf hdl⟩

/-- C1, witness: the amended round trips on the concrete tree
`r/[a.txt, d/[x]]`. -/
theorem text_roundtrip_witness :
    TreeNode.from_md ((TreeNode.mk (chars "r") false
        [TreeNode.mk (chars "a.txt") true [] [],
         TreeNode.mk (chars "d") false [TreeNode.mk (chars "x") true [] []] []]
        [chars "d"]).to_md 0 true [] 0 0)
      = some (TreeNode.mk (chars "r") false
        [TreeNode.mk (chars "a.txt") true [] [],
         TreeNode.mk (chars "d") false [TreeNode.mk (chars "x") true [] []] []]
        [chars "d"]).canon ∧
    TreeNode.from_repr ((TreeNode.mk (chars "r") false
        [TreeNode.mk (chars "a.txt") true [] [],
         TreeNode.mk (chars "d") false [TreeNode.mk (chars "x") true [] []] []]
        [chars "d"]).to_repr 0 0 0)
      = some (TreeNode.mk (chars "r") false
        [TreeNode.mk (chars "a.txt") true [] [],
         TreeNode.mk (chars "d") false [TreeNode.mk (chars "x") true [] []] []]
        [chars "d"]).canon :=
  ⟨(text_roundtrip (chars "r") _ _ (by decide)).1,
   (text_roundtrip (chars "r") _ _ (by decide)).2.2 (by decide)⟩
